import Mathlib

/-!
# Verification of the struct-layout audit core

A shallow embedding, in Lean 4, of the analysis core of the `audit-struct`
repository (padding analyzer, field-reordering optimizer, false-sharing
analyzer, DWARF member/bitfield reconstruction, type resolver, and the
layout diff), together with proofs and refutations of the specification
claims about it.

Machine integers (`u64`, `u32`, `i64`) are modelled as `Nat`/`Int` with
explicit saturation, checked arithmetic, and wrap-arounds at the points
where the source performs them.  Floating-point-only outputs
(`padding_percentage`, `cache_line_density`, `savings_percent`) are not
part of any claim and are omitted from the embedded metric records.
-/

namespace AuditStruct

/-- Largest value of a Rust `u64`. -/
def U64MAX : Nat := 2 ^ 64 - 1

/-- `u64::saturating_add` (inputs are `u64` values, i.e. at most `U64MAX`). -/
def satAdd (a b : Nat) : Nat := min (a + b) U64MAX

/-- `u64::saturating_mul`. -/
def satMul (a b : Nat) : Nat := min (a * b) U64MAX

/-- `u64::checked_add`. -/
def checkedAdd (a b : Nat) : Option Nat :=
  if a + b ≤ U64MAX then some (a + b) else none

/-- `u64::checked_mul`. -/
def checkedMul (a b : Nat) : Option Nat :=
  if a * b ≤ U64MAX then some (a * b) else none

/-!
## Data model (`src/types.rs`)
-/

/-- `MemberLayout` from `src/types.rs`. -/
structure MemberLayout where
  name : String
  type_name : String
  offset : Option Nat
  size : Option Nat
  bit_offset : Option Nat := none
  bit_size : Option Nat := none
  is_atomic : Bool := false
deriving DecidableEq

/-- `PaddingHole` from `src/types.rs`. -/
structure PaddingHole where
  offset : Nat
  size : Nat
  after_member : Option String
deriving DecidableEq

/-- `SourceLocation` from `src/types.rs`. -/
structure SourceLocation where
  file : String
  line : Nat
deriving DecidableEq

/-- `AtomicMember` from `src/types.rs`. -/
structure AtomicMember where
  name : String
  type_name : String
  offset : Nat
  size : Nat
  cache_line : Nat
  end_cache_line : Nat
  spans_cache_lines : Bool
deriving DecidableEq

/-- `FalseSharingWarning` from `src/types.rs` (`gap_bytes` is an `i64`). -/
structure FalseSharingWarning where
  member_a : String
  member_b : String
  cache_line : Nat
  gap_bytes : Int
deriving DecidableEq

/-- `CacheLineSpanningWarning` from `src/types.rs`. -/
structure CacheLineSpanningWarning where
  member : String
  type_name : String
  offset : Nat
  size : Nat
  start_cache_line : Nat
  end_cache_line : Nat
  lines_spanned : Nat
deriving DecidableEq

/-- `FalseSharingAnalysis` from `src/types.rs`. -/
structure FalseSharingAnalysis where
  atomic_members : List AtomicMember := []
  warnings : List FalseSharingWarning := []
  spanning_warnings : List CacheLineSpanningWarning := []
deriving DecidableEq

/-- `LayoutMetrics` from `src/types.rs`; the two `f64` percentage fields are
omitted (they appear in no claim).  `partial` is rendered `partialFlag`. -/
structure LayoutMetrics where
  total_size : Nat := 0
  useful_size : Nat := 0
  padding_bytes : Nat := 0
  cache_lines_spanned : Nat := 0
  padding_holes : List PaddingHole := []
  partialFlag : Bool := false
  false_sharing : Option FalseSharingAnalysis := none
deriving DecidableEq

/-- `StructLayout` from `src/types.rs`. -/
structure StructLayout where
  name : String
  size : Nat
  alignment : Option Nat
  members : List MemberLayout
  metrics : LayoutMetrics := {}
  source_location : Option SourceLocation := none
deriving DecidableEq

/-!
## Padding analyzer (`src/analysis/padding.rs`)
-/

/-- The local `Span` struct of `analyze_layout`. -/
structure Span where
  start : Nat
  stop : Nat
  member_name : String
deriving DecidableEq

/-- The span-building loop of `analyze_layout`: members with unknown offset
or size set the `partial` flag and are skipped; zero-sized members are
skipped silently; otherwise a span `[offset, offset.saturating_add size)`
is recorded. -/
def buildSpans : List MemberLayout → List Span × Bool
  | [] => ([], false)
  | m :: rest =>
    let r := buildSpans rest
    match m.offset with
    | none => (r.1, true)
    | some o =>
      match m.size with
      | none => (r.1, true)
      | some s =>
        if s = 0 then r
        else (⟨o, satAdd o s, m.name⟩ :: r.1, r.2)

/-- The comparator of `spans.sort_by_key(|s| (s.start, s.end))`: ascending
lexicographic order on `(start, stop)`. -/
def spanLe (a b : Span) : Prop :=
  a.start < b.start ∨ (a.start = b.start ∧ a.stop ≤ b.stop)

instance : DecidableRel spanLe := fun a b => by unfold spanLe; infer_instance

/-- `spans.sort_by_key(|s| (s.start, s.end))`.  Rust's sort is stable, so
any stable sort with the same comparator computes the same list;
`List.insertionSort` is stable. -/
def sortSpans (spans : List Span) : List Span :=
  List.insertionSort spanLe spans

/-- State of the span-merging loop of `analyze_layout`. -/
structure MergeState where
  useful : Nat
  holes : List PaddingHole
  cs : Nat
  ce : Nat
  cem : Option String
deriving DecidableEq

/-- One iteration of the span-merging loop of `analyze_layout`. -/
def mergeStep (partialFlag : Bool) (st : MergeState) (sp : Span) : MergeState :=
  if st.ce < sp.start then
    { useful := satAdd st.useful (st.ce - st.cs)
      holes := st.holes ++
        (if partialFlag then [] else [⟨st.ce, sp.start - st.ce, st.cem⟩])
      cs := sp.start
      ce := sp.stop
      cem := some sp.member_name }
  else if st.ce ≤ sp.stop then
    { st with ce := sp.stop, cem := some sp.member_name }
  else st

/-- Sum of the sizes of a list of padding holes (the `padding_bytes` sum). -/
def holeSizeSum (holes : List PaddingHole) : Nat :=
  (holes.map (·.size)).sum

/-- Number of cache lines spanned: `size.div_ceil(cls)` truncated to `u32`
(`0` when the size is zero), as in `analyze_layout`. -/
def cacheLinesSpanned (size cls : Nat) : Nat :=
  if 0 < size then (size / cls + if size % cls = 0 then 0 else 1) % 2 ^ 32 else 0

/-- `analyze_layout` from `src/analysis/padding.rs`.  The `assert!` on
`cache_line_size` is modelled by returning `none` (a panic); on success the
freshly computed `LayoutMetrics` value is returned (the Rust function
stores it into `layout.metrics`). -/
def analyze_layout (layout : StructLayout) (cache_line_size : Nat) :
    Option LayoutMetrics :=
  if cache_line_size = 0 then none
  else
    let built := buildSpans layout.members
    let partialFlag := built.2
    let spans := sortSpans built.1
    match spans with
    | [] =>
      some { total_size := layout.size
             useful_size := 0
             padding_bytes := 0
             cache_lines_spanned := cacheLinesSpanned layout.size cache_line_size
             padding_holes := []
             partialFlag := partialFlag
             false_sharing := none }
    | sp0 :: rest =>
      let st := rest.foldl (mergeStep partialFlag)
        { useful := 0, holes := [], cs := sp0.start, ce := sp0.stop
          cem := some sp0.member_name }
      let useful := satAdd st.useful (st.ce - st.cs)
      let holes := st.holes ++
        (if partialFlag = false ∧ st.ce < layout.size then
          [⟨st.ce, layout.size - st.ce, st.cem⟩] else [])
      some { total_size := layout.size
             useful_size := useful
             padding_bytes := holeSizeSum holes
             cache_lines_spanned := cacheLinesSpanned layout.size cache_line_size
             padding_holes := holes
             partialFlag := partialFlag
             false_sharing := none }

/-!
## Claims C10 and C1: the padding analyzer
-/

/-- C10: `analyze_layout` panics (here: returns `none`) iff the cache-line
size is zero; for every positive cache-line size it completes on every
`StructLayout`, whatever the member contents. -/
theorem analyze_layout_none_iff_zero_cache_line (layout : StructLayout)
    (cache_line_size : Nat) :
    analyze_layout layout cache_line_size = none ↔ cache_line_size = 0 := by
  constructor
  · intro h
    by_contra hne
    unfold analyze_layout at h
    rw [if_neg hne] at h
    dsimp only at h
    rcases hs : sortSpans (buildSpans layout.members).1 with _ | ⟨sp0, rest⟩ <;>
      rw [hs] at h <;> exact Option.noConfusion h
  · intro h
    simp [analyze_layout, h]

/-- Every span produced by `buildSpans` comes from a member with known
offset and known nonzero size. -/
theorem buildSpans_mem (members : List MemberLayout) :
    ∀ sp ∈ (buildSpans members).1, ∃ m ∈ members, ∃ o s,
      m.offset = some o ∧ m.size = some s ∧ s ≠ 0 ∧ sp = ⟨o, satAdd o s, m.name⟩ := by
  induction members with
  | nil => intro sp h; simp [buildSpans] at h
  | cons m rest ih =>
    intro sp hsp
    rcases ho : m.offset with _ | o
    · simp only [buildSpans, ho] at hsp
      obtain ⟨m', hm', rest'⟩ := ih sp hsp
      exact ⟨m', List.mem_cons_of_mem _ hm', rest'⟩
    · rcases hs : m.size with _ | s
      · simp only [buildSpans, ho, hs] at hsp
        obtain ⟨m', hm', rest'⟩ := ih sp hsp
        exact ⟨m', List.mem_cons_of_mem _ hm', rest'⟩
      · by_cases hz : s = 0
        · simp only [buildSpans, ho, hs, if_pos hz] at hsp
          obtain ⟨m', hm', rest'⟩ := ih sp hsp
          exact ⟨m', List.mem_cons_of_mem _ hm', rest'⟩
        · simp only [buildSpans, ho, hs, if_neg hz] at hsp
          rcases List.mem_cons.1 hsp with h | h
          · exact ⟨m, List.mem_cons_self m rest, o, s, ho, hs, hz, h⟩
          · obtain ⟨m', hm', rest'⟩ := ih sp h
            exact ⟨m', List.mem_cons_of_mem _ hm', rest'⟩

/-- Conversely, every member with known offset and known nonzero size
produces a span starting at its offset. -/
theorem buildSpans_of_mem (members : List MemberLayout) (m : MemberLayout)
    (hm : m ∈ members) (o s : Nat) (ho : m.offset = some o)
    (hs : m.size = some s) (hz : s ≠ 0) :
    ∃ sp ∈ (buildSpans members).1, sp.start = o := by
  induction members with
  | nil => cases hm
  | cons m0 rest ih =>
    rcases List.mem_cons.1 hm with h | h
    · subst h
      refine ⟨⟨o, satAdd o s, m.name⟩, ?_, rfl⟩
      simp only [buildSpans, ho, hs, if_neg hz]
      exact List.mem_cons_self _ _
    · obtain ⟨sp, hsp, hst⟩ := ih h
      refine ⟨sp, ?_, hst⟩
      rcases ho0 : m0.offset with _ | o0
      · simp only [buildSpans, ho0]; exact hsp
      · rcases hs0 : m0.size with _ | s0
        · simp only [buildSpans, ho0, hs0]; exact hsp
        · by_cases hz0 : s0 = 0
          · simp only [buildSpans, ho0, hs0, if_pos hz0]; exact hsp
          · simp only [buildSpans, ho0, hs0, if_neg hz0]
            exact List.mem_cons_of_mem _ hsp

/-- Wellformedness of a span with respect to a declared size. -/
def spanWF (size : Nat) (sp : Span) : Prop :=
  sp.start ≤ sp.stop ∧ sp.stop ≤ size

theorem holeSizeSum_append (a b : List PaddingHole) :
    holeSizeSum (a ++ b) = holeSizeSum a + holeSizeSum b := by
  simp [holeSizeSum]

theorem holeSizeSum_single (h : PaddingHole) : holeSizeSum [h] = h.size := by
  simp [holeSizeSum]

theorem holeSizeSum_nil : holeSizeSum [] = 0 := by
  simp [holeSizeSum]

/-- Invariant of the span-merging loop of `analyze_layout` (with the
`partial` flag clear): the accumulated useful bytes plus accumulated hole
bytes plus the open region's extent always equal the distance from the
first span's start to the current region's end. -/
theorem mergeFold_invariant (size s0 : Nat) (hsz : size ≤ U64MAX) :
    ∀ (spans : List Span) (st : MergeState),
      (∀ sp ∈ spans, spanWF size sp) →
      st.cs ≤ st.ce → st.ce ≤ size → s0 ≤ st.cs →
      st.useful + holeSizeSum st.holes + (st.ce - st.cs) = st.ce - s0 →
      ((spans.foldl (mergeStep false) st).cs ≤ (spans.foldl (mergeStep false) st).ce ∧
        (spans.foldl (mergeStep false) st).ce ≤ size ∧
        s0 ≤ (spans.foldl (mergeStep false) st).cs ∧
        (spans.foldl (mergeStep false) st).useful +
          holeSizeSum (spans.foldl (mergeStep false) st).holes +
          ((spans.foldl (mergeStep false) st).ce - (spans.foldl (mergeStep false) st).cs) =
          (spans.foldl (mergeStep false) st).ce - s0) := by
  intro spans
  induction spans with
  | nil => intro st _ h1 h2 h3 h4; exact ⟨h1, h2, h3, h4⟩
  | cons sp rest ih =>
    intro st hwf h1 h2 h3 h4
    obtain ⟨uf, hls, cs, ce, cem⟩ := st
    obtain ⟨b0, b1, nm⟩ := sp
    dsimp only at h1 h2 h3 h4
    have hws : spanWF size ⟨b0, b1, nm⟩ := hwf _ (List.mem_cons_self _ _)
    obtain ⟨hws1, hws2⟩ := hws
    dsimp only at hws1 hws2
    have hwr : ∀ x ∈ rest, spanWF size x := fun x hx => hwf x (List.mem_cons_of_mem _ hx)
    simp only [List.foldl_cons]
    by_cases hA : ce < b0
    · have hsat : satAdd uf (ce - cs) = uf + (ce - cs) := by
        unfold satAdd U64MAX
        unfold U64MAX at hsz
        omega
      have hstep : mergeStep false ⟨uf, hls, cs, ce, cem⟩ ⟨b0, b1, nm⟩ =
          { useful := uf + (ce - cs)
            holes := hls ++ [⟨ce, b0 - ce, cem⟩]
            cs := b0, ce := b1, cem := some nm } := by
        unfold mergeStep
        dsimp only
        rw [if_pos hA, hsat]
        simp
      rw [hstep]
      apply ih _ hwr
      · exact hws1
      · exact hws2
      · dsimp only; omega
      · dsimp only
        rw [holeSizeSum_append, holeSizeSum_single]
        dsimp only
        omega
    · by_cases hB : ce ≤ b1
      · have hstep : mergeStep false ⟨uf, hls, cs, ce, cem⟩ ⟨b0, b1, nm⟩ =
            ⟨uf, hls, cs, b1, some nm⟩ := by
          unfold mergeStep
          dsimp only
          rw [if_neg hA, if_pos hB]
        rw [hstep]
        apply ih _ hwr
        · dsimp only; omega
        · exact hws2
        · exact h3
        · dsimp only; omega
      · have hstep : mergeStep false ⟨uf, hls, cs, ce, cem⟩ ⟨b0, b1, nm⟩ =
            ⟨uf, hls, cs, ce, cem⟩ := by
          unfold mergeStep
          dsimp only
          rw [if_neg hA, if_neg hB]
        rw [hstep]
        exact ih _ hwr h1 h2 h3 h4

instance : IsTotal Span spanLe :=
  ⟨fun a b => by unfold spanLe; omega⟩

instance : IsTrans Span spanLe :=
  ⟨fun a b c hab hbc => by unfold spanLe at *; omega⟩

theorem sortSpans_perm (spans : List Span) :
    List.Perm (sortSpans spans) spans :=
  List.perm_insertionSort spanLe spans

theorem sortSpans_sorted (spans : List Span) :
    List.Sorted spanLe (sortSpans spans) :=
  List.sorted_insertionSort spanLe spans

/-- C1 (amended): whenever `partial` is false, some member has a known
offset `0` and known nonzero size, and every member's byte span stays
within the declared total size, the useful size plus the total size of the
reported padding holes equals the declared total size. -/
theorem analyze_layout_padding_sum (layout : StructLayout)
    (cache_line_size : Nat) (mets : LayoutMetrics)
    (hsz : layout.size ≤ U64MAX)
    (hin : ∀ m ∈ layout.members, ∀ o s, m.offset = some o → m.size = some s →
      s ≠ 0 → o + s ≤ layout.size)
    (hzero : ∃ m ∈ layout.members, m.offset = some 0 ∧ ∃ s, m.size = some s ∧ s ≠ 0)
    (hres : analyze_layout layout cache_line_size = some mets)
    (hpart : mets.partialFlag = false) :
    mets.useful_size + holeSizeSum mets.padding_holes = layout.size := by
  have hc : cache_line_size ≠ 0 := by
    intro h
    rw [(analyze_layout_none_iff_zero_cache_line layout cache_line_size).2 h] at hres
    exact Option.noConfusion hres
  unfold analyze_layout at hres
  rw [if_neg hc] at hres
  dsimp only at hres
  have hwfall : ∀ sp ∈ sortSpans (buildSpans layout.members).1,
      spanWF layout.size sp := by
    intro sp hsp
    have hsp' : sp ∈ (buildSpans layout.members).1 :=
      (sortSpans_perm _).mem_iff.1 hsp
    obtain ⟨m, hm, o, s, ho, hs', hz, rfl⟩ := buildSpans_mem _ sp hsp'
    have hle : o + s ≤ layout.size := hin m hm o s ho hs' hz
    have : satAdd o s = o + s := by
      unfold satAdd U64MAX
      unfold U64MAX at hsz
      omega
    constructor
    · simp only [this]; omega
    · simp only [this]; omega
  obtain ⟨m0, hm0, ho0, s00, hs00, hz00⟩ := hzero
  obtain ⟨spz, hspz, hspz0⟩ :=
    buildSpans_of_mem layout.members m0 hm0 0 s00 ho0 hs00 hz00
  have hspzs : spz ∈ sortSpans (buildSpans layout.members).1 :=
    (sortSpans_perm _).mem_iff.2 hspz
  rcases hs : sortSpans (buildSpans layout.members).1 with _ | ⟨sp0, rest⟩
  · rw [hs] at hspzs; cases hspzs
  · rw [hs] at hres
    dsimp only at hres
    have hrec := Option.some.inj hres
    have hpf : (buildSpans layout.members).2 = false := by
      rw [← hrec] at hpart
      exact hpart
    rw [← hrec]
    dsimp only
    rw [hpf]
    have hsp00 : sp0.start = 0 := by
      rw [hs] at hspzs
      have hsorted := sortSpans_sorted (buildSpans layout.members).1
      rw [hs] at hsorted
      rcases List.mem_cons.1 hspzs with rfl | hmem
      · exact hspz0
      · have := (List.pairwise_cons.1 hsorted).1 spz hmem
        unfold spanLe at this
        omega
    have hwf' : ∀ sp ∈ sp0 :: rest, spanWF layout.size sp := by
      rw [← hs]; exact hwfall
    have hwf0 := hwf' sp0 (List.mem_cons_self _ _)
    have hinv := mergeFold_invariant layout.size sp0.start hsz rest
      { useful := 0, holes := [], cs := sp0.start, ce := sp0.stop
        cem := some sp0.member_name }
      (fun x hx => hwf' x (List.mem_cons_of_mem _ hx))
      hwf0.1 hwf0.2 (le_refl _) (by dsimp only; rw [holeSizeSum_nil]; omega)
    set st := rest.foldl (mergeStep false)
      { useful := 0, holes := [], cs := sp0.start, ce := sp0.stop
        cem := some sp0.member_name } with hstdef
    obtain ⟨k1, k2, k3, k4⟩ := hinv
    have hsat : satAdd st.useful (st.ce - st.cs) = st.useful + (st.ce - st.cs) := by
      unfold satAdd U64MAX
      unfold U64MAX at hsz
      omega
    rw [hsat]
    simp only [eq_self_iff_true, true_and]
    by_cases hlt : st.ce < layout.size
    · rw [if_pos hlt, holeSizeSum_append, holeSizeSum_single]
      dsimp only
      omega
    · rw [if_neg hlt, List.append_nil]
      omega

/-- A `StructLayout` with declared size 12 and no members at all. -/
def padEmptyTwelve : StructLayout :=
  { name := "E", size := 12, alignment := none, members := [] }

/-- C1 counterexample: on a struct with declared size 12 and no members,
`analyze_layout` leaves `partial` false, yet the useful size plus the sum
of all reported padding holes is `0`, not the declared size `12`. -/
theorem analyze_layout_padding_sum_counterexample :
    (analyze_layout padEmptyTwelve 64).map
        (fun m => (m.partialFlag, m.useful_size + holeSizeSum m.padding_holes)) =
      some (false, 0) ∧ padEmptyTwelve.size = 12 ∧ (0 : Nat) ≠ 12 := by
  refine ⟨by decide, by decide, by decide⟩

/-- Scenario A of the specification: `char@0(1)`, `int@4(4)`, `char@8(1)`
with declared size 12. -/
def padScenarioA : StructLayout :=
  { name := "A", size := 12, alignment := some 4
    members :=
      [ { name := "a", type_name := "char", offset := some 0, size := some 1 }
      , { name := "b", type_name := "int", offset := some 4, size := some 4 }
      , { name := "c", type_name := "char", offset := some 8, size := some 1 } ] }

/-- The metrics `analyze_layout` computes for scenario A. -/
def padMetricsA : LayoutMetrics :=
  { total_size := 12, useful_size := 6, padding_bytes := 6
    cache_lines_spanned := 1
    padding_holes := [⟨1, 3, some "a"⟩, ⟨9, 3, some "c"⟩]
    partialFlag := false, false_sharing := none }

/-- Witness for the amended C1 theorem at scenario A. -/
theorem analyze_layout_padding_sum_witness :
    padMetricsA.useful_size + holeSizeSum padMetricsA.padding_holes =
      padScenarioA.size :=
  analyze_layout_padding_sum padScenarioA 64 padMetricsA
    (by decide)
    (by
      intro m hm o s ho hs hz
      have hsz12 : padScenarioA.size = 12 := rfl
      rw [hsz12]
      fin_cases hm <;> (injection ho with ho; injection hs with hs; omega))
    ⟨{ name := "a", type_name := "char", offset := some 0, size := some 1 },
      by decide, rfl, 1, rfl, by decide⟩
    (by decide)
    (by decide)

/-!
## Layout optimizer (`src/analysis/optimize.rs`)
-/

/-- `OptimizedMember` from `src/analysis/optimize.rs`. -/
structure OptimizedMember where
  name : String
  type_name : String
  offset : Nat
  size : Nat
  alignment : Nat
  bit_offset : Option Nat
  bit_size : Option Nat
deriving DecidableEq

/-- `OptimizedLayout` from `src/analysis/optimize.rs` (without the `f64`
field `savings_percent`, which appears in no claim). -/
structure OptimizedLayout where
  name : String
  original_size : Nat
  optimized_size : Nat
  savings_bytes : Nat
  struct_alignment : Nat
  original_members : List OptimizedMember
  optimized_members : List OptimizedMember
  skipped_members : List String
  has_bitfields : Bool
deriving DecidableEq

/-- Fuel-based floor of the base-2 logarithm (64 units of fuel suffice for
every `u64` value; structural recursion so that the kernel can evaluate). -/
def floorLog2Aux : Nat → Nat → Nat
  | 0, _ => 0
  | fuel + 1, n => if n ≤ 1 then 0 else floorLog2Aux fuel (n / 2) + 1

/-- `u64::next_power_of_two`, release semantics: the result wraps to `0`
when it would overflow (inputs above `2^63`); `0` and `1` map to `1`. -/
def nextPowerOfTwo (n : Nat) : Nat :=
  if n ≤ 1 then 1
  else if 2 ^ 63 < n then 0
  else
    let l := floorLog2Aux 64 n
    if n = 2 ^ l then n else 2 ^ (l + 1)

/-- `infer_alignment` from `src/analysis/optimize.rs`. -/
def infer_alignment (size max_align : Nat) : Nat :=
  if size = 0 then 1
  else max (min (nextPowerOfTwo size) max_align) 1

/-- `align_up` from `src/analysis/optimize.rs` (checked addition, with
`u64::MAX` as the saturated result on overflow). -/
def align_up (value alignment : Nat) : Nat :=
  if alignment ≤ 1 then value
  else if value + (alignment - 1) ≤ U64MAX then
    ((value + alignment - 1) / alignment) * alignment
  else U64MAX

/-- `SortableUnit` from `src/analysis/optimize.rs`. -/
structure SortableUnit where
  members : List OptimizedMember
  total_size : Nat
  alignment : Nat
deriving DecidableEq

/-- One iteration of the grouping loop of `find_bitfield_groups`.  State:
`(groups, current_group, current_offset)`. -/
def fbgStep (st : List (List Nat) × List Nat × Option Nat)
    (p : Nat × MemberLayout) : List (List Nat) × List Nat × Option Nat :=
  let groups := st.1
  let cur := st.2.1
  let curOff := st.2.2
  let idx := p.1
  let m := p.2
  if m.bit_size.isSome then
    let baseOffset := m.offset
    let same : Bool :=
      match curOff, baseOffset with
      | some c, some b => decide (c = b)
      | _, _ => false
    if same = true ∧ cur ≠ [] then (groups, cur ++ [idx], curOff)
    else ((if cur ≠ [] then groups ++ [cur] else groups), [idx], baseOffset)
  else if cur ≠ [] then (groups ++ [cur], [], none)
  else st

/-- `find_bitfield_groups` from `src/analysis/optimize.rs`. -/
def find_bitfield_groups (members : List MemberLayout) : List (List Nat) :=
  let st := members.enum.foldl fbgStep ([], [], none)
  st.1 ++ (if st.2.1 ≠ [] then [st.2.1] else [])

/-- The `OptimizedMember` derived from a member with known offset `o` and
known nonzero size `s`. -/
def deriveMember (max_align : Nat) (m : MemberLayout) (o s : Nat) :
    OptimizedMember :=
  { name := m.name, type_name := m.type_name, offset := o, size := s
    alignment := infer_alignment s max_align
    bit_offset := m.bit_offset, bit_size := m.bit_size }

/-- The `original_members` / `skipped_members` construction loop of
`optimize_layout`: members whose size or offset is unknown, or whose size
is zero, are skipped; the rest get an inferred alignment. -/
def buildOriginal (max_align : Nat) :
    List MemberLayout → List OptimizedMember × List String
  | [] => ([], [])
  | m :: rest =>
    let r := buildOriginal max_align rest
    match m.size with
    | none => (r.1, m.name :: r.2)
    | some s =>
      match m.offset with
      | none => (r.1, m.name :: r.2)
      | some _o =>
        if s = 0 then (r.1, (m.name ++ " (zero-size)") :: r.2)
        else (deriveMember max_align m _o s :: r.1, r.2)

/-- `layout.members.get(idx).and_then(|lm| original_members.iter().find(|m|
m.name == lm.name).cloned())`: the name-based lookup used for bitfield
group conversion. -/
def convertGroupMember (members : List MemberLayout)
    (original : List OptimizedMember) (idx : Nat) : Option OptimizedMember :=
  (members.get? idx).bind fun lm => original.find? fun om => om.name == lm.name

/-- Build the `SortableUnit` of one bitfield group (`None` when no member
of the group could be converted, matching the `continue`s in the source):
total size is the first converted member's size, alignment the maximum
member alignment. -/
def mkGroupUnit (members : List MemberLayout)
    (original : List OptimizedMember) (g : List Nat) : Option SortableUnit :=
  let gm := g.filterMap (convertGroupMember members original)
  match gm with
  | [] => none
  | m0 :: _ => some ⟨gm, m0.size, ((gm.map (·.alignment)).max?).getD 1⟩

/-- `str::starts_with` on valid UTF-8 strings, via the character list
(kernel-computable, equivalent to Rust's byte-prefix test). -/
def strStartsWith (s pre : String) : Bool :=
  pre.data.isPrefixOf s.data

/-- The defensive `(bitfield, missing info)` skipped-name pass of
`optimize_layout` (the `HashSet` iteration is modelled in group order). -/
def missingBitfieldNames (members : List MemberLayout) (skipped0 : List String)
    (bidx converted : List Nat) : List String :=
  (((bidx.filter fun idx => ¬ converted.contains idx).filterMap
      fun idx => members.get? idx).filter fun mem =>
        ¬ skipped0.contains mem.name ∧
          ¬ skipped0.any fun s2 => strStartsWith s2 mem.name).map
    fun mem => mem.name ++ " (bitfield, missing info)"

/-- The single-member units for non-bitfield members of `optimize_layout`
(the lookup is by name in `original_members`). -/
def standaloneUnits (members : List MemberLayout)
    (original : List OptimizedMember) (bidx processed : List Nat) :
    List SortableUnit :=
  members.enum.filterMap fun p =>
    if processed.contains p.1 ∨ bidx.contains p.1 then none
    else (original.find? fun om => om.name == p.2.name).map
      fun om => ⟨[om], om.size, om.alignment⟩

/-- The sort order of `optimize_layout`'s unit sort: larger alignment
first, then larger total size. -/
def unitLe (a b : SortableUnit) : Prop :=
  b.alignment < a.alignment ∨
    (a.alignment = b.alignment ∧ b.total_size ≤ a.total_size)

instance : DecidableRel unitLe := fun a b => by unfold unitLe; infer_instance

instance : IsTotal SortableUnit unitLe :=
  ⟨fun a b => by unfold unitLe; omega⟩

instance : IsTrans SortableUnit unitLe :=
  ⟨fun a b c hab hbc => by unfold unitLe at *; omega⟩

/-- Stamping one member during greedy placement: the whole unit's aligned
offset is written, and for bitfield members the stale `bit_offset` is
cleared (see the comment in `optimize_layout`). -/
def placeMember (off : Nat) (m : OptimizedMember) : OptimizedMember :=
  { m with offset := off
           bit_offset := if m.bit_size.isSome then none else m.bit_offset }

/-- The greedy placement loop of `optimize_layout`: returns the placed
member list and the final running offset. -/
def placeUnits (cur : Nat) : List SortableUnit → List OptimizedMember × Nat
  | [] => ([], cur)
  | u :: rest =>
    let aligned := align_up cur u.alignment
    let r := placeUnits (satAdd aligned u.total_size) rest
    (u.members.map (placeMember aligned) ++ r.1, r.2)

/-- `optimize_layout` from `src/analysis/optimize.rs`. -/
def optimize_layout (layout : StructLayout) (max_align0 : Nat) :
    OptimizedLayout :=
  let max_align := max max_align0 1
  let inferred :=
    (((layout.members.filterMap (·.size)).map
      fun s => infer_alignment s max_align).max?).getD 1
  let struct_alignment := min (layout.alignment.getD inferred) max_align
  let groups := find_bitfield_groups layout.members
  let bidx := groups.flatten
  let os := buildOriginal max_align layout.members
  let original := os.1
  let skipped0 := os.2
  let groupUnits := groups.filterMap (mkGroupUnit layout.members original)
  let converted := bidx.filter
    fun idx => (convertGroupMember layout.members original idx).isSome
  let skipped1 := skipped0 ++
    missingBitfieldNames layout.members skipped0 bidx converted
  let units := groupUnits ++ standaloneUnits layout.members original bidx converted
  let sorted := List.insertionSort unitLe units
  let placed := placeUnits 0 sorted
  let optimized_size := align_up placed.2 struct_alignment
  { name := layout.name
    original_size := layout.size
    optimized_size := optimized_size
    savings_bytes := layout.size - optimized_size
    struct_alignment := struct_alignment
    original_members := original
    optimized_members := placed.1
    skipped_members := skipped1
    has_bitfields := decide (groups ≠ []) }

/-- Modelled from the claim's construction for idempotence checking: a
fresh `StructLayout` built from an optimizer run's output — the optimized
members with their new offsets, `optimized_size` as the declared size and
`struct_alignment` as the alignment. -/
def rebuildLayout (o : OptimizedLayout) : StructLayout :=
  { name := o.name
    size := o.optimized_size
    alignment := some o.struct_alignment
    members := o.optimized_members.map fun m =>
      { name := m.name, type_name := m.type_name, offset := some m.offset
        size := some m.size, bit_offset := m.bit_offset
        bit_size := m.bit_size } }

/-!
## Claim C4: savings versus size round-trip
-/

/-- A struct whose declared size (4) understates its single 8-byte member. -/
def undersizedEx : StructLayout :=
  { name := "T", size := 4, alignment := none
    members := [{ name := "a", type_name := "u64", offset := some 0, size := some 8 }] }

/-- C4 counterexample: `savings_bytes == 0` yet `optimized_size` (8) differs
from `original_size` (4): `saturating_sub` hides the case where repacking
cannot fit below a too-small declared size. -/
theorem optimize_savings_zero_counterexample :
    (optimize_layout undersizedEx 8).savings_bytes = 0 ∧
      (optimize_layout undersizedEx 8).optimized_size = 8 ∧
      (optimize_layout undersizedEx 8).original_size = 4 ∧ (8 : Nat) ≠ 4 := by
  refine ⟨by decide, by decide, by decide, by decide⟩

/-- C4 (amended): `savings_bytes == 0` holds exactly when the optimized
size is at least the original (declared) size — savings are computed with
`u64::saturating_sub`, so zero savings means "not smaller", not "equal". -/
theorem optimize_savings_zero_iff (layout : StructLayout) (max_align : Nat) :
    (optimize_layout layout max_align).savings_bytes = 0 ↔
      (optimize_layout layout max_align).original_size ≤
        (optimize_layout layout max_align).optimized_size := by
  unfold optimize_layout
  dsimp only
  omega

/-!
## Claim C2: bitfield units under optimization
-/

/-- Two bitfield members sharing storage unit at byte offset 0, with
internal bit offsets 0 and 3. -/
def bitfieldPairEx : StructLayout :=
  { name := "B", size := 4, alignment := some 4
    members :=
      [ { name := "f", type_name := "unsigned int", offset := some 0, size := some 4
          bit_offset := some 0, bit_size := some 3 }
      , { name := "g", type_name := "unsigned int", offset := some 0, size := some 4
          bit_offset := some 3, bit_size := some 2 } ] }

/-- C2 counterexample: the optimizer clears the grouped bitfields'
`bit_offset` to `None` instead of preserving it (`g` had `bit_offset`
`Some 3` in the input); the group does stay contiguous with `bit_size`
kept. -/
theorem optimize_bitfield_counterexample :
    ((optimize_layout bitfieldPairEx 8).optimized_members.map
        fun m => (m.name, m.bit_offset, m.bit_size)) =
      [("f", none, some 3), ("g", none, some 2)] ∧
      (bitfieldPairEx.members.map (·.bit_offset)) = [some 0, some 3] := by
  refine ⟨by decide, by decide⟩

/-!
## Placement machinery: the final offset depends only on the sorted
`(alignment, total_size)` key sequence
-/

/-- The `(alignment, total_size)` key of a sortable unit. -/
def unitKey (u : SortableUnit) : Nat × Nat := (u.alignment, u.total_size)

/-- Keys of a unit list. -/
def keysOf (us : List SortableUnit) : List (Nat × Nat) := us.map unitKey

/-- The sort order of `optimize_layout` on keys. -/
def keyLe (a b : Nat × Nat) : Prop :=
  b.1 < a.1 ∨ (a.1 = b.1 ∧ b.2 ≤ a.2)

instance : DecidableRel keyLe := fun a b => by unfold keyLe; infer_instance

instance : IsTotal (Nat × Nat) keyLe := ⟨fun a b => by unfold keyLe; omega⟩

instance : IsTrans (Nat × Nat) keyLe :=
  ⟨fun a b c hab hbc => by unfold keyLe at *; omega⟩

instance : IsAntisymm (Nat × Nat) keyLe :=
  ⟨fun a b hab hba => by
    unfold keyLe at *
    obtain ⟨x, y⟩ := a
    obtain ⟨z, w⟩ := b
    simp only [Prod.mk.injEq]
    dsimp only at hab hba
    omega⟩

/-- One step of the running-offset computation. -/
def placeStep (cur : Nat) (k : Nat × Nat) : Nat :=
  satAdd (align_up cur k.1) k.2

/-- The running offset after placing a key sequence. -/
def placeFinal : Nat → List (Nat × Nat) → Nat
  | cur, [] => cur
  | cur, k :: r => placeFinal (placeStep cur k) r

/-- Key-level sort. -/
def sortKeys (ks : List (Nat × Nat)) : List (Nat × Nat) :=
  List.insertionSort keyLe ks

theorem placeUnits_snd (cur : Nat) (us : List SortableUnit) :
    (placeUnits cur us).2 = placeFinal cur (keysOf us) := by
  induction us generalizing cur with
  | nil => rfl
  | cons u rest ih =>
    simp only [placeUnits, keysOf, List.map_cons, placeFinal]
    exact ih _

theorem placeUnits_fst_append (cur : Nat) (xs ys : List SortableUnit) :
    (placeUnits cur (xs ++ ys)).1 =
      (placeUnits cur xs).1 ++ (placeUnits ((placeUnits cur xs).2) ys).1 := by
  induction xs generalizing cur with
  | nil => rfl
  | cons u rest ih =>
    simp only [List.cons_append, placeUnits, List.append_assoc]
    rw [show rest.append ys = rest ++ ys from rfl, ih]

theorem align_up_mono (a : Nat) {c c' : Nat} (h : c ≤ c') :
    align_up c a ≤ align_up c' a := by
  unfold align_up
  by_cases h1 : a ≤ 1
  · rw [if_pos h1, if_pos h1]; exact h
  · rw [if_neg h1, if_neg h1]
    by_cases h2 : c' + (a - 1) ≤ U64MAX
    · have h3 : c + (a - 1) ≤ U64MAX := by omega
      rw [if_pos h2, if_pos h3]
      exact Nat.mul_le_mul_right a (Nat.div_le_div_right (by omega))
    · rw [if_neg h2]
      by_cases h3 : c + (a - 1) ≤ U64MAX
      · rw [if_pos h3]
        calc (c + a - 1) / a * a ≤ c + a - 1 := Nat.div_mul_le_self _ _
          _ ≤ U64MAX := by omega
      · rw [if_neg h3]

theorem align_up_ge (a : Nat) {c : Nat} (h : c ≤ U64MAX) :
    c ≤ align_up c a := by
  unfold align_up
  by_cases h1 : a ≤ 1
  · rw [if_pos h1]
  · rw [if_neg h1]
    by_cases h2 : c + (a - 1) ≤ U64MAX
    · rw [if_pos h2]
      have hd := Nat.div_add_mod (c + a - 1) a
      have hm : (c + a - 1) % a < a := Nat.mod_lt _ (by omega)
      have hmul : (c + a - 1) / a * a = a * ((c + a - 1) / a) := Nat.mul_comm _ _
      omega
    · rw [if_neg h2]; exact h

theorem align_up_le_max (a : Nat) {c : Nat} (h : c ≤ U64MAX) :
    align_up c a ≤ U64MAX := by
  unfold align_up
  by_cases h1 : a ≤ 1
  · rw [if_pos h1]; exact h
  · rw [if_neg h1]
    by_cases h2 : c + (a - 1) ≤ U64MAX
    · rw [if_pos h2]
      calc (c + a - 1) / a * a ≤ c + a - 1 := Nat.div_mul_le_self _ _
        _ ≤ U64MAX := by omega
    · rw [if_neg h2]

theorem placeStep_ge (k : Nat × Nat) {c : Nat} (h : c ≤ U64MAX) :
    c ≤ placeStep c k := by
  unfold placeStep satAdd
  have := align_up_ge k.1 h
  have := align_up_le_max k.1 h
  omega

theorem placeStep_le_max (k : Nat × Nat) {c : Nat} (h : c ≤ U64MAX) :
    placeStep c k ≤ U64MAX := by
  unfold placeStep satAdd
  omega

theorem placeStep_mono (k : Nat × Nat) {c c' : Nat} (h : c ≤ c') :
    placeStep c k ≤ placeStep c' k := by
  unfold placeStep satAdd
  have := align_up_mono k.1 h
  omega

theorem placeFinal_le_max (ks : List (Nat × Nat)) {c : Nat} (h : c ≤ U64MAX) :
    placeFinal c ks ≤ U64MAX := by
  induction ks generalizing c with
  | nil => exact h
  | cons k rest ih => exact ih (placeStep_le_max k h)

theorem placeFinal_mono (ks : List (Nat × Nat)) {c c' : Nat} (h : c ≤ c') :
    placeFinal c ks ≤ placeFinal c' ks := by
  induction ks generalizing c c' with
  | nil => exact h
  | cons k rest ih => exact ih (placeStep_mono k h)

theorem placeFinal_ge (ks : List (Nat × Nat)) {c : Nat} (h : c ≤ U64MAX) :
    c ≤ placeFinal c ks := by
  induction ks generalizing c with
  | nil => exact le_refl _
  | cons k rest ih =>
    exact le_trans (placeStep_ge k h) (ih (placeStep_le_max k h))

/-- Placing a sublist of a key sequence never ends beyond placing the whole
sequence. -/
theorem placeFinal_sublist {ks ks' : List (Nat × Nat)} (hsub : ks.Sublist ks')
    {c : Nat} (h : c ≤ U64MAX) : placeFinal c ks ≤ placeFinal c ks' := by
  induction hsub generalizing c with
  | slnil => exact le_refl _
  | cons k _hs ih =>
    calc placeFinal c _ ≤ placeFinal (placeStep c k) _ :=
          placeFinal_mono _ (placeStep_ge k h)
      _ ≤ _ := ih (placeStep_le_max k h)
  | cons₂ k _hs ih => exact ih (placeStep_le_max k h)

theorem sortKeys_perm (ks : List (Nat × Nat)) : List.Perm (sortKeys ks) ks :=
  List.perm_insertionSort keyLe ks

theorem sortKeys_sorted (ks : List (Nat × Nat)) :
    List.Sorted keyLe (sortKeys ks) :=
  List.sorted_insertionSort keyLe ks

/-- Placing the sorted version of a key sub-multiset never ends beyond
placing the sorted whole. -/
theorem placeFinal_subperm {ks ks' : List (Nat × Nat)}
    (hsub : ks.Subperm ks') : placeFinal 0 (sortKeys ks) ≤ placeFinal 0 (sortKeys ks') := by
  have hsub2 : (sortKeys ks).Subperm (sortKeys ks') :=
    ((sortKeys_perm ks).subperm.trans hsub).trans
      (sortKeys_perm ks').symm.subperm
  exact placeFinal_sublist
    (List.sublist_of_subperm_of_sorted hsub2 (sortKeys_sorted ks) (sortKeys_sorted ks'))
    (by unfold U64MAX; omega)

/-- The keys of the unit sort coincide with the key sort of the keys. -/
theorem keysOf_sort (us : List SortableUnit) :
    keysOf (List.insertionSort unitLe us) = sortKeys (keysOf us) := by
  apply List.eq_of_perm_of_sorted (r := keyLe)
  · exact ((List.perm_insertionSort unitLe us).map unitKey).trans
      (sortKeys_perm (keysOf us)).symm
  · have hs := List.sorted_insertionSort unitLe us
    unfold keysOf
    exact List.Pairwise.map unitKey (fun a b hab => hab) hs
  · exact sortKeys_sorted _

/-!
## Structure of `buildOriginal` and name-based lookup
-/

theorem buildOriginal_of_mem (max_align : Nat) (members : List MemberLayout)
    (m : MemberLayout) (hm : m ∈ members) (o s : Nat) (ho : m.offset = some o)
    (hs : m.size = some s) (hz : s ≠ 0) :
    deriveMember max_align m o s ∈ (buildOriginal max_align members).1 := by
  induction members with
  | nil => cases hm
  | cons m0 rest ih =>
    rcases List.mem_cons.1 hm with rfl | h
    · simp only [buildOriginal, hs, ho, if_neg hz]
      exact List.mem_cons_self _ _
    · have hrec := ih h
      rcases hs0 : m0.size with _ | s0
      · simp only [buildOriginal, hs0]; exact hrec
      · rcases ho0 : m0.offset with _ | o0
        · simp only [buildOriginal, hs0, ho0]; exact hrec
        · by_cases hz0 : s0 = 0
          · simp only [buildOriginal, hs0, ho0, if_pos hz0]; exact hrec
          · simp only [buildOriginal, hs0, ho0, if_neg hz0]
            exact List.mem_cons_of_mem _ hrec

theorem buildOriginal_mem (max_align : Nat) (members : List MemberLayout) :
    ∀ om ∈ (buildOriginal max_align members).1, ∃ m ∈ members, ∃ o s,
      m.offset = some o ∧ m.size = some s ∧ s ≠ 0 ∧
        om = deriveMember max_align m o s := by
  induction members with
  | nil => intro om h; simp [buildOriginal] at h
  | cons m0 rest ih =>
    intro om hom
    rcases hs0 : m0.size with _ | s0
    · simp only [buildOriginal, hs0] at hom
      obtain ⟨m, hm, r⟩ := ih om hom
      exact ⟨m, List.mem_cons_of_mem _ hm, r⟩
    · rcases ho0 : m0.offset with _ | o0
      · simp only [buildOriginal, hs0, ho0] at hom
        obtain ⟨m, hm, r⟩ := ih om hom
        exact ⟨m, List.mem_cons_of_mem _ hm, r⟩
      · by_cases hz0 : s0 = 0
        · simp only [buildOriginal, hs0, ho0, if_pos hz0] at hom
          obtain ⟨m, hm, r⟩ := ih om hom
          exact ⟨m, List.mem_cons_of_mem _ hm, r⟩
        · simp only [buildOriginal, hs0, ho0, if_neg hz0] at hom
          rcases List.mem_cons.1 hom with rfl | h
          · exact ⟨m0, List.mem_cons_self _ _, o0, s0, ho0, hs0, hz0, rfl⟩
          · obtain ⟨m, hm, r⟩ := ih om h
            exact ⟨m, List.mem_cons_of_mem _ hm, r⟩

theorem buildOriginal_names_sublist (max_align : Nat)
    (members : List MemberLayout) :
    ((buildOriginal max_align members).1.map (·.name)).Sublist
      (members.map (·.name)) := by
  induction members with
  | nil => simp [buildOriginal]
  | cons m0 rest ih =>
    rcases hs0 : m0.size with _ | s0
    · simp only [buildOriginal, hs0, List.map_cons]
      exact ih.cons _
    · rcases ho0 : m0.offset with _ | o0
      · simp only [buildOriginal, hs0, ho0, List.map_cons]
        exact ih.cons _
      · by_cases hz0 : s0 = 0
        · simp only [buildOriginal, hs0, ho0, if_pos hz0, List.map_cons]
          exact ih.cons _
        · simp only [buildOriginal, hs0, ho0, if_neg hz0, List.map_cons]
          exact ih.cons₂ _

/-- `find?` by name returns the unique entry when names are duplicate-free. -/
theorem find_name_unique {l : List OptimizedMember}
    (hn : (l.map (·.name)).Nodup) {om : OptimizedMember} (hom : om ∈ l) :
    l.find? (fun x => x.name == om.name) = some om := by
  induction l with
  | nil => cases hom
  | cons a rest ih =>
    rcases List.mem_cons.1 hom with rfl | h
    · simp [List.find?]
    · have hna : a.name ≠ om.name := by
        intro he
        have : om.name ∈ rest.map (·.name) := List.mem_map_of_mem _ h
        rw [← he] at this
        exact (List.nodup_cons.1 hn).1 this
      have : (a.name == om.name) = false := by
        simp [hna]
      simp only [List.find?, this]
      exact ih (List.nodup_cons.1 hn).2 h

/-- With duplicate-free member names, the group-member conversion of a
placeable member is its derived `OptimizedMember`. -/
theorem convertGroupMember_placeable (max_align : Nat)
    (members : List MemberLayout)
    (hnames : (members.map (·.name)).Nodup)
    {idx : Nat} {m : MemberLayout} (hidx : members.get? idx = some m)
    {o s : Nat} (ho : m.offset = some o) (hs : m.size = some s) (hz : s ≠ 0) :
    convertGroupMember members (buildOriginal max_align members).1 idx =
      some (deriveMember max_align m o s) := by
  unfold convertGroupMember
  rw [hidx]
  dsimp only [Option.bind]
  have hmem := buildOriginal_of_mem max_align members m
    (List.get?_mem hidx) o s ho hs hz
  have hno : ((buildOriginal max_align members).1.map (·.name)).Nodup :=
    (buildOriginal_names_sublist max_align members).nodup hnames
  have := find_name_unique hno hmem
  simpa [deriveMember] using this

/-- With duplicate-free member names, an unplaceable member converts to
`none` (no other member can supply its name). -/
theorem convertGroupMember_not_placeable (max_align : Nat)
    (members : List MemberLayout)
    (hnames : (members.map (·.name)).Nodup)
    {idx : Nat} {m : MemberLayout} (hidx : members.get? idx = some m)
    (hnp : ¬ ∃ o s, m.offset = some o ∧ m.size = some s ∧ s ≠ 0) :
    convertGroupMember members (buildOriginal max_align members).1 idx = none := by
  unfold convertGroupMember
  rw [hidx]
  dsimp only [Option.bind]
  rw [List.find?_eq_none]
  intro om hom
  simp only [beq_iff_eq]
  intro he
  obtain ⟨m', hm', o, s, ho, hs, hz, heq⟩ :=
    buildOriginal_mem max_align members om hom
  have hname : m'.name = m.name := by rw [heq] at he; exact he
  have : m' = m :=
    List.inj_on_of_nodup_map hnames hm' (List.get?_mem hidx) hname
  subst this
  exact hnp ⟨o, s, ho, hs, hz⟩

/-- Index wellformedness carried by the grouping loop: every collected
index designates a bitfield member. -/
def bitIdx (members : List MemberLayout) (idx : Nat) : Prop :=
  ∃ m, members.get? idx = some m ∧ m.bit_size.isSome = true

theorem fbgFold_bit (members : List MemberLayout) :
    ∀ (ps : List (Nat × MemberLayout))
      (st : List (List Nat) × List Nat × Option Nat),
      (∀ p ∈ ps, members.get? p.1 = some p.2) →
      (∀ g ∈ st.1, ∀ idx ∈ g, bitIdx members idx) →
      (∀ idx ∈ st.2.1, bitIdx members idx) →
      ((∀ g ∈ (ps.foldl fbgStep st).1, ∀ idx ∈ g, bitIdx members idx) ∧
        (∀ idx ∈ (ps.foldl fbgStep st).2.1, bitIdx members idx)) := by
  intro ps
  induction ps with
  | nil => intro st _ h1 h2; exact ⟨h1, h2⟩
  | cons p rest ih =>
    intro st hps h1 h2
    have hp := hps p (List.mem_cons_self _ _)
    have hrest : ∀ q ∈ rest, members.get? q.1 = some q.2 :=
      fun q hq => hps q (List.mem_cons_of_mem _ hq)
    simp only [List.foldl_cons]
    apply ih _ hrest
    · intro g hg idx hidx
      unfold fbgStep at hg
      by_cases hbit : p.2.bit_size.isSome
      · rw [if_pos hbit] at hg
        by_cases hsame : (match st.2.2, p.2.offset with
            | some c, some b => decide (c = b)
            | _, _ => false) = true ∧ st.2.1 ≠ []
        · rw [if_pos hsame] at hg
          exact h1 g hg idx hidx
        · rw [if_neg hsame] at hg
          by_cases hcur : st.2.1 ≠ []
          · rw [if_pos hcur] at hg
            rcases List.mem_append.1 hg with hg' | hg'
            · exact h1 g hg' idx hidx
            · have : g = st.2.1 := by
                rcases List.mem_cons.1 hg' with h | h
                · exact h
                · cases h
              subst this
              exact h2 idx hidx
          · rw [if_neg hcur] at hg
            exact h1 g hg idx hidx
      · rw [if_neg hbit] at hg
        by_cases hcur : st.2.1 ≠ []
        · rw [if_pos hcur] at hg
          rcases List.mem_append.1 hg with hg' | hg'
          · exact h1 g hg' idx hidx
          · have : g = st.2.1 := by
              rcases List.mem_cons.1 hg' with h | h
              · exact h
              · cases h
            subst this
            exact h2 idx hidx
        · rw [if_neg hcur] at hg
          exact h1 g hg idx hidx
    · intro idx hidx
      unfold fbgStep at hidx
      by_cases hbit : p.2.bit_size.isSome
      · rw [if_pos hbit] at hidx
        by_cases hsame : (match st.2.2, p.2.offset with
            | some c, some b => decide (c = b)
            | _, _ => false) = true ∧ st.2.1 ≠ []
        · rw [if_pos hsame] at hidx
          rcases List.mem_append.1 hidx with h | h
          · exact h2 idx h
          · have : idx = p.1 := by
              rcases List.mem_cons.1 h with h' | h'
              · exact h'
              · cases h'
            subst this
            exact ⟨p.2, hp, hbit⟩
        · rw [if_neg hsame] at hidx
          have : idx = p.1 := by
            rcases List.mem_cons.1 hidx with h' | h'
            · exact h'
            · cases h'
          subst this
          exact ⟨p.2, hp, hbit⟩
      · rw [if_neg hbit] at hidx
        by_cases hcur : st.2.1 ≠ []
        · rw [if_pos hcur] at hidx
          cases hidx
        · rw [if_neg hcur] at hidx
          exact h2 idx hidx

/-- Every index in a bitfield group designates a bitfield member. -/
theorem find_bitfield_groups_bit (members : List MemberLayout) :
    ∀ g ∈ find_bitfield_groups members, ∀ idx ∈ g, bitIdx members idx := by
  intro g hg idx hidx
  unfold find_bitfield_groups at hg
  have henum : ∀ p ∈ members.enum, members.get? p.1 = some p.2 := by
    intro p hp
    exact List.mem_enum_iff_get?.1 hp
  have hfold := fbgFold_bit members members.enum ([], [], none) henum
    (by intro g hg; cases hg) (by intro i hi; cases hi)
  rcases List.mem_append.1 hg with h | h
  · exact hfold.1 g h idx hidx
  · by_cases hcur : (members.enum.foldl fbgStep ([], [], none)).2.1 ≠ []
    · rw [if_pos hcur] at h
      have : g = (members.enum.foldl fbgStep ([], [], none)).2.1 := by
        rcases List.mem_cons.1 h with h' | h'
        · exact h'
        · cases h'
      subst this
      exact hfold.2 idx hidx
    · rw [if_neg hcur] at h
      cases h

/-- `filter (isSome ∘ f)` and `filterMap f` are pointwise related. -/
theorem filter_filterMap_forall2 {α β : Type} (f : α → Option β) (l : List α) :
    List.Forall₂ (fun a b => f a = some b)
      (l.filter fun a => (f a).isSome) (l.filterMap f) := by
  induction l with
  | nil => simp
  | cons a rest ih =>
    rcases hf : f a with _ | b
    · simpa [List.filter_cons, List.filterMap_cons, hf] using ih
    · simp only [List.filter_cons, List.filterMap_cons, hf, Option.isSome_some,
        if_true]
      exact List.Forall₂.cons hf ih

/-- The unit list `optimize_layout` sorts and places (groups first, then
single-member units), with `ma` the already-clamped maximum alignment. -/
def pipelineUnits (layout : StructLayout) (ma : Nat) : List SortableUnit :=
  (find_bitfield_groups layout.members).filterMap
      (mkGroupUnit layout.members (buildOriginal ma layout.members).1) ++
    standaloneUnits layout.members (buildOriginal ma layout.members).1
      (find_bitfield_groups layout.members).flatten
      ((find_bitfield_groups layout.members).flatten.filter fun idx =>
        (convertGroupMember layout.members
          (buildOriginal ma layout.members).1 idx).isSome)

/-- The struct alignment `optimize_layout` rounds the final size up to. -/
def pipelineStructAlignment (layout : StructLayout) (ma : Nat) : Nat :=
  min (layout.alignment.getD
    ((((layout.members.filterMap (·.size)).map
      fun s => infer_alignment s ma).max?).getD 1)) ma

theorem optimize_layout_optimized_members (layout : StructLayout)
    (max_align0 : Nat) :
    (optimize_layout layout max_align0).optimized_members =
      (placeUnits 0 (List.insertionSort unitLe
        (pipelineUnits layout (max max_align0 1)))).1 := rfl

theorem optimize_layout_optimized_size (layout : StructLayout)
    (max_align0 : Nat) :
    (optimize_layout layout max_align0).optimized_size =
      align_up (placeUnits 0 (List.insertionSort unitLe
          (pipelineUnits layout (max max_align0 1)))).2
        (pipelineStructAlignment layout (max max_align0 1)) := rfl

theorem optimize_layout_savings (layout : StructLayout) (max_align0 : Nat) :
    (optimize_layout layout max_align0).savings_bytes =
      layout.size - (optimize_layout layout max_align0).optimized_size := rfl

theorem optimize_layout_struct_alignment (layout : StructLayout)
    (max_align0 : Nat) :
    (optimize_layout layout max_align0).struct_alignment =
      pipelineStructAlignment layout (max max_align0 1) := rfl

/-- C2 (amended): with pairwise-distinct member names, every bitfield
group with at least one convertible member appears in `optimized_members`
as one contiguous block holding exactly the group's convertible members in
their original relative order; each block member carries the same new byte
offset and keeps its name, type name, byte size and `bit_size`, while its
`bit_offset` is cleared to `None` rather than preserved. -/
theorem optimize_bitfield_group_block (layout : StructLayout)
    (max_align0 : Nat)
    (hnames : (layout.members.map (·.name)).Nodup)
    (g : List Nat) (hg : g ∈ find_bitfield_groups layout.members)
    (conv : List Nat)
    (hconv : conv = g.filter fun idx =>
      (convertGroupMember layout.members
        (buildOriginal (max max_align0 1) layout.members).1 idx).isSome)
    (hne : conv ≠ []) :
    ∃ off l1 l2 mid,
      (optimize_layout layout max_align0).optimized_members =
        l1 ++ mid ++ l2 ∧
      List.Forall₂ (fun idx om => ∃ m o s,
        layout.members.get? idx = some m ∧ m.offset = some o ∧
        m.size = some s ∧ om.name = m.name ∧ om.type_name = m.type_name ∧
        om.size = s ∧ om.bit_size = m.bit_size ∧ om.bit_offset = none ∧
        om.offset = off) conv mid := by
  have hfa0 : List.Forall₂
      (fun a b => convertGroupMember layout.members
        (buildOriginal (max max_align0 1) layout.members).1 a = some b)
      conv (g.filterMap (convertGroupMember layout.members
        (buildOriginal (max max_align0 1) layout.members).1)) := by
    rw [hconv]
    exact filter_filterMap_forall2 _ g
  have hmemg : ∀ a ∈ conv, a ∈ g := by
    rw [hconv]
    exact fun a ha => List.mem_of_mem_filter ha
  have hfa : List.Forall₂
      (fun a b => a ∈ g ∧ convertGroupMember layout.members
        (buildOriginal (max max_align0 1) layout.members).1 a = some b)
      conv (g.filterMap (convertGroupMember layout.members
        (buildOriginal (max max_align0 1) layout.members).1)) :=
    (List.forall₂_and_left _ _).2 ⟨hmemg, hfa0⟩
  rcases hgm0 : g.filterMap (convertGroupMember layout.members
      (buildOriginal (max max_align0 1) layout.members).1) with _ | ⟨m0, gmrest⟩
  · rw [hgm0] at hfa
    cases hfa
    exact absurd rfl hne
  · rw [hgm0] at hfa
    have hmk : mkGroupUnit layout.members
        (buildOriginal (max max_align0 1) layout.members).1 g =
        some ⟨m0 :: gmrest, m0.size,
          (((m0 :: gmrest).map (·.alignment)).max?).getD 1⟩ := by
      unfold mkGroupUnit
      rw [hgm0]
    have hu_units : (⟨m0 :: gmrest, m0.size,
        (((m0 :: gmrest).map (·.alignment)).max?).getD 1⟩ : SortableUnit) ∈
        pipelineUnits layout (max max_align0 1) := by
      apply List.mem_append_left
      exact List.mem_filterMap.2 ⟨g, hg, hmk⟩
    have hu_sorted := (List.perm_insertionSort unitLe
      (pipelineUnits layout (max max_align0 1))).symm.mem_iff.1 hu_units
    obtain ⟨L1, L2, hdecomp⟩ := List.append_of_mem hu_sorted
    refine ⟨align_up (placeUnits 0 L1).2
        ((((m0 :: gmrest).map (·.alignment)).max?).getD 1),
      (placeUnits 0 L1).1,
      (placeUnits (satAdd (align_up (placeUnits 0 L1).2
        ((((m0 :: gmrest).map (·.alignment)).max?).getD 1)) m0.size) L2).1,
      (m0 :: gmrest).map (placeMember (align_up (placeUnits 0 L1).2
        ((((m0 :: gmrest).map (·.alignment)).max?).getD 1))),
      ?_, ?_⟩
    · rw [optimize_layout_optimized_members, hdecomp, placeUnits_fst_append]
      simp only [placeUnits, List.append_assoc]
    · rw [List.forall₂_map_right_iff]
      apply hfa.imp
      intro idx om hp
      obtain ⟨hidxg, hcv⟩ := hp
      obtain ⟨lm, hlm, hbit⟩ :=
        find_bitfield_groups_bit layout.members g hg idx hidxg
      unfold convertGroupMember at hcv
      rw [hlm] at hcv
      dsimp only [Option.bind] at hcv
      have hom_mem := List.mem_of_find?_eq_some hcv
      have hom_name := List.find?_some hcv
      obtain ⟨m', hm', o, s, ho, hs, hz, heq⟩ :=
        buildOriginal_mem (max max_align0 1) layout.members om hom_mem
      have hname : m'.name = lm.name := by
        rw [heq] at hom_name
        simpa [deriveMember] using hom_name
      have hml : m' = lm :=
        List.inj_on_of_nodup_map hnames hm' (List.get?_mem hlm) hname
      subst hml
      subst heq
      refine ⟨m', o, s, hlm, ho, hs, rfl, rfl, rfl, rfl, ?_, rfl⟩
      simp [placeMember, deriveMember, hbit]

/-- Witness: the block theorem applied to the two-bitfield example with
distinct names `f`, `g`; every hypothesis is discharged concretely. -/
theorem optimize_bitfield_group_block_witness :
    (bitfieldPairEx.members.map (·.name)).Nodup ∧
    [0, 1] ∈ find_bitfield_groups bitfieldPairEx.members ∧
    ([0, 1] : List Nat) ≠ [] ∧
    ∃ off l1 l2 mid,
      (optimize_layout bitfieldPairEx 8).optimized_members = l1 ++ mid ++ l2 ∧
      List.Forall₂ (fun idx om => ∃ m o s,
        bitfieldPairEx.members.get? idx = some m ∧ m.offset = some o ∧
        m.size = some s ∧ om.name = m.name ∧ om.type_name = m.type_name ∧
        om.size = s ∧ om.bit_size = m.bit_size ∧ om.bit_offset = none ∧
        om.offset = off) [0, 1] mid :=
  ⟨by decide, by decide, by decide,
    optimize_bitfield_group_block bitfieldPairEx 8 (by decide) [0, 1]
      (by decide) [0, 1] (by decide) (by decide)⟩

/-!
## Claim C7: depth-capped type resolution (`src/dwarf/types.rs`)

A DWARF type DIE is modelled by the attribute values the resolver's
helpers (`get_type_name`, `get_byte_size`, `get_type_ref`,
`get_array_count`) extract from it; the unit's DIE table is an
association list from unit offsets, and a missing offset is the
`unit.entry` error path.
-/

inductive TypeTag where
  | base
  | pointer
  | reference
  | constT
  | volatileT
  | restrictT
  | atomicT
  | typedefT
  | arrayT
  | structureT
  | classT
  | unionT
  | enumerationT
  | subroutineT
  | otherT (fallback : String)
deriving DecidableEq

structure TypeDie where
  tag : TypeTag
  name : Option String
  byte_size : Option Nat
  type_ref : Option Nat
  array_count : Option Nat
deriving DecidableEq

/-- `self.unit.entry(offset)` with its `Error::Dwarf` failure. -/
def lookupDie (entries : List (Nat × TypeDie)) (off : Nat) :
    Except String TypeDie :=
  match entries.find? fun p => p.1 == off with
  | some p => .ok p.2
  | none => .error "Failed to get type entry"

/-- `TypeResolver::resolve_type_inner`: the recursion is structurally
depth-limited (every recursive call uses `depth + 1`, and `depth > 20`
short-circuits), so the translation is total in Lean even on cyclic
`type_ref` graphs. -/
def resolve_type_inner (addr_size : Nat) (entries : List (Nat × TypeDie))
    (offset depth : Nat) (is_atomic : Bool) :
    Except String (String × Option Nat × Bool) :=
  if h : depth > 20 then .ok ("...", none, is_atomic)
  else
    match lookupDie entries offset with
    | .error e => .error e
    | .ok entry =>
      match entry.tag with
      | .base => .ok (entry.name.getD "?", entry.byte_size, is_atomic)
      | .pointer =>
        match entry.type_ref with
        | some t =>
          match resolve_type_inner addr_size entries t (depth + 1) false with
          | .error e => .error e
          | .ok r => .ok ("*" ++ r.1, some addr_size, is_atomic)
        | none => .ok ("*" ++ "void", some addr_size, is_atomic)
      | .reference =>
        match entry.type_ref with
        | some t =>
          match resolve_type_inner addr_size entries t (depth + 1) false with
          | .error e => .error e
          | .ok r => .ok ("&" ++ r.1, some addr_size, is_atomic)
        | none => .ok ("&" ++ "void", some addr_size, is_atomic)
      | .constT =>
        match entry.type_ref with
        | some t =>
          match resolve_type_inner addr_size entries t (depth + 1) is_atomic with
          | .error e => .error e
          | .ok r => .ok ("const " ++ r.1, r.2.1, r.2.2)
        | none => .ok ("const " ++ "void", none, is_atomic)
      | .volatileT =>
        match entry.type_ref with
        | some t =>
          match resolve_type_inner addr_size entries t (depth + 1) is_atomic with
          | .error e => .error e
          | .ok r => .ok ("volatile " ++ r.1, r.2.1, r.2.2)
        | none => .ok ("volatile " ++ "void", none, is_atomic)
      | .restrictT =>
        match entry.type_ref with
        | some t =>
          match resolve_type_inner addr_size entries t (depth + 1) is_atomic with
          | .error e => .error e
          | .ok r => .ok ("restrict " ++ r.1, r.2.1, r.2.2)
        | none => .ok ("restrict " ++ "void", none, is_atomic)
      | .atomicT =>
        match entry.type_ref with
        | some t =>
          match resolve_type_inner addr_size entries t (depth + 1) true with
          | .error e => .error e
          | .ok r => .ok ("_Atomic " ++ r.1, r.2.1, true)
        | none => .ok ("_Atomic " ++ "void", none, true)
      | .typedefT =>
        match entry.type_ref with
        | some t =>
          match resolve_type_inner addr_size entries t (depth + 1) is_atomic with
          | .error e => .error e
          | .ok r => .ok (entry.name.getD "typedef", r.2.1, r.2.2 || is_atomic)
        | none => .ok (entry.name.getD "typedef", none, is_atomic)
      | .arrayT =>
        let elem : Except String (String × Option Nat × Bool) :=
          match entry.type_ref with
          | some t => resolve_type_inner addr_size entries t (depth + 1) is_atomic
          | none => .ok ("?", none, is_atomic)
        match elem with
        | .error e => .error e
        | .ok r =>
          let size : Option Nat :=
            match r.2.1, entry.array_count with
            | some es, some c =>
              match checkedMul es c with
              | some v => some v
              | none => entry.byte_size
            | _, _ => entry.byte_size
          let count_str : String :=
            match entry.array_count with
            | some c => toString c
            | none => "?"
          .ok ("[" ++ r.1 ++ "; " ++ count_str ++ "]", size, r.2.2)
      | .structureT => .ok (entry.name.getD "<anonymous>", entry.byte_size, is_atomic)
      | .classT => .ok (entry.name.getD "<anonymous>", entry.byte_size, is_atomic)
      | .unionT => .ok (entry.name.getD "<anonymous>", entry.byte_size, is_atomic)
      | .enumerationT => .ok (entry.name.getD "enum", entry.byte_size, is_atomic)
      | .subroutineT => .ok ("fn(...)", some addr_size, is_atomic)
      | .otherT fb => .ok (entry.name.getD fb, entry.byte_size, is_atomic)
termination_by 21 - depth
decreasing_by
  all_goals omega

/-- C7: type resolution is total (the translation above is a total Lean
function even on cyclic `type_ref` graphs), and whenever the recursion
depth exceeds the cap of 20, `resolve_type_inner` returns the sentinel
name `"..."` with unknown (`None`) size — the atomic flag passes through —
instead of recursing further. -/
theorem resolve_type_inner_depth_cap (addr_size : Nat)
    (entries : List (Nat × TypeDie)) (offset depth : Nat) (ia : Bool)
    (h : depth > 20) :
    resolve_type_inner addr_size entries offset depth ia =
      .ok ("...", none, ia) := by
  unfold resolve_type_inner
  rw [dif_pos h]

/-- Witness: the cap theorem applied at depth 21 on a self-referential
one-entry table (a pointer whose pointee is itself). -/
theorem resolve_type_inner_depth_cap_witness :
    21 > 20 ∧
      resolve_type_inner 8
        [(0, ⟨TypeTag.pointer, none, some 8, some 0, none⟩)] 0 21 false =
        .ok ("...", none, false) :=
  ⟨by decide,
    resolve_type_inner_depth_cap 8
      [(0, ⟨TypeTag.pointer, none, some 8, some 0, none⟩)] 0 21 false
      (by decide)⟩

/-!
## Claim C5: bitfield bit-offset extraction (`process_member`,
`src/dwarf/context.rs`)

The member's DWARF attributes are modelled by the values the helpers
return: `get_member_offset` (byte offset), the resolved type size,
`DW_AT_bit_size`, `DW_AT_data_bit_offset` (DWARF 5) and
`DW_AT_bit_offset` (DWARF 4). The function returns the member's final
`(offset, bit_offset)` pair; `bit_size` passes through unchanged.
-/

def checkedDiv (a b : Nat) : Option Nat :=
  if b = 0 then none else some (a / b)

def processMemberBits (little : Bool)
    (offset0 size0 bit_size0 d5 d4 : Option Nat) :
    Option Nat × Option Nat :=
  match bit_size0, size0 with
  | some bit_size, some storage_bytes =>
    if storage_bytes > 0 then
      let storage_bits := satMul storage_bytes 8
      let container_offset := offset0.orElse fun _ =>
        d5.bind fun data_bit_offset =>
          (checkedDiv data_bit_offset 8).bind fun start_byte =>
            (checkedDiv start_byte storage_bytes).bind fun q =>
              checkedMul q storage_bytes
      let offset1 := if offset0.isNone then container_offset else offset0
      match container_offset with
      | some co =>
        match d5 with
        | some data_bit_offset =>
          match checkedMul co 8 with
          | some container_bits => (offset1, some (data_bit_offset - container_bits))
          | none => (offset1, none)
        | none =>
          match d4 with
          | some raw =>
            match checkedAdd raw bit_size with
            | some end_bit =>
              if end_bit ≤ storage_bits then
                (offset1,
                  some (if little then storage_bits - raw - bit_size else raw))
              else (offset1, none)
            | none => (offset1, none)
          | none => (offset1, none)
      | none => (offset1, none)
    else (offset0, none)
  | _, _ => (offset0, none)

/-- C5 counterexample: in the DWARF 5 path (`DW_AT_data_bit_offset`), an
absolute bit offset of 100 inside a 4-byte (32-bit) storage unit yields
`bit_offset = Some 100` — 100 + 8 bits overruns the 32-bit storage unit,
yet nothing is rejected; the value is stored (and `saturating_sub` would
silently clamp a below-container offset to zero). -/
theorem process_member_bits_counterexample :
    (processMemberBits true (some 0) (some 4) (some 8) (some 100) none).2 =
        some 100 ∧ 100 + 8 > 4 * 8 :=
  ⟨by decide, by decide⟩

/-- C5 (amended): in the DWARF 4 path (`DW_AT_bit_offset`, storage-unit
relative), a bit range overrunning the storage unit's bit width — raw bit
offset plus bit size greater than the saturated storage bits — always
leaves `bit_offset` unresolved (`None`); the DWARF 5 path performs no such
check. -/
theorem process_member_bits_dwarf4_reject (little : Bool)
    (offset0 : Option Nat) (sb bs raw : Nat)
    (h : satMul sb 8 < raw + bs) :
    (processMemberBits little offset0 (some sb) (some bs) none (some raw)).2 =
      none := by
  unfold processMemberBits
  dsimp only
  by_cases hsb : sb > 0
  · rw [if_pos hsb]
    cases offset0 with
    | none =>
      simp [Option.orElse]
    | some o =>
      simp only [Option.orElse]
      rcases hca : checkedAdd raw bs with _ | eb
      · simp [hca]
      · have hca' : raw + bs ≤ U64MAX ∧ eb = raw + bs := by
          unfold checkedAdd at hca
          by_cases hle : raw + bs ≤ U64MAX
          · rw [if_pos hle] at hca
            exact ⟨hle, (Option.some_inj.1 hca).symm⟩
          · rw [if_neg hle] at hca
            cases hca
        have hgt : ¬ eb ≤ satMul sb 8 := by omega
        simp [hca, hgt]
  · rw [if_neg hsb]

/-- Witness: a 30-bit field at raw bit offset 10 in a 4-byte storage unit
(40 > 32) is rejected. -/
theorem process_member_bits_dwarf4_reject_witness :
    satMul 4 8 < 10 + 30 ∧
      (processMemberBits true (some 0) (some 4) (some 30) none (some 10)).2 =
        none :=
  ⟨by decide,
    process_member_bits_dwarf4_reject true (some 0) 4 30 10 (by decide)⟩

/-!
## Claim C9: struct entry extraction (`process_struct_entry` and
`is_go_internal_type`, `src/dwarf/context.rs`)

The entry is modelled by the attribute values the helpers return
(`DW_AT_byte_size`, the DIE name, `DW_AT_alignment`); the result is the
extracted layout header `(name, size, alignment)` (member and source
location extraction happen on every accepted entry and are independent of
the accept/skip decision).
-/

/-- Rust `str::contains` (substring containment) on the character lists. -/
def containsSub (s sub : String) : Bool :=
  s.data.tails.any fun t => sub.data.isPrefixOf t

def is_go_internal_type (name : String) : Bool :=
  strStartsWith name "runtime." || strStartsWith name "runtime/" ||
  strStartsWith name "internal/" || strStartsWith name "reflect." ||
  strStartsWith name "sync." || strStartsWith name "sync/" ||
  strStartsWith name "syscall." || strStartsWith name "unsafe." ||
  name.data.contains '·' ||
  strStartsWith name "type:" || strStartsWith name "type.." ||
  strStartsWith name "hash<" || strStartsWith name "bucket<" ||
  strStartsWith name "hmap" || strStartsWith name "hchan" ||
  strStartsWith name "waitq" || strStartsWith name "sudog" ||
  name == "g" || name == "m" || name == "p" ||
  strStartsWith name "stack"

def process_struct_entry (size_attr : Option Nat) (name_attr : Option String)
    (filter : Option String) (include_go_runtime : Bool)
    (alignment_attr : Option Nat) : Option (String × Nat × Option Nat) :=
  match size_attr with
  | none => none
  | some size =>
    match name_attr with
    | none => none
    | some n =>
      if strStartsWith n "__" then none
      else if !include_go_runtime && is_go_internal_type n then none
      else if (match filter with
        | some f => !containsSub n f
        | none => false) then none
      else some (n, size, alignment_attr)

/-- C9 counterexample: `sync.Mutex` has a known size, a present name that
does not start with `__`, and no filter is given, yet with
`include_go_runtime = false` (the default mode) the entry is skipped: the
Go-internal-type filter is a fourth skip condition the claim omits. -/
theorem process_struct_entry_counterexample :
    process_struct_entry (some 8) (some "sync.Mutex") none false none =
        none ∧
      strStartsWith "sync.Mutex" "__" = false :=
  ⟨by decide, by decide⟩

/-- C9 (amended): an entry with a known byte size and a present name that
does not start with `__`, whose name is not a Go-internal type when
Go-runtime filtering is enabled, and which contains the substring filter
when one is given, is always extracted as a layout carrying exactly that
name, size and alignment. -/
theorem process_struct_entry_accepts (size : Nat) (n : String)
    (filter : Option String) (igr : Bool) (al : Option Nat)
    (h1 : strStartsWith n "__" = false)
    (h2 : igr = true ∨ is_go_internal_type n = false)
    (h3 : ∀ f, filter = some f → containsSub n f = true) :
    process_struct_entry (some size) (some n) filter igr al =
      some (n, size, al) := by
  unfold process_struct_entry
  dsimp only
  rw [if_neg (by simp [h1])]
  rw [if_neg (by rcases h2 with h | h <;> simp [h])]
  rw [if_neg ?_]
  rcases filter with _ | f
  · simp
  · simp [h3 f rfl]

/-- Witness: `main.Order` with filter `Ord` and Go filtering enabled is
extracted. -/
theorem process_struct_entry_accepts_witness :
    strStartsWith "main.Order" "__" = false ∧
      is_go_internal_type "main.Order" = false ∧
      containsSub "main.Order" "Ord" = true ∧
      process_struct_entry (some 24) (some "main.Order") (some "Ord") false
          (some 8) = some ("main.Order", 24, some 8) :=
  ⟨by decide, by decide, by decide,
    process_struct_entry_accepts 24 "main.Order" (some "Ord") false (some 8)
      (by decide) (Or.inr (by decide))
      (fun f hf => by
        injection hf with hf
        subst hf
        decide)⟩

/-!
## Claim C8: false-sharing analysis (`src/analysis/false_sharing.rs`)
-/

/-- Wrapping u64 arithmetic (release-mode `+`/`-` on `u64`). -/
def wrapU64 (n : Nat) : Nat := n % (U64MAX + 1)

/-- `u64 as i64` (bit reinterpretation of a value `< 2^64`). -/
def toI64 (n : Nat) : Int :=
  if n < 2 ^ 63 then (n : Int) else (n : Int) - 2 ^ 64

/-- Wrapping i64 arithmetic (release-mode overflow). -/
def wrapI64 (x : Int) : Int := (x + 2 ^ 63) % 2 ^ 64 - 2 ^ 63

def ATOMIC_PATTERNS : List String :=
  [ "std::sync::atomic::Atomic", "core::sync::atomic::Atomic"
  , "std::sync::Mutex", "std::sync::RwLock", "std::sync::Condvar"
  , "std::sync::Once", "std::sync::OnceLock", "std::sync::Barrier"
  , "std::atomic<", "std::__1::atomic<", "std::__cxx11::atomic<"
  , "_Atomic ", "_Atomic("
  , "parking_lot::Mutex", "parking_lot::RwLock", "parking_lot::Once"
  , "parking_lot::Condvar", "parking_lot::ReentrantMutex"
  , "parking_lot::FairMutex", "parking_lot::RawMutex"
  , "parking_lot::RawRwLock"
  , "crossbeam::atomic::AtomicCell", "crossbeam_utils::atomic::AtomicCell"
  , "crossbeam_epoch::Atomic", "atomic_refcell::AtomicRefCell"
  , "tokio::sync::Mutex", "tokio::sync::RwLock", "tokio::sync::Semaphore"
  , "tokio::sync::Notify", "tokio::sync::Barrier", "tokio::sync::OnceCell"
  , "arc_swap::ArcSwap", "arc_swap::ArcSwapOption", "arc_swap::ArcSwapAny" ]

def is_atomic_type (type_name : String) : Bool :=
  ATOMIC_PATTERNS.any fun pattern => containsSub type_name pattern

/-- The atomic-member extraction of `analyze_false_sharing`: pattern-matched
members with known offset and known nonzero size; `end_offset` is computed
with wrapping u64 addition. -/
def atomicMembersOf (layout : StructLayout) (cls : Nat) : List AtomicMember :=
  (layout.members.filter fun m => is_atomic_type m.type_name).filterMap
    fun m =>
      m.offset.bind fun offset =>
        m.size.bind fun size =>
          if size = 0 then none
          else
            let cache_line := offset / cls
            let end_offset := wrapU64 (offset + size - 1)
            let end_cache_line := end_offset / cls
            some ⟨m.name, m.type_name, offset, size, cache_line,
              end_cache_line, decide (cache_line < end_cache_line)⟩

/-- The strict byte-order comparison Rust's `str` `Ord` performs (on valid
UTF-8, code-point order equals byte order). -/
def strLtB (a b : String) : Bool :=
  go a.data b.data
where
  go : List Char → List Char → Bool
    | [], [] => false
    | [], _ :: _ => true
    | _ :: _, [] => false
    | x :: xs, y :: ys =>
      if x.val.toNat < y.val.toNat then true
      else if y.val.toNat < x.val.toNat then false
      else go xs ys

/-- The warning sort order of `analyze_false_sharing`:
`(cache_line, member_a, member_b)` ascending. -/
def warnLeB (a b : FalseSharingWarning) : Bool :=
  if a.cache_line < b.cache_line then true
  else if b.cache_line < a.cache_line then false
  else if strLtB a.member_a b.member_a then true
  else if strLtB b.member_a a.member_a then false
  else !strLtB b.member_b a.member_b

/-- The ordered index pairs `(i, j)` with `i < j` of the bucket's double
loop, as element pairs in loop order. -/
def ijPairs : List AtomicMember → List (AtomicMember × AtomicMember)
  | [] => []
  | a :: rest => rest.map (fun b => (a, b)) ++ ijPairs rest

/-- One iteration of the pair loop body: order the pair by offset,
deduplicate by the name pair, and emit the warning with its wrapping-i64
gap. -/
def fsPairStep (line : Nat)
    (acc : List FalseSharingWarning × List (String × String))
    (p : AtomicMember × AtomicMember) :
    List FalseSharingWarning × List (String × String) :=
  let fs := if p.1.offset ≤ p.2.offset then (p.1, p.2) else (p.2, p.1)
  let key := (fs.1.name, fs.2.name)
  if acc.2.contains key then acc
  else
    let first_end := wrapU64 (fs.1.offset + fs.1.size)
    let gap := wrapI64 (toI64 fs.2.offset - toI64 first_end)
    (acc.1 ++ [⟨fs.1.name, fs.2.name, line, gap⟩], key :: acc.2)

/-- The bucket of one cache line: every atomic member whose inclusive
`cache_line..=end_cache_line` range touches the line, in member order
(matching the per-line pushes of the `by_cache_line` construction). -/
def bucketOf (ams : List AtomicMember) (line : Nat) : List AtomicMember :=
  ams.filter fun m =>
    decide (m.cache_line ≤ line) && decide (line ≤ m.end_cache_line)

/-- Processing one cache-line bucket (skipped when it holds fewer than two
members). -/
def fsLineStep (ams : List AtomicMember)
    (acc : List FalseSharingWarning × List (String × String)) (line : Nat) :
    List FalseSharingWarning × List (String × String) :=
  if (bucketOf ams line).length < 2 then acc
  else (ijPairs (bucketOf ams line)).foldl (fsPairStep line) acc

/-- The lines a member's inclusive cache-line range touches. -/
def linesOf (m : AtomicMember) : List Nat :=
  List.range' m.cache_line (m.end_cache_line + 1 - m.cache_line)

/-- `analyze_false_sharing` from `src/analysis/false_sharing.rs`.  The
`HashMap` bucket iteration order is unspecified in Rust; the model fixes
one admissible order (distinct touched lines, ascending). -/
def analyze_false_sharing (layout : StructLayout) (cls : Nat) :
    FalseSharingAnalysis :=
  let ams := atomicMembersOf layout cls
  if ams.isEmpty then {}
  else
    let spanning := (ams.filter (·.spans_cache_lines)).map fun m =>
      (⟨m.name, m.type_name, m.offset, m.size, m.cache_line,
        m.end_cache_line, m.end_cache_line - m.cache_line + 1⟩ :
        CacheLineSpanningWarning)
    if ams.length < 2 then ⟨ams, [], spanning⟩
    else
      let keys :=
        (List.insertionSort (· ≤ ·) ((ams.map linesOf).flatten)).dedup
      let res := keys.foldl (fsLineStep ams) ([], [])
      ⟨ams, List.insertionSort (fun a b => warnLeB a b = true) res.1, spanning⟩

theorem ijPairs_mem (l : List AtomicMember)
    (p : AtomicMember × AtomicMember) (hp : p ∈ ijPairs l) :
    p.1 ∈ l ∧ p.2 ∈ l := by
  induction l with
  | nil => cases hp
  | cons a rest ih =>
    rcases List.mem_append.1 hp with h | h
    · obtain ⟨b, hb, rfl⟩ := List.mem_map.1 h
      exact ⟨List.mem_cons_self _ _, List.mem_cons_of_mem _ hb⟩
    · obtain ⟨h1, h2⟩ := ih h
      exact ⟨List.mem_cons_of_mem _ h1, List.mem_cons_of_mem _ h2⟩

/-- The warning property threaded through both folds: each emitted warning
names two extracted atomic members whose inclusive cache-line ranges both
contain the warning's recorded line. -/
def warnOK (ams : List AtomicMember) (w : FalseSharingWarning) : Prop :=
  ∃ ma mb, ma ∈ ams ∧ mb ∈ ams ∧ w.member_a = ma.name ∧
    w.member_b = mb.name ∧
    ma.cache_line ≤ w.cache_line ∧ w.cache_line ≤ ma.end_cache_line ∧
    mb.cache_line ≤ w.cache_line ∧ w.cache_line ≤ mb.end_cache_line

theorem fsPairStep_inv (ams : List AtomicMember) (line : Nat)
    (pairs : List (AtomicMember × AtomicMember))
    (hpairs : ∀ p ∈ pairs, p.1 ∈ bucketOf ams line ∧ p.2 ∈ bucketOf ams line) :
    ∀ acc, (∀ w ∈ acc.1, warnOK ams w) →
      ∀ w ∈ (pairs.foldl (fsPairStep line) acc).1, warnOK ams w := by
  induction pairs with
  | nil => intro acc hacc w hw; exact hacc w hw
  | cons p rest ih =>
    intro acc hacc
    simp only [List.foldl_cons]
    apply ih (fun q hq => hpairs q (List.mem_cons_of_mem _ hq))
    intro w hw
    unfold fsPairStep at hw
    by_cases hseen : acc.2.contains
        ((if p.1.offset ≤ p.2.offset then (p.1, p.2) else (p.2, p.1)).1.name,
         (if p.1.offset ≤ p.2.offset then (p.1, p.2) else (p.2, p.1)).2.name)
    · rw [if_pos hseen] at hw
      exact hacc w hw
    · rw [if_neg hseen] at hw
      dsimp only at hw
      rcases List.mem_append.1 hw with h | h
      · exact hacc w h
      · have hp := hpairs p (List.mem_cons_self _ _)
        have hb1 : p.1 ∈ ams ∧ p.1.cache_line ≤ line ∧
            line ≤ p.1.end_cache_line := by
          have := hp.1
          unfold bucketOf at this
          have hm := List.mem_of_mem_filter this
          have hcond := List.of_mem_filter this
          simp only [Bool.and_eq_true, decide_eq_true_eq] at hcond
          exact ⟨hm, hcond.1, hcond.2⟩
        have hb2 : p.2 ∈ ams ∧ p.2.cache_line ≤ line ∧
            line ≤ p.2.end_cache_line := by
          have := hp.2
          unfold bucketOf at this
          have hm := List.mem_of_mem_filter this
          have hcond := List.of_mem_filter this
          simp only [Bool.and_eq_true, decide_eq_true_eq] at hcond
          exact ⟨hm, hcond.1, hcond.2⟩
        have hws := List.mem_singleton.1 h
        subst hws
        by_cases hord : p.1.offset ≤ p.2.offset
        · rw [if_pos hord]
          exact ⟨p.1, p.2, hb1.1, hb2.1, rfl, rfl, hb1.2.1, hb1.2.2,
            hb2.2.1, hb2.2.2⟩
        · rw [if_neg hord]
          exact ⟨p.2, p.1, hb2.1, hb1.1, rfl, rfl, hb2.2.1, hb2.2.2,
            hb1.2.1, hb1.2.2⟩

theorem fsLineStep_inv (ams : List AtomicMember) (keys : List Nat) :
    ∀ acc, (∀ w ∈ acc.1, warnOK ams w) →
      ∀ w ∈ (keys.foldl (fsLineStep ams) acc).1, warnOK ams w := by
  induction keys with
  | nil => intro acc hacc w hw; exact hacc w hw
  | cons line rest ih =>
    intro acc hacc
    simp only [List.foldl_cons]
    apply ih
    unfold fsLineStep
    by_cases hlen : (bucketOf ams line).length < 2
    · rw [if_pos hlen]; exact hacc
    · rw [if_neg hlen]
      exact fsPairStep_inv ams line _
        (fun p hp => ijPairs_mem _ p hp) acc hacc

/-- C8: with a positive cache-line size, every emitted false-sharing
warning names two extracted atomic members whose inclusive cache-line
index ranges — `offset / cls` through `wrapU64 (offset + size - 1) / cls`
— both contain the warning's recorded `cache_line` (so the two ranges
intersect): a member is registered under every line it touches. -/
theorem analyze_false_sharing_warning_ranges (layout : StructLayout)
    (cls : Nat) (hcls : 0 < cls) (w : FalseSharingWarning)
    (hw : w ∈ (analyze_false_sharing layout cls).warnings) :
    ∃ ma mb, ma ∈ (analyze_false_sharing layout cls).atomic_members ∧
      mb ∈ (analyze_false_sharing layout cls).atomic_members ∧
      w.member_a = ma.name ∧ w.member_b = mb.name ∧
      ma.cache_line = ma.offset / cls ∧
      ma.end_cache_line = wrapU64 (ma.offset + ma.size - 1) / cls ∧
      mb.cache_line = mb.offset / cls ∧
      mb.end_cache_line = wrapU64 (mb.offset + mb.size - 1) / cls ∧
      ma.cache_line ≤ w.cache_line ∧ w.cache_line ≤ ma.end_cache_line ∧
      mb.cache_line ≤ w.cache_line ∧ w.cache_line ≤ mb.end_cache_line := by
  have hfields : ∀ am ∈ atomicMembersOf layout cls,
      am.cache_line = am.offset / cls ∧
      am.end_cache_line = wrapU64 (am.offset + am.size - 1) / cls := by
    intro am ham
    unfold atomicMembersOf at ham
    obtain ⟨m, _, hm⟩ := List.mem_filterMap.1 ham
    rcases ho : m.offset with _ | o
    · rw [ho] at hm; cases hm
    · rcases hs : m.size with _ | s
      · rw [ho, hs] at hm; cases hm
      · rw [ho, hs] at hm
        dsimp only [Option.bind] at hm
        by_cases hz : s = 0
        · rw [if_pos hz] at hm; cases hm
        · rw [if_neg hz] at hm
          injection hm with hm
          subst hm
          exact ⟨rfl, rfl⟩
  unfold analyze_false_sharing at hw ⊢
  by_cases hemp : (atomicMembersOf layout cls).isEmpty
  · rw [if_pos hemp] at hw
    cases hw
  · rw [if_neg hemp] at hw ⊢
    dsimp only at hw ⊢
    by_cases hlen : (atomicMembersOf layout cls).length < 2
    · rw [if_pos hlen] at hw
      cases hw
    · rw [if_neg hlen] at hw ⊢
      dsimp only at hw ⊢
      have hw' := (List.perm_insertionSort
        (fun a b => warnLeB a b = true) _).mem_iff.1 hw
      have hok := fsLineStep_inv (atomicMembersOf layout cls) _ ([], [])
        (by intro w hw0; cases hw0) w hw'
      obtain ⟨ma, mb, hma, hmb, r⟩ := hok
      obtain ⟨hfa1, hfa2⟩ := hfields ma hma
      obtain ⟨hfb1, hfb2⟩ := hfields mb hmb
      exact ⟨ma, mb, hma, hmb, r.1, r.2.1, hfa1, hfa2, hfb1, hfb2,
        r.2.2.1, r.2.2.2.1, r.2.2.2.2.1, r.2.2.2.2.2⟩

/-- Two adjacent atomics on cache line 0: the layout of the
`test_two_atomics_same_cache_line` unit test. -/
def fsPairLayout : StructLayout :=
  { name := "TestStruct", size := 128, alignment := some 8
    members :=
      [ { name := "counter", type_name := "std::sync::atomic::AtomicU64"
          offset := some 0, size := some 8 }
      , { name := "flag", type_name := "std::sync::atomic::AtomicBool"
          offset := some 8, size := some 1 } ] }

/-- Witness: the range theorem applied to the two-atomic layout at cache
line size 64 and its single emitted warning. -/
theorem analyze_false_sharing_warning_ranges_witness :
    (0 < 64 ∧
      (⟨"counter", "flag", 0, 0⟩ : FalseSharingWarning) ∈
        (analyze_false_sharing fsPairLayout 64).warnings) ∧
    ∃ ma mb, ma ∈ (analyze_false_sharing fsPairLayout 64).atomic_members ∧
      mb ∈ (analyze_false_sharing fsPairLayout 64).atomic_members ∧
      (⟨"counter", "flag", 0, 0⟩ : FalseSharingWarning).member_a = ma.name ∧
      (⟨"counter", "flag", 0, 0⟩ : FalseSharingWarning).member_b = mb.name ∧
      ma.cache_line = ma.offset / 64 ∧
      ma.end_cache_line = wrapU64 (ma.offset + ma.size - 1) / 64 ∧
      mb.cache_line = mb.offset / 64 ∧
      mb.end_cache_line = wrapU64 (mb.offset + mb.size - 1) / 64 ∧
      ma.cache_line ≤ 0 ∧ (0 : Nat) ≤ ma.end_cache_line ∧
      mb.cache_line ≤ 0 ∧ (0 : Nat) ≤ mb.end_cache_line :=
  ⟨⟨by decide, by decide⟩,
    analyze_false_sharing_warning_ranges fsPairLayout 64 (by decide)
      ⟨"counter", "flag", 0, 0⟩ (by decide)⟩

/-!
## Claim C3: layout diffing (`src/diff.rs`)

`HashMap<&str, &MemberLayout>` collected from a member list maps each
name to the last member carrying it; its unspecified iteration order is
modelled as distinct-name order (the results are sorted afterwards).  The
`BTreeMap` groupings iterate names in ascending byte order.
-/

inductive MemberChangeKind where
  | Added
  | Removed
  | OffsetChanged
  | SizeChanged
  | TypeChanged
deriving DecidableEq

structure MemberChange where
  kind : MemberChangeKind
  name : String
  details : String
deriving DecidableEq

structure StructSummary where
  name : String
  size : Nat
  padding_bytes : Nat
deriving DecidableEq

structure StructChange where
  name : String
  old_size : Nat
  new_size : Nat
  size_delta : Int
  old_padding : Nat
  new_padding : Nat
  padding_delta : Int
  member_changes : List MemberChange
deriving DecidableEq

structure DiffResult where
  added : List StructSummary
  removed : List StructSummary
  changed : List StructChange
  unchanged_count : Nat
deriving DecidableEq

def I64MIN : Int := -(2 ^ 63)

def I64MAXI : Int := 2 ^ 63 - 1

/-- `i64::MIN / 4` (exact division). -/
def LOCATION_MISMATCH_PENALTY : Int := -(2 ^ 61)

def clampI64 (x : Int) : Int := max I64MIN (min x I64MAXI)

/-- `i64::saturating_sub`. -/
def satSubI64 (a b : Int) : Int := clampI64 (a - b)

def location_key (s : StructLayout) : Option (String × Nat) :=
  s.source_location.map fun l => (l.file, l.line)

/-- Member lookup through the collected `HashMap`: the last member with
the name wins (repeated `insert`). -/
def lookupLast (ms : List MemberLayout) (nm : String) : Option MemberLayout :=
  ms.reverse.find? fun m => m.name == nm

/-- `u64::abs_diff` capped at `i64::MAX` and cast to `i64`. -/
def absDiffCap (a b : Nat) : Int := (min (max a b - min a b) (2 ^ 63 - 1) : Nat)

def member_similarity_score (o n2 : StructLayout) : Int :=
  if (match location_key o, location_key n2 with
      | some ol, some nl => decide (ol ≠ nl)
      | _, _ => false) then LOCATION_MISMATCH_PENALTY
  else
    let score1 := satSubI64 0 (absDiffCap o.size n2.size)
    let score2 := satSubI64 score1
      (absDiffCap o.metrics.padding_bytes n2.metrics.padding_bytes / 2)
    let r := ((o.members.map (·.name)).dedup).foldl
      (fun (acc : Int × Int) nm =>
        match lookupLast o.members nm, lookupLast n2.members nm with
        | some om, some m2 =>
          let s1 := if om.type_name == m2.type_name then wrapI64 (acc.1 + 5)
            else acc.1
          let s2 := if om.size == m2.size then wrapI64 (s1 + 2) else s1
          let s3 := if om.offset == m2.offset then wrapI64 (s2 + 1) else s2
          (s3, wrapI64 (acc.2 + 1))
        | _, _ => acc) (score2, 0)
    let score3 := wrapI64 (r.1 + wrapI64 (r.2 * 10))
    let count_delta : Int :=
      (((o.members.length : Int) - n2.members.length).natAbs : Int)
    wrapI64 (score3 - count_delta)

/-- One iteration of the location-exact matching stage over the
enumerated old group; the accumulator is `(pairs, old_used, new_used)`. -/
def stage1Step (new_group : List StructLayout)
    (acc : List (StructLayout × StructLayout) × List Nat × List Nat)
    (p : Nat × StructLayout) :
    List (StructLayout × StructLayout) × List Nat × List Nat :=
  match location_key p.2 with
  | none => acc
  | some loc =>
    let candidates := (new_group.enum.filter fun q =>
      decide (location_key q.2 = some loc)).map Prod.fst
    match candidates.find? fun j => !acc.2.2.contains j with
    | some j =>
      match new_group.get? j with
      | some t => (acc.1 ++ [(p.2, t)], p.1 :: acc.2.1, j :: acc.2.2)
      | none => acc
    | none => acc

/-- Sort order of the similarity-scored triples: score descending, then
old index, then new index. -/
def scoredLe (a b : Int × Nat × Nat) : Prop :=
  b.1 < a.1 ∨ (a.1 = b.1 ∧
    (a.2.1 < b.2.1 ∨ (a.2.1 = b.2.1 ∧ a.2.2 ≤ b.2.2)))

instance : DecidableRel scoredLe := fun a b => by
  unfold scoredLe; infer_instance

/-- Rust `Option<(&str, u64)>` ordering (`None` first, then
lexicographic). -/
def optLocLtB : Option (String × Nat) → Option (String × Nat) → Bool
  | none, none => false
  | none, some _ => true
  | some _, none => false
  | some a, some b =>
    if strLtB a.1 b.1 then true
    else if strLtB b.1 a.1 then false
    else decide (a.2 < b.2)

/-- Final pair ordering of `match_structs`:
`(location_key(old), old.size, new.size)`. -/
def pairLeB (x y : StructLayout × StructLayout) : Bool :=
  if optLocLtB (location_key x.1) (location_key y.1) then true
  else if optLocLtB (location_key y.1) (location_key x.1) then false
  else if x.1.size < y.1.size then true
  else if y.1.size < x.1.size then false
  else decide (x.2.size ≤ y.2.size)

/-- `match_structs` from `src/diff.rs`: location-exact stage, the 1-and-1
fast path, then greedy matching by similarity score with the `break` at
the first non-positive score (the scored list is sorted score-descending,
so the loop suffix after the break is exactly the `takeWhile` prefix's
complement). -/
def match_structs (old_group new_group : List StructLayout) :
    List (StructLayout × StructLayout) × List StructLayout ×
      List StructLayout :=
  let st1 := old_group.enum.foldl (stage1Step new_group) ([], [], [])
  let ro := (old_group.enum.filter fun p => !st1.2.1.contains p.1).map
    Prod.fst
  let rn := (new_group.enum.filter fun p => !st1.2.2.contains p.1).map
    Prod.fst
  let st2 :=
    if ro.length = 1 ∧ rn.length = 1 then
      match ro.head?, rn.head? with
      | some i, some j =>
        match old_group.get? i, new_group.get? j with
        | some a, some b => (st1.1 ++ [(a, b)], i :: st1.2.1, j :: st1.2.2)
        | _, _ => st1
      | _, _ => st1
    else if ¬ ro.isEmpty ∧ ¬ rn.isEmpty then
      let scored := ro.flatMap fun i => rn.map fun j =>
        ((match old_group.get? i, new_group.get? j with
          | some a, some b => member_similarity_score a b
          | _, _ => 0), i, j)
      let kept := (List.insertionSort scoredLe scored).takeWhile
        fun t => decide (0 < t.1)
      kept.foldl (fun acc t =>
        if acc.2.1.contains t.2.1 ∨ acc.2.2.contains t.2.2 then acc
        else match old_group.get? t.2.1, new_group.get? t.2.2 with
          | some a, some b =>
            (acc.1 ++ [(a, b)], t.2.1 :: acc.2.1, t.2.2 :: acc.2.2)
          | _, _ => acc) st1
    else st1
  (List.insertionSort (fun a b => pairLeB a b = true) st2.1,
    (old_group.enum.filter fun p => !st2.2.1.contains p.1).map Prod.snd,
    (new_group.enum.filter fun p => !st2.2.2.contains p.1).map Prod.snd)

def kind_rank : MemberChangeKind → Nat
  | .Removed => 0
  | .Added => 1
  | .TypeChanged => 2
  | .SizeChanged => 3
  | .OffsetChanged => 4

def mcLeB (a b : MemberChange) : Bool :=
  if kind_rank a.kind < kind_rank b.kind then true
  else if kind_rank b.kind < kind_rank a.kind then false
  else if strLtB a.name b.name then true
  else if strLtB b.name a.name then false
  else !strLtB b.details a.details

/-- `{:?}` of an `Option<u64>`. -/
def optDebug : Option Nat → String
  | none => "None"
  | some v => "Some(" ++ toString v ++ ")"

/-- `diff_struct` from `src/diff.rs` (`i128` deltas clamped to `i64`). -/
def diff_struct (o n2 : StructLayout) : Option StructChange :=
  let size_delta := clampI64 ((n2.size : Int) - o.size)
  let padding_delta := clampI64
    ((n2.metrics.padding_bytes : Int) - o.metrics.padding_bytes)
  let removedChanges := ((o.members.map (·.name)).dedup).filterMap fun nm =>
    match lookupLast o.members nm with
    | some om =>
      match lookupLast n2.members nm with
      | none => some ⟨.Removed, nm,
          "offset " ++ optDebug om.offset ++ ", size " ++ optDebug om.size⟩
      | some _ => none
    | none => none
  let addedChanges := ((n2.members.map (·.name)).dedup).flatMap fun nm =>
    match lookupLast n2.members nm with
    | none => []
    | some m2 =>
      match lookupLast o.members nm with
      | none => [⟨.Added, nm,
          "offset " ++ optDebug m2.offset ++ ", size " ++ optDebug m2.size⟩]
      | some om =>
        (if om.offset ≠ m2.offset then
          [(⟨.OffsetChanged, nm,
            optDebug om.offset ++ " -> " ++ optDebug m2.offset⟩ :
            MemberChange)] else []) ++
        (if om.size ≠ m2.size then
          [(⟨.SizeChanged, nm,
            optDebug om.size ++ " -> " ++ optDebug m2.size⟩ :
            MemberChange)] else []) ++
        (if om.type_name ≠ m2.type_name then
          [(⟨.TypeChanged, nm,
            om.type_name ++ " -> " ++ m2.type_name⟩ : MemberChange)] else [])
  let member_changes := List.insertionSort (fun a b => mcLeB a b = true)
    (removedChanges ++ addedChanges)
  if size_delta = 0 ∧ padding_delta = 0 ∧ member_changes = [] then none
  else some ⟨o.name, o.size, n2.size, size_delta, o.metrics.padding_bytes,
    n2.metrics.padding_bytes, padding_delta, member_changes⟩

def strLeB (a b : String) : Bool := !strLtB b a

def sumLeB (a b : StructSummary) : Bool :=
  if strLtB a.name b.name then true
  else if strLtB b.name a.name then false
  else decide (a.size ≤ b.size)

def chgLeB (a b : StructChange) : Bool :=
  if strLtB a.name b.name then true
  else if strLtB b.name a.name then false
  else if a.old_size < b.old_size then true
  else if b.old_size < a.old_size then false
  else decide (a.new_size ≤ b.new_size)

/-- Processing one display name of `diff_layouts`; the accumulator is
`(added, removed, changed, unchanged_count)`. -/
def diffNameStep (oldL newL : List StructLayout)
    (acc : List StructSummary × List StructSummary × List StructChange × Nat)
    (nm : String) :
    List StructSummary × List StructSummary × List StructChange × Nat :=
  let og := oldL.filter fun s => s.name == nm
  let ng := newL.filter fun s => s.name == nm
  if og.isEmpty then
    (acc.1 ++ ng.map fun s => ⟨nm, s.size, s.metrics.padding_bytes⟩,
      acc.2.1, acc.2.2.1, acc.2.2.2)
  else if ng.isEmpty then
    (acc.1, acc.2.1 ++ og.map fun s => ⟨nm, s.size, s.metrics.padding_bytes⟩,
      acc.2.2.1, acc.2.2.2)
  else
    let r := match_structs og ng
    let pcd := r.1.foldl (fun (pc : List StructChange × Nat) pq =>
      match diff_struct pq.1 pq.2 with
      | some c => (pc.1 ++ [c], pc.2)
      | none => (pc.1, pc.2 + 1)) (acc.2.2.1, acc.2.2.2)
    (acc.1 ++ r.2.2.map fun s => ⟨nm, s.size, s.metrics.padding_bytes⟩,
      acc.2.1 ++ r.2.1.map fun s => ⟨nm, s.size, s.metrics.padding_bytes⟩,
      pcd.1, pcd.2)

/-- `diff_layouts` from `src/diff.rs`. -/
def diff_layouts (oldL newL : List StructLayout) : DiffResult :=
  let allNames := (List.insertionSort (fun a b => strLeB a b = true)
    (oldL.map (·.name) ++ newL.map (·.name))).dedup
  let r := allNames.foldl (diffNameStep oldL newL) ([], [], [], 0)
  { added := List.insertionSort (fun a b => sumLeB a b = true) r.1
    removed := List.insertionSort (fun a b => sumLeB a b = true) r.2.1
    changed := List.insertionSort (fun a b => chgLeB a b = true) r.2.2.1
    unchanged_count := r.2.2.2 }

/-- Two identical member-less, location-less duplicates of one name. -/
def dupPairEx : List StructLayout :=
  [ { name := "T", size := 0, alignment := none, members := [] }
  , { name := "T", size := 0, alignment := none, members := [] } ]

set_option maxRecDepth 8000 in
/-- C3 counterexample: diffing the duplicate pair against itself reports
both copies as removed and added and matches nothing — every pairwise
similarity score is 0 and the greedy stage requires a strictly positive
score, so identical duplicates are never paired. -/
theorem diff_layouts_self_counterexample :
    (diff_layouts dupPairEx dupPairEx).unchanged_count = 0 ∧
      (diff_layouts dupPairEx dupPairEx).removed.length = 2 ∧
      (diff_layouts dupPairEx dupPairEx).added.length = 2 ∧
      dupPairEx.length = 2 := by
  refine ⟨by decide, by decide, by decide, by decide⟩

theorem flatMap_nil_of {α β : Type} (l : List α) (f : α → List β)
    (h : ∀ a ∈ l, f a = []) : l.flatMap f = [] := by
  induction l with
  | nil => rfl
  | cons a rest ih =>
    simp only [List.flatMap_cons, h a (List.mem_cons_self _ _),
      List.nil_append]
    exact ih fun a ha => h a (List.mem_cons_of_mem _ ha)

theorem filterMap_nil_of {α β : Type} (l : List α) (f : α → Option β)
    (h : ∀ a ∈ l, f a = none) : l.filterMap f = [] := by
  induction l with
  | nil => rfl
  | cons a rest ih =>
    simp only [List.filterMap_cons, h a (List.mem_cons_self _ _)]
    exact ih fun a ha => h a (List.mem_cons_of_mem _ ha)

/-- Diffing a struct against itself reports no change. -/
theorem diff_struct_self (s : StructLayout) : diff_struct s s = none := by
  unfold diff_struct
  dsimp only
  rw [if_pos]
  refine ⟨?_, ?_, ?_⟩
  · rw [sub_self]
    unfold clampI64 I64MIN I64MAXI
    rw [min_eq_left (by norm_num), max_eq_right (by norm_num)]
  · rw [sub_self]
    unfold clampI64 I64MIN I64MAXI
    rw [min_eq_left (by norm_num), max_eq_right (by norm_num)]
  · have hrm : ((s.members.map (·.name)).dedup).filterMap (fun nm =>
        match lookupLast s.members nm with
        | some om =>
          match lookupLast s.members nm with
          | none => some (⟨.Removed, nm,
              "offset " ++ optDebug om.offset ++ ", size " ++
                optDebug om.size⟩ : MemberChange)
          | some _ => none
        | none => none) = [] := by
      apply filterMap_nil_of
      intro nm _
      cases hl : lookupLast s.members nm <;> simp [hl]
    have had : ((s.members.map (·.name)).dedup).flatMap (fun nm =>
        match lookupLast s.members nm with
        | none => []
        | some m2 =>
          match lookupLast s.members nm with
          | none => [(⟨.Added, nm,
              "offset " ++ optDebug m2.offset ++ ", size " ++
                optDebug m2.size⟩ : MemberChange)]
          | some om =>
            (if om.offset ≠ m2.offset then
              [(⟨.OffsetChanged, nm,
                optDebug om.offset ++ " -> " ++ optDebug m2.offset⟩ :
                MemberChange)] else []) ++
            (if om.size ≠ m2.size then
              [(⟨.SizeChanged, nm,
                optDebug om.size ++ " -> " ++ optDebug m2.size⟩ :
                MemberChange)] else []) ++
            (if om.type_name ≠ m2.type_name then
              [(⟨.TypeChanged, nm,
                om.type_name ++ " -> " ++ m2.type_name⟩ :
                MemberChange)] else [])) = [] := by
      apply flatMap_nil_of
      intro nm _
      cases hl : lookupLast s.members nm <;> simp [hl]
    rw [hrm, had]
    rfl

/-- With duplicate-free display names, the group of a member's name is
that single layout. -/
theorem filter_name_singleton {L : List StructLayout}
    (hnames : (L.map (·.name)).Nodup) {s : StructLayout} (hs : s ∈ L) :
    L.filter (fun t => t.name == s.name) = [s] := by
  induction L with
  | nil => cases hs
  | cons a rest ih =>
    rw [List.map_cons, List.nodup_cons] at hnames
    rcases List.mem_cons.1 hs with rfl | h
    · rw [List.filter_cons]
      simp only [beq_self_eq_true, if_true]
      have : rest.filter (fun t => t.name == s.name) = [] := by
        apply List.filter_eq_nil.2
        intro t ht
        simp only [beq_eq_false_iff_ne, ne_eq, Bool.not_eq_true]
        intro he
        exact hnames.1 (he ▸ List.mem_map_of_mem _ ht)
      rw [this]
    · have hne : (a.name == s.name) = false := by
        simp only [beq_eq_false_iff_ne, ne_eq]
        intro he
        exact hnames.1 (he ▸ List.mem_map_of_mem _ h)
      rw [List.filter_cons, hne]
      exact ih hnames.2 h

/-- Matching a singleton group against itself pairs the layout with
itself: through the location stage when a source location exists, through
the 1-and-1 fast path otherwise. -/
theorem match_structs_singleton (s : StructLayout) :
    match_structs [s] [s] = ([(s, s)], [], []) := by
  unfold match_structs stage1Step
  cases hloc : location_key s with
  | none =>
    simp [hloc, List.enum, List.enumFrom, List.insertionSort,
      List.orderedInsert]
  | some loc =>
    simp [hloc, List.enum, List.enumFrom, List.insertionSort,
      List.orderedInsert]

/-- Processing a self-diff name whose group is a singleton only bumps the
unchanged counter. -/
theorem diffNameStep_singleton (L : List StructLayout)
    (acc : List StructSummary × List StructSummary × List StructChange × Nat)
    (s : StructLayout)
    (hf : L.filter (fun t => t.name == s.name) = [s]) :
    diffNameStep L L acc s.name =
      (acc.1, acc.2.1, acc.2.2.1, acc.2.2.2 + 1) := by
  unfold diffNameStep
  rw [hf]
  rw [if_neg (by simp)]
  rw [if_neg (by simp)]
  dsimp only
  rw [match_structs_singleton]
  simp only [List.foldl_cons, List.foldl_nil, List.map_nil, List.append_nil]
  rw [diff_struct_self]

theorem diffFold_singletons (L : List StructLayout)
    (hnames : (L.map (·.name)).Nodup) :
    ∀ (ns : List String), (∀ nm ∈ ns, ∃ s ∈ L, s.name = nm) →
      ∀ acc : List StructSummary × List StructSummary ×
        List StructChange × Nat,
      ns.foldl (diffNameStep L L) acc =
        (acc.1, acc.2.1, acc.2.2.1, acc.2.2.2 + ns.length) := by
  intro ns
  induction ns with
  | nil => intro _ acc; rfl
  | cons nm rest ih =>
    intro hmem acc
    obtain ⟨s, hs, rfl⟩ := hmem nm (List.mem_cons_self _ _)
    simp only [List.foldl_cons]
    rw [diffNameStep_singleton L acc s (filter_name_singleton hnames hs)]
    rw [ih (fun x hx => hmem x (List.mem_cons_of_mem _ hx))]
    simp only [List.length_cons]
    have harith : acc.2.2.2 + 1 + rest.length = acc.2.2.2 + (rest.length + 1) :=
      by omega
    rw [harith]

/-- C3 (amended): for every collection of StructLayouts with
pairwise-distinct display names, diffing the collection against itself
yields empty added, removed and changed lists, and `unchanged_count`
equals the number of layouts.  (With duplicate names, identical
member-less copies score 0 and are reported as removed and added
instead.) -/
theorem diff_layouts_self (L : List StructLayout)
    (hnames : (L.map (·.name)).Nodup) :
    diff_layouts L L = ⟨[], [], [], L.length⟩ := by
  unfold diff_layouts
  dsimp only
  have hmem : ∀ nm ∈ (List.insertionSort (fun a b => strLeB a b = true)
      (L.map (·.name) ++ L.map (·.name))).dedup, ∃ s ∈ L, s.name = nm := by
    intro nm hnm
    have h1 : nm ∈ List.insertionSort (fun a b => strLeB a b = true)
        (L.map (·.name) ++ L.map (·.name)) := List.dedup_subset _ hnm
    have h2 : nm ∈ L.map (·.name) ++ L.map (·.name) :=
      (List.perm_insertionSort _ _).subset h1
    rcases List.mem_append.1 h2 with h | h <;>
      · obtain ⟨s, hs, rfl⟩ := List.mem_map.1 h
        exact ⟨s, hs, rfl⟩
  rw [diffFold_singletons L hnames _ hmem]
  have hlen : ((List.insertionSort (fun a b => strLeB a b = true)
      (L.map (·.name) ++ L.map (·.name))).dedup).length = L.length := by
    have h0 : ((List.insertionSort (fun a b => strLeB a b = true)
        (L.map (·.name) ++ L.map (·.name))).dedup).length =
        ((L.map (·.name) ++ L.map (·.name)).dedup).length :=
      (List.perm_insertionSort _ _).dedup.length_eq
    have h1 := List.card_toFinset (L.map (·.name) ++ L.map (·.name))
    have h2 : (L.map (·.name) ++ L.map (·.name)).toFinset =
        (L.map (·.name)).toFinset := by
      rw [List.toFinset_append, Finset.union_self]
    have h3 : (L.map (·.name)).toFinset.card = (L.map (·.name)).length := by
      rw [List.card_toFinset, List.dedup_eq_self.2 hnames]
    rw [h0, ← h1, h2, h3, List.length_map]
  rw [hlen]
  simp

/-- Two distinctly named layouts used for the self-diff witness. -/
def selfDiffEx : List StructLayout :=
  [ { name := "A", size := 8, alignment := some 8
      members :=
        [ { name := "x", type_name := "u64", offset := some 0
            size := some 8 } ] }
  , { name := "B", size := 4, alignment := some 4, members := [] } ]

/-- Witness: the self-diff theorem applied to the two-layout collection
with distinct names. -/
theorem diff_layouts_self_witness :
    ((selfDiffEx.map (·.name)).Nodup) ∧
      diff_layouts selfDiffEx selfDiffEx = ⟨[], [], [], selfDiffEx.length⟩ :=
  ⟨by simp [selfDiffEx], diff_layouts_self selfDiffEx (by simp [selfDiffEx])⟩

/-!
## Claim C6: optimizer idempotence
-/

/-- A layout with a duplicate member name (`n0` twice): the name-based
group-conversion lookup replaces the second (bitfield) `n0` with the first
(non-bitfield) `n0`, `next_power_of_two` wraps to 0 on the huge size of
`q` (alignment 1), and the non-power-of-two `max_align = 12` keeps the
inferred alignments asymmetric. -/
def idemEx : StructLayout :=
  { name := "T", size := 0, alignment := some 1
    members :=
      [ { name := "n0", type_name := "t", offset := some 0, size := some 9 }
      , { name := "s0", type_name := "t", offset := some 0, size := some 5 }
      , { name := "q", type_name := "t", offset := some 32
          size := some (2 ^ 63 + 5), bit_offset := some 0, bit_size := some 1 }
      , { name := "n0", type_name := "t", offset := some 32, size := some 1
          bit_offset := some 1, bit_size := some 1 } ] }

/-- C6 counterexample: rebuilding the first run's output as a fresh layout
(optimized members with their new offsets, `optimized_size` as declared
size, `struct_alignment` as alignment) and optimizing again still saves 3
bytes — the second run's bitfield grouping differs because the duplicate
name made run one materialize the first `n0` inside `q`'s group. -/
theorem optimize_idempotence_counterexample :
    (optimize_layout (rebuildLayout (optimize_layout idemEx 12)) 12).savings_bytes
      = 3 ∧ (3 : Nat) ≠ 0 :=
  ⟨by decide, by decide⟩

/-- The member map of `rebuildLayout`. -/
def rebMem (m : OptimizedMember) : MemberLayout :=
  { name := m.name, type_name := m.type_name, offset := some m.offset
    size := some m.size, bit_offset := m.bit_offset, bit_size := m.bit_size }

theorem rebuildLayout_members (o : OptimizedLayout) :
    (rebuildLayout o).members = o.optimized_members.map rebMem := rfl

/-- A unit whose members are all bitfields. -/
def isBitUnit (u : SortableUnit) : Bool :=
  u.members.all fun m => m.bit_size.isSome

/-- The invariants every unit built by `optimize_layout` satisfies:
nonempty member list, total size from the first member, alignment the
maximum member alignment, members with nonzero sizes and inferred
alignments, and either all-bitfield members or a single non-bitfield
member. -/
def GoodUnit (ma : Nat) (u : SortableUnit) : Prop :=
  (∃ m0 ms, u.members = m0 :: ms ∧ u.total_size = m0.size) ∧
  u.alignment = ((u.members.map (·.alignment)).max?).getD 1 ∧
  (∀ m ∈ u.members, m.size ≠ 0 ∧ m.alignment = infer_alignment m.size ma) ∧
  ((∀ m ∈ u.members, m.bit_size.isSome = true) ∨
    (∃ m0, u.members = [m0] ∧ m0.bit_size = none))

/-- Inversion of the group-member conversion under duplicate-free names. -/
theorem convertGroupMember_eq (max_align : Nat) (members : List MemberLayout)
    (hnames : (members.map (·.name)).Nodup) {idx : Nat} {om : OptimizedMember}
    (hcv : convertGroupMember members
      (buildOriginal max_align members).1 idx = some om) :
    ∃ m o s, members.get? idx = some m ∧ m.offset = some o ∧
      m.size = some s ∧ s ≠ 0 ∧ om = deriveMember max_align m o s := by
  unfold convertGroupMember at hcv
  rcases hidx : members.get? idx with _ | lm
  · rw [hidx] at hcv
    cases hcv
  · rw [hidx] at hcv
    dsimp only [Option.bind] at hcv
    have hom_mem := List.mem_of_find?_eq_some hcv
    have hom_name := List.find?_some hcv
    obtain ⟨m', hm', o, s, ho, hs, hz, heq⟩ :=
      buildOriginal_mem max_align members om hom_mem
    have hname : m'.name = lm.name := by
      rw [heq] at hom_name
      simpa [deriveMember] using hom_name
    have hml : m' = lm :=
      List.inj_on_of_nodup_map hnames hm' (List.get?_mem hidx) hname
    refine ⟨lm, o, s, ?_, ?_, ?_, hz, ?_⟩
    · exact hidx ▸ rfl
    · rw [← hml]; exact ho
    · rw [← hml]; exact hs
    · rw [heq, hml]

/-- Indices collected by the grouping fold (either already flushed or in
the current group). -/
def idxIn (st : List (List Nat) × List Nat × Option Nat) (i : Nat) : Prop :=
  i ∈ st.1.flatten ∨ i ∈ st.2.1

theorem fbgStep_preserves {st : List (List Nat) × List Nat × Option Nat}
    {i : Nat} (h : idxIn st i) (p : Nat × MemberLayout) :
    idxIn (fbgStep st p) i := by
  unfold fbgStep
  unfold idxIn at *
  by_cases hbit : p.2.bit_size.isSome
  · rw [if_pos hbit]
    by_cases hsame : (match st.2.2, p.2.offset with
        | some c, some b => decide (c = b)
        | _, _ => false) = true ∧ st.2.1 ≠ []
    · rw [if_pos hsame]
      rcases h with h | h
      · exact Or.inl h
      · exact Or.inr (List.mem_append_left _ h)
    · rw [if_neg hsame]
      by_cases hcur : st.2.1 ≠ []
      · rw [if_pos hcur]
        rcases h with h | h
        · exact Or.inl (by
            simp only [List.flatten_append, List.flatten_cons,
              List.flatten_nil, List.append_nil]
            exact List.mem_append_left _ h)
        · exact Or.inl (by
            simp only [List.flatten_append, List.flatten_cons,
              List.flatten_nil, List.append_nil]
            exact List.mem_append_right _ h)
      · rw [if_neg hcur]
        rcases h with h | h
        · exact Or.inl h
        · simp only [ne_eq, not_not] at hcur
          rw [hcur] at h
          cases h
  · rw [if_neg hbit]
    by_cases hcur : st.2.1 ≠ []
    · rw [if_pos hcur]
      rcases h with h | h
      · exact Or.inl (by
          simp only [List.flatten_append, List.flatten_cons,
            List.flatten_nil, List.append_nil]
          exact List.mem_append_left _ h)
      · exact Or.inl (by
          simp only [List.flatten_append, List.flatten_cons,
            List.flatten_nil, List.append_nil]
          exact List.mem_append_right _ h)
    · rw [if_neg hcur]
      exact h

theorem fbgStep_adds {p : Nat × MemberLayout}
    (hbit : p.2.bit_size.isSome)
    (st : List (List Nat) × List Nat × Option Nat) :
    idxIn (fbgStep st p) p.1 := by
  unfold fbgStep idxIn
  rw [if_pos hbit]
  by_cases hsame : (match st.2.2, p.2.offset with
      | some c, some b => decide (c = b)
      | _, _ => false) = true ∧ st.2.1 ≠ []
  · rw [if_pos hsame]
    exact Or.inr (List.mem_append_right _ (List.mem_singleton_self _))
  · rw [if_neg hsame]
    exact Or.inr (List.mem_singleton_self _)

theorem fbgFold_preserves {i : Nat}
    (ps : List (Nat × MemberLayout)) :
    ∀ st, idxIn st i → idxIn (ps.foldl fbgStep st) i := by
  induction ps with
  | nil => intro st h; exact h
  | cons p rest ih =>
    intro st h
    exact ih _ (fbgStep_preserves h p)

theorem fbgFold_collects {i : Nat} {m : MemberLayout}
    (hbit : m.bit_size.isSome) :
    ∀ (ps : List (Nat × MemberLayout)) st, (i, m) ∈ ps →
      idxIn (ps.foldl fbgStep st) i := by
  intro ps
  induction ps with
  | nil => intro st h; cases h
  | cons p rest ih =>
    intro st h
    rcases List.mem_cons.1 h with rfl | h
    · exact fbgFold_preserves rest _ (fbgStep_adds hbit st)
    · exact ih _ h

/-- Every bitfield member's index lands in some group. -/
theorem find_bitfield_groups_complete (members : List MemberLayout)
    {i : Nat} {m : MemberLayout} (hget : members.get? i = some m)
    (hbit : m.bit_size.isSome) :
    i ∈ (find_bitfield_groups members).flatten := by
  have henum : (i, m) ∈ members.enum := List.mem_enum_iff_get?.2 hget
  have hin := fbgFold_collects hbit members.enum ([], [], none) henum
  unfold find_bitfield_groups
  unfold idxIn at hin
  rcases hin with h | h
  · simp only [List.flatten_append]
    exact List.mem_append_left _ h
  · simp only [List.flatten_append]
    apply List.mem_append_right
    have hne : (members.enum.foldl fbgStep ([], [], none)).2.1 ≠ [] := by
      intro hz
      rw [hz] at h
      cases h
    rw [if_pos hne]
    simp only [List.flatten_cons, List.flatten_nil, List.append_nil]
    exact h

theorem mkGroupUnit_good (ma : Nat) (members : List MemberLayout)
    (hnames : (members.map (·.name)).Nodup)
    {g : List Nat} (hg : g ∈ find_bitfield_groups members)
    {u : SortableUnit}
    (hu : mkGroupUnit members (buildOriginal ma members).1 g = some u) :
    GoodUnit ma u ∧ isBitUnit u = true := by
  unfold mkGroupUnit at hu
  rcases hgm : g.filterMap
      (convertGroupMember members (buildOriginal ma members).1) with _ | ⟨m0, rest⟩
  · rw [hgm] at hu
    cases hu
  · rw [hgm] at hu
    injection hu with hu
    subst hu
    have hmem : ∀ m, m ∈ m0 :: rest → ∃ idx ∈ g,
        convertGroupMember members (buildOriginal ma members).1 idx =
          some m := by
      intro m hm
      rw [← hgm] at hm
      exact List.mem_filterMap.1 hm
    have hbitAll : ∀ m ∈ m0 :: rest, m.bit_size.isSome = true := by
      intro m hm
      obtain ⟨idx, hidxg, hcv⟩ := hmem m hm
      obtain ⟨mm, o, s, hget, ho, hs, hz, heq⟩ :=
        convertGroupMember_eq ma members hnames hcv
      obtain ⟨mm2, hget2, hbit⟩ :=
        find_bitfield_groups_bit members g hg idx hidxg
      rw [hget] at hget2
      injection hget2 with hget2
      rw [heq]
      show mm.bit_size.isSome = true
      rw [hget2]
      exact hbit
    refine ⟨⟨⟨m0, rest, rfl, rfl⟩, rfl, ?_, Or.inl hbitAll⟩, ?_⟩
    · intro m hm
      obtain ⟨idx, hidxg, hcv⟩ := hmem m hm
      obtain ⟨mm, o, s, hget, ho, hs, hz, heq⟩ :=
        convertGroupMember_eq ma members hnames hcv
      rw [heq]
      exact ⟨hz, rfl⟩
    · unfold isBitUnit
      rw [List.all_eq_true]
      exact hbitAll

theorem standaloneUnits_good (ma : Nat) (members : List MemberLayout)
    (hnames : (members.map (·.name)).Nodup) (bidx processed : List Nat)
    (hbidx : ∀ i m, members.get? i = some m → m.bit_size.isSome = true →
      i ∈ bidx)
    {u : SortableUnit}
    (hu : u ∈ standaloneUnits members (buildOriginal ma members).1
      bidx processed) :
    GoodUnit ma u ∧ isBitUnit u = false := by
  unfold standaloneUnits at hu
  obtain ⟨p, hp, hstep⟩ := List.mem_filterMap.1 hu
  by_cases hcond : processed.contains p.1 = true ∨ bidx.contains p.1 = true
  · rw [if_pos hcond] at hstep
    cases hstep
  · rw [if_neg hcond] at hstep
    obtain ⟨om, hfind, hueq⟩ := Option.map_eq_some'.1 hstep
    have hom_mem := List.mem_of_find?_eq_some hfind
    have hom_name := List.find?_some hfind
    obtain ⟨m', hm', o, s, ho, hs, hz, heq⟩ :=
      buildOriginal_mem ma members om hom_mem
    have hgetp : members.get? p.1 = some p.2 := List.mem_enum_iff_get?.1 hp
    have hname : m'.name = p.2.name := by
      rw [heq] at hom_name
      simpa [deriveMember] using hom_name
    have hml : m' = p.2 :=
      List.inj_on_of_nodup_map hnames hm' (List.get?_mem hgetp) hname
    have hbs : p.2.bit_size = none := by
      rcases hb : p.2.bit_size with _ | b
      · rfl
      · exfalso
        apply hcond
        right
        have : p.1 ∈ bidx := hbidx p.1 p.2 hgetp (by rw [hb]; rfl)
        exact List.elem_iff.2 this
    have hombs : om.bit_size = none := by
      rw [heq]
      show m'.bit_size = none
      rw [hml]
      exact hbs
    subst hueq
    refine ⟨⟨⟨om, [], rfl, rfl⟩, ?_, ?_, Or.inr ⟨om, rfl, hombs⟩⟩, ?_⟩
    · rfl
    · intro m hm
      have : m = om := List.mem_singleton.1 hm
      subst this
      rw [heq]
      exact ⟨hz, rfl⟩
    · unfold isBitUnit
      simp [hombs]

theorem pipelineUnits_good (ma : Nat) (layout : StructLayout)
    (hnames : (layout.members.map (·.name)).Nodup) :
    ∀ u ∈ pipelineUnits layout ma,
      GoodUnit ma u ∧
        (isBitUnit u = true ∨ isBitUnit u = false) := by
  intro u hu
  rcases List.mem_append.1 hu with h | h
  · obtain ⟨g, hg, hmk⟩ := List.mem_filterMap.1 h
    obtain ⟨hgood, hbit⟩ := mkGroupUnit_good ma layout.members hnames hg hmk
    exact ⟨hgood, Or.inl hbit⟩
  · obtain ⟨hgood, hbit⟩ := standaloneUnits_good ma layout.members hnames _ _
      (fun i m hget hbit => find_bitfield_groups_complete layout.members
        hget hbit) h
    exact ⟨hgood, Or.inr hbit⟩

theorem placeUnits_fst_names (cur : Nat) (us : List SortableUnit) :
    (placeUnits cur us).1.map (·.name) =
      (us.map fun u => u.members.map (·.name)).flatten := by
  induction us generalizing cur with
  | nil => rfl
  | cons u rest ih =>
    simp only [placeUnits, List.map_cons, List.flatten_cons, List.map_append]
    rw [← ih]
    congr 1
    rw [List.map_map]
    rfl

/-- All indices a grouping state holds. -/
def flattenSt (st : List (List Nat) × List Nat × Option Nat) : List Nat :=
  st.1.flatten ++ st.2.1

theorem fbgStep_flat (st : List (List Nat) × List Nat × Option Nat)
    (p : Nat × MemberLayout) :
    flattenSt (fbgStep st p) = flattenSt st ∨
      flattenSt (fbgStep st p) = flattenSt st ++ [p.1] := by
  unfold fbgStep flattenSt
  by_cases hbit : p.2.bit_size.isSome
  · rw [if_pos hbit]
    by_cases hsame : (match st.2.2, p.2.offset with
        | some c, some b => decide (c = b)
        | _, _ => false) = true ∧ st.2.1 ≠ []
    · rw [if_pos hsame]
      right
      dsimp only
      rw [List.append_assoc]
    · rw [if_neg hsame]
      right
      by_cases hcur : st.2.1 ≠ []
      · rw [if_pos hcur]
        dsimp only
        simp only [List.flatten_append, List.flatten_cons, List.flatten_nil,
          List.append_nil, List.append_assoc]
      · rw [if_neg hcur]
        dsimp only
        simp only [ne_eq, not_not] at hcur
        rw [hcur]
        simp
  · rw [if_neg hbit]
    by_cases hcur : st.2.1 ≠ []
    · rw [if_pos hcur]
      left
      dsimp only
      simp only [List.flatten_append, List.flatten_cons, List.flatten_nil,
        List.append_nil]
    · rw [if_neg hcur]
      left
      rfl

theorem fbgFold_nodup (ms : List MemberLayout) :
    ∀ (n : Nat) (st : List (List Nat) × List Nat × Option Nat),
      (flattenSt st).Nodup → (∀ i ∈ flattenSt st, i < n) →
      (flattenSt (List.foldl fbgStep st (ms.enumFrom n))).Nodup ∧
        (∀ i ∈ flattenSt (List.foldl fbgStep st (ms.enumFrom n)),
          i < n + ms.length) := by
  induction ms with
  | nil =>
    intro n st h1 h2
    exact ⟨h1, fun i hi => by
      have := h2 i hi
      simpa using this⟩
  | cons m rest ih =>
    intro n st h1 h2
    simp only [List.enumFrom, List.foldl_cons]
    have hstep := fbgStep_flat st (n, m)
    have h1' : (flattenSt (fbgStep st (n, m))).Nodup := by
      rcases hstep with h | h
      · rw [h]; exact h1
      · rw [h]
        apply List.Nodup.append h1 (List.nodup_singleton _)
        intro i hi hij
        have := h2 i hi
        have : i = n := List.mem_singleton.1 hij
        omega
    have h2' : ∀ i ∈ flattenSt (fbgStep st (n, m)), i < n + 1 := by
      intro i hi
      rcases hstep with h | h
      · rw [h] at hi
        have := h2 i hi
        omega
      · rw [h] at hi
        rcases List.mem_append.1 hi with h' | h'
        · have := h2 i h'
          omega
        · have : i = n := List.mem_singleton.1 h'
          omega
    obtain ⟨ha, hb⟩ := ih (n + 1) _ h1' h2'
    refine ⟨ha, fun i hi => ?_⟩
    have := hb i hi
    simp only [List.length_cons]
    omega

theorem flatten_closeSt (st : List (List Nat) × List Nat × Option Nat) :
    (st.1 ++ (if st.2.1 ≠ [] then [st.2.1] else [])).flatten =
      flattenSt st := by
  unfold flattenSt
  by_cases hcur : st.2.1 ≠ []
  · rw [if_pos hcur]
    simp [List.flatten_append]
  · rw [if_neg hcur]
    simp only [ne_eq, not_not] at hcur
    rw [hcur]
    simp

/-- The collected bitfield indices are pairwise distinct. -/
theorem find_bitfield_groups_flatten_nodup (members : List MemberLayout) :
    ((find_bitfield_groups members).flatten).Nodup := by
  unfold find_bitfield_groups
  rw [flatten_closeSt]
  have henum : members.enum = members.enumFrom 0 := rfl
  rw [henum]
  exact (fbgFold_nodup members 0 ([], [], none) (List.nodup_nil)
    (fun i hi => by cases hi)).1

/-- Member name at an index (default irrelevant: only valid indices are
used). -/
def nameAtD (members : List MemberLayout) (i : Nat) : String :=
  ((members.get? i).map (·.name)).getD ""

theorem map_eq_of_forall2 {α β γ : Type} {R : α → β → Prop}
    {l₁ : List α} {l₂ : List β} (h : List.Forall₂ R l₁ l₂)
    (f : α → γ) (g : β → γ) (hfg : ∀ a b, R a b → f a = g b) :
    l₁.map f = l₂.map g := by
  induction h with
  | nil => rfl
  | cons hr _ ih =>
    simp only [List.map_cons, ih]
    rw [hfg _ _ hr]

/-- The names of a group unit are the names at its convertible indices. -/
theorem mkGroupUnit_names (ma : Nat) (members : List MemberLayout)
    (hnames : (members.map (·.name)).Nodup) (g : List Nat)
    {u : SortableUnit}
    (hu : mkGroupUnit members (buildOriginal ma members).1 g = some u) :
    u.members.map (·.name) =
      (g.filter fun i => (convertGroupMember members
        (buildOriginal ma members).1 i).isSome).map (nameAtD members) := by
  unfold mkGroupUnit at hu
  rcases hgm : g.filterMap
      (convertGroupMember members (buildOriginal ma members).1) with _ | ⟨m0, rest⟩
  · rw [hgm] at hu
    cases hu
  · rw [hgm] at hu
    injection hu with hu
    subst hu
    show (m0 :: rest).map (·.name) = _
    rw [← hgm]
    symm
    apply map_eq_of_forall2 (filter_filterMap_forall2 _ g)
    intro i om hio
    obtain ⟨m, o, s, hget, ho, hs, hz, heq⟩ :=
      convertGroupMember_eq ma members hnames hio
    rw [heq]
    unfold nameAtD
    rw [hget]
    rfl

/-- A group dropped by `mkGroupUnit` has no convertible indices. -/
theorem mkGroupUnit_none (members : List MemberLayout)
    (original : List OptimizedMember) (g : List Nat)
    (hu : mkGroupUnit members original g = none) :
    (g.filter fun i =>
      (convertGroupMember members original i).isSome) = [] := by
  unfold mkGroupUnit at hu
  rcases hgm : g.filterMap (convertGroupMember members original) with _ | ⟨m0, rest⟩
  · have := (filter_filterMap_forall2
      (convertGroupMember members original) g).length_eq
    rw [hgm] at this
    exact List.length_eq_zero.1 this
  · rw [hgm] at hu
    cases hu

/-- The concatenated names of the group units, as names at indices. -/
theorem groupUnits_names (ma : Nat) (members : List MemberLayout)
    (hnames : (members.map (·.name)).Nodup) :
    ∀ gs : List (List Nat),
      ((gs.filterMap (mkGroupUnit members (buildOriginal ma members).1)).map
        fun u => u.members.map (·.name)).flatten =
      (gs.flatMap fun g => g.filter fun i =>
        (convertGroupMember members
          (buildOriginal ma members).1 i).isSome).map (nameAtD members) := by
  intro gs
  induction gs with
  | nil => rfl
  | cons g rest ih =>
    rcases hmk : mkGroupUnit members (buildOriginal ma members).1 g with _ | u
    · simp only [List.filterMap_cons, hmk, List.flatMap_cons,
        mkGroupUnit_none members _ g hmk, List.nil_append]
      exact ih
    · simp only [List.filterMap_cons, hmk, List.flatMap_cons, List.map_cons,
        List.flatten_cons, List.map_append]
      rw [mkGroupUnit_names ma members hnames g hmk, ih]

/-- `standaloneUnits` with its skip condition as a `Bool`. -/
theorem standaloneUnits_eq_bool (members : List MemberLayout)
    (original : List OptimizedMember) (bidx processed : List Nat) :
    standaloneUnits members original bidx processed =
      members.enum.filterMap fun p =>
        if processed.contains p.1 || bidx.contains p.1 then none
        else (original.find? fun om => om.name == p.2.name).map
          fun om => (⟨[om], om.size, om.alignment⟩ : SortableUnit) := by
  unfold standaloneUnits
  congr 1
  funext p
  by_cases h : processed.contains p.1 = true ∨ bidx.contains p.1 = true
  · have hb : (processed.contains p.1 || bidx.contains p.1) = true := by
      rcases h with h | h
      · rw [h, Bool.true_or]
      · rw [h, Bool.or_true]
    rw [if_pos h, if_pos hb]
  · rw [if_neg h, if_neg (fun hb => h ((Bool.or_eq_true _ _) ▸ hb))]

/-- The names of the surviving standalone units, as names at the surviving
enum indices. -/
theorem filterMap_units_names (members : List MemberLayout)
    (original : List OptimizedMember) (processed bidx : List Nat) :
    ∀ ps : List (Nat × MemberLayout),
      (∀ p ∈ ps, members.get? p.1 = some p.2) →
      ((ps.filterMap fun p =>
          if processed.contains p.1 || bidx.contains p.1 then none
          else (original.find? fun om => om.name == p.2.name).map
            fun om => (⟨[om], om.size, om.alignment⟩ : SortableUnit)).map
        fun u => u.members.map (·.name)).flatten =
      (ps.filter fun p => !(processed.contains p.1 || bidx.contains p.1) &&
          (original.find? fun om => om.name == p.2.name).isSome).map
        fun p => nameAtD members p.1 := by
  intro ps
  induction ps with
  | nil => intro _; rfl
  | cons p rest ih =>
    intro hget
    have hgetp := hget p (List.mem_cons_self _ _)
    have hrest := fun q hq => hget q (List.mem_cons_of_mem _ hq)
    by_cases hc : (processed.contains p.1 || bidx.contains p.1) = true
    · simp only [List.filterMap_cons, List.filter_cons, hc, if_true,
        Bool.not_true, Bool.false_and, Bool.false_eq_true, if_false]
      exact ih hrest
    · have hc' : (processed.contains p.1 || bidx.contains p.1) = false := by
        rcases hcc : processed.contains p.1 || bidx.contains p.1
        · rfl
        · exact absurd hcc hc
      rcases hfind : original.find? (fun om => om.name == p.2.name) with _ | om
      · simp only [List.filterMap_cons, List.filter_cons, hc', hfind,
          Bool.false_eq_true, if_false, Option.map_none', Bool.not_false,
          Option.isSome_none, Bool.true_and, Bool.and_false]
        exact ih hrest
      · simp only [List.filterMap_cons, List.filter_cons, hc', hfind,
          Bool.false_eq_true, if_false, Option.map_some', Bool.not_false,
          Option.isSome_some, Bool.true_and, Bool.and_true, if_true,
          List.map_cons, List.flatten_cons]
        rw [ih hrest]
        have hnm : om.name = p.2.name := by
          have := List.find?_some hfind
          simpa using this
        have hnat : nameAtD members p.1 = p.2.name := by
          unfold nameAtD
          rw [hgetp]
          rfl
        rw [hnat, hnm]
        rfl

theorem flatMap_sublist {α β : Type} (l : List α) (f g : α → List β)
    (h : ∀ a ∈ l, (f a).Sublist (g a)) :
    (l.flatMap f).Sublist (l.flatMap g) := by
  induction l with
  | nil => exact List.Sublist.refl _
  | cons a rest ih =>
    simp only [List.flatMap_cons]
    exact List.Sublist.append (h a (List.mem_cons_self _ _))
      (ih fun a ha => h a (List.mem_cons_of_mem _ ha))

theorem nameAtD_inj (members : List MemberLayout)
    (hnames : (members.map (·.name)).Nodup)
    {i j : Nat} (hi : (members.get? i).isSome = true)
    (hj : (members.get? j).isSome = true)
    (heq : nameAtD members i = nameAtD members j) : i = j := by
  rcases hgi : members.get? i with _ | mi
  · rw [hgi] at hi
    cases hi
  · rcases hgj : members.get? j with _ | mj
    · rw [hgj] at hj
      cases hj
    · have h1 : nameAtD members i = mi.name := by
        unfold nameAtD
        rw [hgi]
        rfl
      have h2 : nameAtD members j = mj.name := by
        unfold nameAtD
        rw [hgj]
        rfl
      have hnm : mi.name = mj.name := by rw [← h1, ← h2, heq]
      have hlen : i < (members.map (·.name)).length := by
        rw [List.length_map]
        obtain ⟨h, _⟩ := List.get?_eq_some.1 hgi
        exact h
      apply List.get?_inj hlen hnames
      rw [List.get?_map, List.get?_map, hgi, hgj]
      simp [hnm]

/-- With duplicate-free input names, the unit member lists of
`optimize_layout` carry pairwise-distinct names overall. -/
theorem pipelineUnits_names_nodup (ma : Nat) (layout : StructLayout)
    (hnames : (layout.members.map (·.name)).Nodup) :
    (((pipelineUnits layout ma).map fun u =>
      u.members.map (·.name)).flatten).Nodup := by
  have hsplit : ((pipelineUnits layout ma).map fun u =>
      u.members.map (·.name)).flatten =
      (((find_bitfield_groups layout.members).flatMap fun g =>
          g.filter fun i => (convertGroupMember layout.members
            (buildOriginal ma layout.members).1 i).isSome) ++
        (layout.members.enum.filter fun p =>
          !(((find_bitfield_groups layout.members).flatten.filter fun i =>
              (convertGroupMember layout.members
                (buildOriginal ma layout.members).1 i).isSome).contains p.1 ||
            (find_bitfield_groups layout.members).flatten.contains p.1) &&
            ((buildOriginal ma layout.members).1.find? fun om =>
              om.name == p.2.name).isSome).map Prod.fst).map
        (nameAtD layout.members) := by
    unfold pipelineUnits
    rw [List.map_append, List.flatten_append,
      groupUnits_names ma layout.members hnames _,
      standaloneUnits_eq_bool,
      filterMap_units_names layout.members (buildOriginal ma layout.members).1
        ((find_bitfield_groups layout.members).flatten.filter fun i =>
          (convertGroupMember layout.members
            (buildOriginal ma layout.members).1 i).isSome)
        (find_bitfield_groups layout.members).flatten
        layout.members.enum
        (fun p hp => List.mem_enum_iff_get?.1 hp),
      List.map_append, List.map_map]
    rfl
  rw [hsplit]
  have hvalid : ∀ i ∈ (((find_bitfield_groups layout.members).flatMap fun g =>
      g.filter fun i => (convertGroupMember layout.members
        (buildOriginal ma layout.members).1 i).isSome) ++
      (layout.members.enum.filter fun p =>
        !(((find_bitfield_groups layout.members).flatten.filter fun i =>
            (convertGroupMember layout.members
              (buildOriginal ma layout.members).1 i).isSome).contains p.1 ||
          (find_bitfield_groups layout.members).flatten.contains p.1) &&
          ((buildOriginal ma layout.members).1.find? fun om =>
            om.name == p.2.name).isSome).map Prod.fst),
      (layout.members.get? i).isSome = true := by
    intro i hi
    rcases List.mem_append.1 hi with h | h
    · obtain ⟨g, _, hg2⟩ := List.mem_flatMap.1 h
      have hc := List.of_mem_filter hg2
      unfold convertGroupMember at hc
      rcases hgi : layout.members.get? i with _ | m
      · rw [hgi] at hc
        simp at hc
      · rfl
    · obtain ⟨p, hp, rfl⟩ := List.mem_map.1 h
      have := List.mem_of_mem_filter hp
      rw [List.mem_enum_iff_get?.1 this]
      rfl
  have hnodup : (((find_bitfield_groups layout.members).flatMap fun g =>
      g.filter fun i => (convertGroupMember layout.members
        (buildOriginal ma layout.members).1 i).isSome) ++
      (layout.members.enum.filter fun p =>
        !(((find_bitfield_groups layout.members).flatten.filter fun i =>
            (convertGroupMember layout.members
              (buildOriginal ma layout.members).1 i).isSome).contains p.1 ||
          (find_bitfield_groups layout.members).flatten.contains p.1) &&
          ((buildOriginal ma layout.members).1.find? fun om =>
            om.name == p.2.name).isSome).map Prod.fst).Nodup := by
    apply List.Nodup.append
    · refine List.Sublist.nodup ?_
        (find_bitfield_groups_flatten_nodup layout.members)
      have hflat : (find_bitfield_groups layout.members).flatten =
          (find_bitfield_groups layout.members).flatMap id := by
        rw [List.flatMap_id]
      rw [hflat]
      exact flatMap_sublist _ _ id fun g _ => List.filter_sublist g
    · refine List.Sublist.nodup ?_
        (List.nodup_range layout.members.length)
      rw [← List.enum_map_fst layout.members]
      exact List.Sublist.map _ (List.filter_sublist _)
    · intro i hig his
      have hbidx : i ∈ (find_bitfield_groups layout.members).flatten := by
        obtain ⟨g, hg1, hg2⟩ := List.mem_flatMap.1 hig
        exact List.mem_flatten.2 ⟨g, hg1, List.mem_of_mem_filter hg2⟩
      obtain ⟨p, hp, hpe⟩ := List.mem_map.1 his
      have hc := List.of_mem_filter hp
      rw [Bool.and_eq_true, Bool.not_eq_true', Bool.or_eq_false_iff] at hc
      have hfalse := hc.1.2
      have hd : decide (p.1 ∈ (find_bitfield_groups layout.members).flatten) =
          false := by
        rw [← List.elem_eq_mem]
        exact hfalse
      exact (decide_eq_false_iff_not.1 hd) (hpe ▸ hbidx)
  exact List.Nodup.map_on
    (fun i hi j hj he => nameAtD_inj layout.members hnames
      (hvalid i hi) (hvalid j hj) he) hnodup

theorem placeUnits_fst_mem (cur : Nat) (us : List SortableUnit) :
    ∀ m ∈ (placeUnits cur us).1, ∃ u ∈ us, ∃ m0 ∈ u.members, ∃ off,
      m = placeMember off m0 := by
  induction us generalizing cur with
  | nil => intro m hm; cases hm
  | cons u rest ih =>
    intro m hm
    rcases List.mem_append.1 hm with h | h
    · obtain ⟨m0, hm0, rfl⟩ := List.mem_map.1 h
      exact ⟨u, List.mem_cons_self _ _, m0, hm0, _, rfl⟩
    · obtain ⟨u', hu', m0, hm0, off, rfl⟩ := ih _ m h
      exact ⟨u', List.mem_cons_of_mem _ hu', m0, hm0, off, rfl⟩

/-- Rebuilding preserves every field the second run reads, so
`buildOriginal` reproduces the placed members verbatim and skips
nothing. -/
theorem buildOriginal_rebuild (ma : Nat) (pl : List OptimizedMember)
    (h : ∀ m ∈ pl, m.size ≠ 0 ∧ m.alignment = infer_alignment m.size ma) :
    buildOriginal ma (pl.map rebMem) = (pl, []) := by
  induction pl with
  | nil => rfl
  | cons m rest ih =>
    have hm := h m (List.mem_cons_self _ _)
    simp only [List.map_cons, buildOriginal]
    rw [show (rebMem m).size = some m.size from rfl,
      show (rebMem m).offset = some m.offset from rfl]
    dsimp only
    rw [if_neg hm.1]
    rw [ih fun x hx => h x (List.mem_cons_of_mem _ hx)]
    have hd : deriveMember ma (rebMem m) m.offset m.size = m := by
      obtain ⟨nm, tn, o, s, al, bo, bs⟩ := m
      unfold deriveMember rebMem
      dsimp only
      obtain ⟨h1, h2⟩ := hm
      dsimp only at h2
      rw [← h2]
    rw [hd]

/-- With duplicate-free placed names, the second run's group-member
conversion is the identity at every valid index. -/
theorem convertGroupMember_rebuild (pl : List OptimizedMember)
    (hnod : (pl.map (·.name)).Nodup)
    {idx : Nat} {m : OptimizedMember} (hget : pl.get? idx = some m) :
    convertGroupMember (pl.map rebMem) pl idx = some m := by
  unfold convertGroupMember
  rw [List.get?_map, hget]
  dsimp only [Option.map, Option.bind]
  exact find_name_unique hnod (List.get?_mem hget)

theorem enumFrom_append_eq {α : Type} (l₁ l₂ : List α) (n : Nat) :
    (l₁ ++ l₂).enumFrom n = l₁.enumFrom n ++ l₂.enumFrom (n + l₁.length) := by
  induction l₁ generalizing n with
  | nil => simp
  | cons a rest ih =>
    simp only [List.cons_append, List.enumFrom_cons, ih, List.length_cons]
    rw [show n + (rest.length + 1) = n + 1 + rest.length by omega]

/-- The closed group list of a fold state (matching the final append of
`find_bitfield_groups`). -/
def closeSt (st : List (List Nat) × List Nat × Option Nat) :
    List (List Nat) :=
  st.1 ++ (if st.2.1 ≠ [] then [st.2.1] else [])

theorem find_bitfield_groups_eq_closeSt (ms : List MemberLayout) :
    find_bitfield_groups ms =
      closeSt (ms.enum.foldl fbgStep ([], [], none)) := rfl

theorem satAdd_le_max (a b : Nat) : satAdd a b ≤ U64MAX := by
  unfold satAdd
  exact Nat.min_le_right _ _

/-- The index ranges of the all-bitfield blocks of a placed unit list. -/
def bitRanges (n cur : Nat) : List SortableUnit → List (List Nat)
  | [] => []
  | u :: rest =>
    (if isBitUnit u then [List.range' n u.members.length] else []) ++
      bitRanges (n + u.members.length)
        (satAdd (align_up cur u.alignment) u.total_size) rest

/-- Folding the tail of an all-bitfield block: every member extends the
open group. -/
theorem fbg_bitBlock_rest (off : Nat) :
    ∀ (bs : List OptimizedMember) (n : Nat) (G : List (List Nat))
      (curList : List Nat), curList ≠ [] →
      (∀ m ∈ bs, m.bit_size.isSome = true ∧ m.offset = off) →
      List.foldl fbgStep (G, curList, some off)
        ((bs.map rebMem).enumFrom n) =
        (G, curList ++ List.range' n bs.length, some off) := by
  intro bs
  induction bs with
  | nil =>
    intro n G curList _ _
    simp [List.range']
  | cons b rest ih =>
    intro n G curList hne hprops
    have hb := hprops b (List.mem_cons_self _ _)
    simp only [List.map_cons, List.enumFrom_cons, List.foldl_cons]
    have hstep : fbgStep (G, curList, some off) (n, rebMem b) =
        (G, curList ++ [n], some off) := by
      unfold fbgStep
      rw [if_pos (show (rebMem b).bit_size.isSome = true from hb.1)]
      rw [show (rebMem b).offset = some b.offset from rfl, hb.2]
      rw [if_pos ⟨by simp, hne⟩]
    rw [hstep]
    rw [ih (n + 1) G (curList ++ [n]) (by simp)
      (fun m hm => hprops m (List.mem_cons_of_mem _ hm))]
    rw [List.length_cons, List.range'_succ, List.append_assoc]
    rfl

/-- Folding an all-bitfield block whose shared offset differs from any
pending group's offset: the pending group is flushed and the block becomes
the open group. -/
theorem fbg_bitBlock (off : Nat) (bs : List OptimizedMember) (hne : bs ≠ [])
    (hprops : ∀ m ∈ bs, m.bit_size.isSome = true ∧ m.offset = off)
    (n : Nat) (st : List (List Nat) × List Nat × Option Nat)
    (hmis : st.2.1 ≠ [] → ∃ o₀, st.2.2 = some o₀ ∧ o₀ ≠ off) :
    List.foldl fbgStep st ((bs.map rebMem).enumFrom n) =
      (closeSt st, List.range' n bs.length, some off) := by
  rcases bs with _ | ⟨b, rest⟩
  · exact absurd rfl hne
  · have hb := hprops b (List.mem_cons_self _ _)
    simp only [List.map_cons, List.enumFrom_cons, List.foldl_cons]
    have hstep : fbgStep st (n, rebMem b) = (closeSt st, [n], some off) := by
      unfold fbgStep closeSt
      rw [if_pos (show (rebMem b).bit_size.isSome = true from hb.1)]
      rw [show (rebMem b).offset = some b.offset from rfl, hb.2]
      by_cases hcur : st.2.1 ≠ []
      · obtain ⟨o₀, ho, hno⟩ := hmis hcur
        rw [ho]
        rw [if_neg (by
          intro hand
          have := hand.1
          simp only [decide_eq_true_eq] at this
          exact hno this)]
        rw [if_pos hcur, if_pos hcur]
      · rw [if_neg (fun hand => hcur hand.2)]
        rw [if_neg hcur, if_neg hcur]
        rw [List.append_nil]
    rw [hstep]
    rw [fbg_bitBlock_rest off rest (n + 1) (closeSt st) [n] (by simp)
      (fun m hm => hprops m (List.mem_cons_of_mem _ hm))]
    rw [List.length_cons, List.range'_succ]
    rfl

/-- Folding a single non-bitfield member: any pending group is flushed. -/
theorem fbg_nonbitBlock (b : OptimizedMember) (hb : b.bit_size = none)
    (n : Nat) (st : List (List Nat) × List Nat × Option Nat) :
    ∃ o', List.foldl fbgStep st (([b].map rebMem).enumFrom n) =
      (closeSt st, [], o') := by
  simp only [List.map_cons, List.map_nil, List.enumFrom_cons,
    List.enumFrom_nil, List.foldl_cons, List.foldl_nil]
  unfold fbgStep closeSt
  rw [if_neg (by
    rw [show (rebMem b).bit_size = b.bit_size from rfl, hb]
    simp)]
  by_cases hcur : st.2.1 ≠ []
  · rw [if_pos hcur, if_pos hcur]
    exact ⟨none, rfl⟩
  · rw [if_neg hcur, if_neg hcur]
    refine ⟨st.2.2, ?_⟩
    rw [List.append_nil]
    simp only [ne_eq, not_not] at hcur
    rw [← hcur]

/-- The grouping fold over a placed-and-rebuilt unit list: the groups are
exactly the all-bitfield blocks (no two adjacent blocks can merge, because
below saturation the block offsets strictly increase). -/
theorem fbg_rebuild (ma : Nat) :
    ∀ (us : List SortableUnit) (cur n : Nat)
      (st : List (List Nat) × List Nat × Option Nat),
      (∀ u ∈ us, GoodUnit ma u) → cur ≤ U64MAX →
      (placeUnits cur us).2 < U64MAX →
      (st.2.1 ≠ [] → ∃ o₀, st.2.2 = some o₀ ∧ o₀ < cur) →
      closeSt (List.foldl fbgStep st
        (((placeUnits cur us).1.map rebMem).enumFrom n)) =
        closeSt st ++ bitRanges n cur us := by
  intro us
  induction us with
  | nil =>
    intro cur n st _ _ _ _
    simp [placeUnits, bitRanges]
  | cons u rest ih =>
    intro cur n st hgood hcur hfin hinv
    obtain ⟨⟨m0, ms, hmem, hts⟩, halign, hprops, hbitcase⟩ :=
      hgood u (List.mem_cons_self _ _)
    have hgrest := fun v hv => hgood v (List.mem_cons_of_mem _ hv)
    have hplace : placeUnits cur (u :: rest) =
        (u.members.map (placeMember (align_up cur u.alignment)) ++
          (placeUnits (satAdd (align_up cur u.alignment) u.total_size)
            rest).1,
         (placeUnits (satAdd (align_up cur u.alignment) u.total_size)
            rest).2) := rfl
    have hcur' : satAdd (align_up cur u.alignment) u.total_size ≤ U64MAX :=
      satAdd_le_max _ _
    have hfin' : (placeUnits
        (satAdd (align_up cur u.alignment) u.total_size) rest).2 <
        U64MAX := by
      rw [hplace] at hfin
      exact hfin
    have hoff_le : cur ≤ align_up cur u.alignment := align_up_ge _ hcur
    have hts0 : u.total_size ≠ 0 := by
      rw [hts]
      exact (hprops m0 (by rw [hmem]; exact List.mem_cons_self _ _)).1
    have hofflt : align_up cur u.alignment <
        satAdd (align_up cur u.alignment) u.total_size := by
      have h1 : satAdd (align_up cur u.alignment) u.total_size ≤
          (placeUnits (satAdd (align_up cur u.alignment) u.total_size)
            rest).2 := by
        rw [placeUnits_snd]
        exact placeFinal_ge _ hcur'
      have h2 : satAdd (align_up cur u.alignment) u.total_size < U64MAX :=
        lt_of_le_of_lt h1 hfin'
      unfold satAdd at h2 ⊢
      omega
    rw [hplace]
    dsimp only
    rw [List.map_append, enumFrom_append_eq, List.foldl_append,
      List.length_map, List.length_map]
    rcases hbitcase with hAll | ⟨b0, hmemb, hnone⟩
    · have hbitu : isBitUnit u = true := by
        unfold isBitUnit
        rw [List.all_eq_true]
        exact hAll
      rw [fbg_bitBlock (align_up cur u.alignment)
        (u.members.map (placeMember (align_up cur u.alignment)))
        (by rw [hmem]; simp)
        (by
          intro m hm
          obtain ⟨m1, hm1, rfl⟩ := List.mem_map.1 hm
          exact ⟨hAll m1 hm1, rfl⟩)
        n st
        (by
          intro hne
          obtain ⟨o₀, ho, hlt⟩ := hinv hne
          exact ⟨o₀, ho, by omega⟩)]
      rw [List.length_map]
      rw [ih (satAdd (align_up cur u.alignment) u.total_size)
        (n + u.members.length)
        (closeSt st, List.range' n u.members.length,
          some (align_up cur u.alignment))
        hgrest hcur' hfin'
        (fun _ => ⟨align_up cur u.alignment, rfl, hofflt⟩)]
      have hrne : List.range' n u.members.length ≠ [] := by
        rw [hmem]
        simp [List.range'_succ]
      have hcl : closeSt (closeSt st, List.range' n u.members.length,
          some (align_up cur u.alignment)) =
          closeSt st ++ [List.range' n u.members.length] := by
        show closeSt st ++ _ = _
        rw [if_pos hrne]
      rw [hcl]
      rw [show bitRanges n cur (u :: rest) =
        (if isBitUnit u then [List.range' n u.members.length] else []) ++
          bitRanges (n + u.members.length)
            (satAdd (align_up cur u.alignment) u.total_size) rest from rfl]
      rw [if_pos hbitu, List.append_assoc]
    · have hbitu : isBitUnit u = false := by
        unfold isBitUnit
        rw [hmemb]
        simp [hnone]
      obtain ⟨o', ho'⟩ := fbg_nonbitBlock
        (placeMember (align_up cur u.alignment) b0)
        (show b0.bit_size = none from hnone) n st
      rw [hmemb]
      rw [show ([b0].map (placeMember (align_up cur u.alignment))) =
        [placeMember (align_up cur u.alignment) b0] from rfl]
      rw [ho']
      rw [show ([b0] : List OptimizedMember).length = 1 from rfl]
      rw [ih (satAdd (align_up cur u.alignment) u.total_size) (n + 1)
        (closeSt st, [], o') hgrest hcur' hfin'
        (fun hne => absurd rfl hne)]
      have hcl : closeSt (closeSt st, ([] : List Nat), o') = closeSt st := by
        show closeSt st ++ _ = _
        rw [if_neg (by simp)]
        rw [List.append_nil]
      rw [hcl]
      rw [show bitRanges n cur (u :: rest) =
        (if isBitUnit u then [List.range' n u.members.length] else []) ++
          bitRanges (n + u.members.length)
            (satAdd (align_up cur u.alignment) u.total_size) rest from rfl]
      rw [if_neg (by rw [hbitu]; exact fun h => Bool.false_ne_true h)]
      rw [hmemb]
      rfl

theorem range'_filterMap_get {α : Type} :
    ∀ (B : List α) (n : Nat) (f : Nat → Option α),
      (∀ j m, B.get? j = some m → f (n + j) = some m) →
      (List.range' n B.length).filterMap f = B := by
  intro B
  induction B with
  | nil => intro n f _; rfl
  | cons b B' ih =>
    intro n f h
    have h0 := h 0 b rfl
    rw [Nat.add_zero] at h0
    rw [List.length_cons, List.range'_succ]
    simp only [List.filterMap_cons, h0]
    refine congrArg (b :: ·) (ih (n + 1) f ?_)
    intro j m hj
    have := h (j + 1) m hj
    rwa [show n + (j + 1) = n + 1 + j by omega] at this

/-- The group units the second run builds from the placed blocks carry
exactly the keys of the first run's all-bitfield units, in order. -/
theorem groupKeys_rebuild (ma : Nat) (pl : List OptimizedMember)
    (hnod : (pl.map (·.name)).Nodup) :
    ∀ (us : List SortableUnit) (cur n : Nat),
      (∀ u ∈ us, GoodUnit ma u) →
      (∀ j m, ((placeUnits cur us).1).get? j = some m →
        pl.get? (n + j) = some m) →
      ((bitRanges n cur us).filterMap
        (mkGroupUnit (pl.map rebMem) pl)).map unitKey =
      ((us.filter fun u => isBitUnit u).map unitKey) := by
  intro us
  induction us with
  | nil => intro cur n _ _; rfl
  | cons u rest ih =>
    intro cur n hgood hpos
    obtain ⟨⟨m0, ms, hmem, hts⟩, halign, hprops, hbitcase⟩ :=
      hgood u (List.mem_cons_self _ _)
    have hgrest := fun v hv => hgood v (List.mem_cons_of_mem _ hv)
    have hlen : (u.members.map
        (placeMember (align_up cur u.alignment))).length =
        u.members.length := List.length_map _ _
    have hsplitfst : (placeUnits cur (u :: rest)).1 =
        u.members.map (placeMember (align_up cur u.alignment)) ++
          (placeUnits (satAdd (align_up cur u.alignment) u.total_size)
            rest).1 := rfl
    have hposB : ∀ j m, (u.members.map
        (placeMember (align_up cur u.alignment))).get? j = some m →
        pl.get? (n + j) = some m := by
      intro j m hj
      apply hpos j m
      rw [hsplitfst]
      have hjlt : j < (u.members.map
          (placeMember (align_up cur u.alignment))).length :=
        (List.get?_eq_some.1 hj).1
      rw [List.get?_append hjlt]
      exact hj
    have hposRest : ∀ j m, ((placeUnits
        (satAdd (align_up cur u.alignment) u.total_size) rest).1).get? j =
        some m → pl.get? (n + u.members.length + j) = some m := by
      intro j m hj
      have hx := hpos (u.members.length + j) m (by
        rw [hsplitfst]
        rw [List.get?_append_right (by rw [hlen]; omega)]
        rw [hlen, Nat.add_sub_cancel_left]
        exact hj)
      rwa [← Nat.add_assoc] at hx
    rcases hbitcase with hAll | ⟨b0, hmemb, hnone⟩
    · have hbitu : isBitUnit u = true := by
        unfold isBitUnit
        rw [List.all_eq_true]
        exact hAll
      have hB : (List.range' n u.members.length).filterMap
          (convertGroupMember (pl.map rebMem) pl) =
          u.members.map (placeMember (align_up cur u.alignment)) := by
        rw [← hlen]
        apply range'_filterMap_get
        intro j m hj
        exact convertGroupMember_rebuild pl hnod (hposB j m hj)
      have halset : (u.members.map
          (placeMember (align_up cur u.alignment))).map (·.alignment) =
          u.members.map (·.alignment) := by
        rw [List.map_map]
        rfl
      have hmk : mkGroupUnit (pl.map rebMem) pl
          (List.range' n u.members.length) =
          some ⟨u.members.map (placeMember (align_up cur u.alignment)),
            u.total_size, u.alignment⟩ := by
        unfold mkGroupUnit
        rw [hB]
        rw [hmem]
        dsimp only [List.map_cons]
        refine congrArg some ?_
        have hX : ((placeMember (align_up cur u.alignment) m0).alignment ::
            (ms.map (placeMember (align_up cur u.alignment))).map
              (·.alignment)) = (m0 :: ms).map (·.alignment) := by
          rw [List.map_map]
          rfl
        rw [hX]
        rw [show (placeMember (align_up cur u.alignment) m0).size =
          m0.size from rfl]
        rw [← hts]
        rw [halign, hmem]
      rw [show bitRanges n cur (u :: rest) =
        (if isBitUnit u then [List.range' n u.members.length] else []) ++
          bitRanges (n + u.members.length)
            (satAdd (align_up cur u.alignment) u.total_size) rest from rfl]
      rw [if_pos hbitu]
      rw [List.filterMap_append]
      simp only [List.filterMap_cons, hmk, List.filterMap_nil]
      rw [List.filter_cons, if_pos (by rw [hbitu])]
      simp only [List.map_cons, List.map_append]
      rw [ih (satAdd (align_up cur u.alignment) u.total_size)
        (n + u.members.length) hgrest hposRest]
      rfl
    · have hbitu : isBitUnit u = false := by
        unfold isBitUnit
        rw [hmemb]
        simp [hnone]
      rw [show bitRanges n cur (u :: rest) =
        (if isBitUnit u then [List.range' n u.members.length] else []) ++
          bitRanges (n + u.members.length)
            (satAdd (align_up cur u.alignment) u.total_size) rest from rfl]
      rw [if_neg (by rw [hbitu]; exact Bool.false_ne_true)]
      rw [List.nil_append]
      rw [List.filter_cons, if_neg (by rw [hbitu]; exact Bool.false_ne_true)]
      exact ih (satAdd (align_up cur u.alignment) u.total_size)
        (n + u.members.length) hgrest hposRest

theorem bitRanges_flatten_cons (n cur : Nat) (u : SortableUnit)
    (rest : List SortableUnit) :
    (bitRanges n cur (u :: rest)).flatten =
      (if isBitUnit u then List.range' n u.members.length else []) ++
        (bitRanges (n + u.members.length)
          (satAdd (align_up cur u.alignment) u.total_size) rest).flatten := by
  rw [show bitRanges n cur (u :: rest) =
    (if isBitUnit u then [List.range' n u.members.length] else []) ++
      bitRanges (n + u.members.length)
        (satAdd (align_up cur u.alignment) u.total_size) rest from rfl]
  by_cases hb : isBitUnit u = true
  · rw [if_pos hb, if_pos hb]
    simp
  · rw [if_neg hb, if_neg hb]
    simp

theorem bitRanges_flatten_ge :
    ∀ (us : List SortableUnit) (n cur i : Nat),
      i ∈ (bitRanges n cur us).flatten → n ≤ i := by
  intro us
  induction us with
  | nil => intro n cur i h; cases h
  | cons u rest ih =>
    intro n cur i h
    rw [bitRanges_flatten_cons] at h
    rcases List.mem_append.1 h with h | h
    · by_cases hb : isBitUnit u = true
      · rw [if_pos hb] at h
        obtain ⟨j, _, rfl⟩ := List.mem_range'.1 h
        omega
      · rw [if_neg hb] at h
        cases h
    · have := ih _ _ _ h
      omega

theorem mem_enumFrom_bounds {α : Type} :
    ∀ (l : List α) (n : Nat) (p : Nat × α), p ∈ l.enumFrom n →
      n ≤ p.1 ∧ p.1 < n + l.length := by
  intro l
  induction l with
  | nil => intro n p h; cases h
  | cons a rest ih =>
    intro n p h
    rw [List.enumFrom_cons] at h
    rcases List.mem_cons.1 h with rfl | h
    · simp
    · have := ih (n + 1) p h
      simp only [List.length_cons]
      omega

theorem snd_mem_of_mem_enumFrom {α : Type} :
    ∀ (l : List α) (n : Nat) (p : Nat × α), p ∈ l.enumFrom n → p.2 ∈ l := by
  intro l
  induction l with
  | nil => intro n p h; cases h
  | cons a rest ih =>
    intro n p h
    rw [List.enumFrom_cons] at h
    rcases List.mem_cons.1 h with rfl | h
    · exact List.mem_cons_self _ _
    · exact List.mem_cons_of_mem _ (ih (n + 1) p h)

theorem placeFinal_append (c : Nat) (ks ks' : List (Nat × Nat)) :
    placeFinal c (ks ++ ks') = placeFinal (placeFinal c ks) ks' := by
  induction ks generalizing c with
  | nil => rfl
  | cons k r ih =>
    simp only [List.cons_append, placeFinal]
    exact ih _

/-- A placement that ends exactly at the saturation value decomposes at
the first unit whose step reaches it. -/
theorem placeUnits_sat_split :
    ∀ (us : List SortableUnit) (cur : Nat), cur < U64MAX →
      (placeUnits cur us).2 = U64MAX →
      ∃ pre uj post, us = pre ++ uj :: post ∧
        (placeUnits cur pre).2 < U64MAX ∧
        satAdd (align_up ((placeUnits cur pre).2) uj.alignment)
          uj.total_size = U64MAX := by
  intro us
  induction us with
  | nil =>
    intro cur hcur hfin
    rw [show (placeUnits cur ([] : List SortableUnit)).2 = cur from rfl]
      at hfin
    omega
  | cons u rest ih =>
    intro cur hcur hfin
    by_cases hc : satAdd (align_up cur u.alignment) u.total_size = U64MAX
    · refine ⟨[], u, rest, rfl, ?_, ?_⟩
      · exact hcur
      · exact hc
    · have hcle : satAdd (align_up cur u.alignment) u.total_size ≤ U64MAX :=
        satAdd_le_max _ _
      have hclt : satAdd (align_up cur u.alignment) u.total_size < U64MAX :=
        by omega
      have hfin' : (placeUnits
          (satAdd (align_up cur u.alignment) u.total_size) rest).2 =
          U64MAX := hfin
      obtain ⟨pre', uj, post, hsplit, hlt, heq⟩ := ih _ hclt hfin'
      refine ⟨u :: pre', uj, post, by rw [hsplit, List.cons_append], ?_, ?_⟩
      · exact hlt
      · exact heq

/-- Below saturation, every placed member's offset stays strictly below
the final running offset. -/
theorem placeUnits_offsets_lt (ma : Nat) :
    ∀ (us : List SortableUnit) (cur : Nat),
      (∀ u ∈ us, GoodUnit ma u) → cur ≤ U64MAX →
      (placeUnits cur us).2 < U64MAX →
      ∀ m ∈ (placeUnits cur us).1, m.offset < (placeUnits cur us).2 := by
  intro us
  induction us with
  | nil => intro cur _ _ _ m hm; cases hm
  | cons u rest ih =>
    intro cur hgood hcur hfin m hm
    obtain ⟨⟨m0, ms, hmem, hts⟩, _, hprops, _⟩ :=
      hgood u (List.mem_cons_self _ _)
    have hplace : placeUnits cur (u :: rest) =
        (u.members.map (placeMember (align_up cur u.alignment)) ++
          (placeUnits (satAdd (align_up cur u.alignment) u.total_size)
            rest).1,
         (placeUnits (satAdd (align_up cur u.alignment) u.total_size)
            rest).2) := rfl
    have hcle : satAdd (align_up cur u.alignment) u.total_size ≤ U64MAX :=
      satAdd_le_max _ _
    have hge : satAdd (align_up cur u.alignment) u.total_size ≤
        (placeUnits (satAdd (align_up cur u.alignment) u.total_size)
          rest).2 := by
      rw [placeUnits_snd]
      exact placeFinal_ge _ hcle
    have hfin' : (placeUnits
        (satAdd (align_up cur u.alignment) u.total_size) rest).2 <
        U64MAX := by
      rw [hplace] at hfin
      exact hfin
    have hts0 : u.total_size ≠ 0 := by
      rw [hts]
      exact (hprops m0 (by rw [hmem]; exact List.mem_cons_self _ _)).1
    have halup : align_up cur u.alignment ≤ U64MAX :=
      align_up_le_max _ hcur
    have holt : align_up cur u.alignment <
        satAdd (align_up cur u.alignment) u.total_size := by
      have h2 : satAdd (align_up cur u.alignment) u.total_size < U64MAX :=
        lt_of_le_of_lt hge hfin'
      unfold satAdd at h2 ⊢
      omega
    rw [hplace] at hm ⊢
    dsimp only at hm ⊢
    rcases List.mem_append.1 hm with hm | hm
    · obtain ⟨m1, _, rfl⟩ := List.mem_map.1 hm
      rw [show (placeMember (align_up cur u.alignment) m1).offset =
        align_up cur u.alignment from rfl]
      omega
    · exact ih _ (fun v hv => hgood v (List.mem_cons_of_mem _ hv)) hcle
        hfin' m hm

theorem fbgStep_bit_empty (B : List (List Nat)) (off : Option Nat)
    (p : Nat × MemberLayout) (hbit : p.2.bit_size.isSome = true) :
    fbgStep (B, [], off) p = (B, [p.1], p.2.offset) := by
  unfold fbgStep
  dsimp only
  rw [if_pos hbit, if_neg (fun h => h.2 rfl), if_neg (fun h => h rfl)]

/-- A bitfield member hitting a nonempty open group either extends it
(same known offset) or flushes it and opens a fresh group. -/
theorem fbgStep_bit_cases (B : List (List Nat)) (g : List Nat)
    (off : Option Nat) (p : Nat × MemberLayout)
    (hbit : p.2.bit_size.isSome = true) (hg : g ≠ []) :
    fbgStep (B, g, off) p = (B, g ++ [p.1], off) ∨
      fbgStep (B, g, off) p = (B ++ [g], [p.1], p.2.offset) := by
  unfold fbgStep
  dsimp only
  rw [if_pos hbit]
  rcases off with _ | c
  · refine Or.inr ?_
    rw [if_neg (fun h => Bool.false_ne_true h.1), if_pos hg]
  · rcases hpo : p.2.offset with _ | b
    · refine Or.inr ?_
      rw [if_neg (fun h => Bool.false_ne_true h.1), if_pos hg]
    · by_cases hcb : c = b
      · refine Or.inl ?_
        rw [if_pos ⟨show decide (c = b) = true by simp [hcb], hg⟩]
      · refine Or.inr ?_
        rw [if_neg (fun h => hcb (of_decide_eq_true h.1)), if_pos hg]

theorem fbgStep_nonbit_close (B : List (List Nat)) (g : List Nat)
    (off : Option Nat) (p : Nat × MemberLayout)
    (hbit : p.2.bit_size.isSome = false) (hg : g ≠ []) :
    fbgStep (B, g, off) p = (B ++ [g], [], none) := by
  unfold fbgStep
  dsimp only
  rw [if_neg (by rw [hbit]; exact Bool.false_ne_true), if_pos hg]

theorem fbgStep_nonbit_skip (B : List (List Nat)) (off : Option Nat)
    (p : Nat × MemberLayout) (hbit : p.2.bit_size.isSome = false) :
    fbgStep (B, [], off) p = (B, [], off) := by
  unfold fbgStep
  dsimp only
  rw [if_neg (by rw [hbit]; exact Bool.false_ne_true),
    if_neg (fun h => h rfl)]

/-- The grouping fold only ever writes a processed member's known offset
(or `none`) into the current-offset slot. -/
theorem fbgFold_inv :
    ∀ (l : List (Nat × MemberLayout))
      (st : List (List Nat) × List Nat × Option Nat) (c : Nat),
      (∀ p ∈ l, ∃ o, p.2.offset = some o ∧ o < c) →
      (st.2.1 ≠ [] → ∃ o₀, st.2.2 = some o₀ ∧ o₀ < c) →
      ((List.foldl fbgStep st l).2.1 ≠ [] →
        ∃ o₀, (List.foldl fbgStep st l).2.2 = some o₀ ∧ o₀ < c) := by
  intro l
  induction l with
  | nil => intro st c _ hst; exact hst
  | cons p l ih =>
    intro st c hl hst
    simp only [List.foldl_cons]
    apply ih _ c (fun q hq => hl q (List.mem_cons_of_mem _ hq))
    obtain ⟨B, g, off⟩ := st
    by_cases hbit : p.2.bit_size.isSome = true
    · by_cases hg : g ≠ []
      · rcases fbgStep_bit_cases B g off p hbit hg with h | h
        · rw [h]
          intro _
          exact hst hg
        · rw [h]
          intro _
          obtain ⟨o, ho, hoc⟩ := hl p (List.mem_cons_self _ _)
          exact ⟨o, ho, hoc⟩
      · have hge : g = [] := not_not.1 hg
        subst hge
        rw [fbgStep_bit_empty B off p hbit]
        intro _
        obtain ⟨o, ho, hoc⟩ := hl p (List.mem_cons_self _ _)
        exact ⟨o, ho, hoc⟩
    · have hbit' : p.2.bit_size.isSome = false := by
        revert hbit
        rcases p.2.bit_size.isSome <;> simp
      by_cases hg : g ≠ []
      · rw [fbgStep_nonbit_close B g off p hbit' hg]
        intro hne
        exact absurd rfl hne
      · have hge : g = [] := not_not.1 hg
        subst hge
        rw [fbgStep_nonbit_skip B off p hbit']
        exact hst

/-- Continuing the grouping fold from an open group: the open group is
extended (possibly by later indices) and closed as one block; every index
added past the initial state comes from the processed pairs. -/
theorem fbgFold_tail :
    ∀ (l : List (Nat × MemberLayout)),
      (∀ (B : List (List Nat)) (g : List Nat) (off : Option Nat), g ≠ [] →
        ∃ e rest,
          closeSt (List.foldl fbgStep (B, g, off) l) =
            B ++ (g ++ e) :: rest ∧
          (∀ i ∈ e, ∃ p ∈ l, p.1 = i) ∧
          (∀ blk ∈ rest, ∀ i ∈ blk, ∃ p ∈ l, p.1 = i)) ∧
      (∀ (B : List (List Nat)) (off : Option Nat),
        ∃ rest,
          closeSt (List.foldl fbgStep (B, [], off) l) = B ++ rest ∧
          (∀ blk ∈ rest, ∀ i ∈ blk, ∃ p ∈ l, p.1 = i)) := by
  intro l
  induction l with
  | nil =>
    constructor
    · intro B g off hg
      refine ⟨[], [], ?_, ?_, ?_⟩
      · show closeSt (B, g, off) = B ++ (g ++ []) :: []
        unfold closeSt
        rw [if_pos hg, List.append_nil]
      · intro i hi; cases hi
      · intro blk hblk; cases hblk
    · intro B off
      refine ⟨[], ?_, ?_⟩
      · show closeSt (B, [], off) = B ++ []
        unfold closeSt
        rw [if_neg (fun h => h rfl)]
      · intro blk hblk; cases hblk
  | cons p l ih =>
    constructor
    · intro B g off hg
      simp only [List.foldl_cons]
      by_cases hbit : p.2.bit_size.isSome = true
      · rcases fbgStep_bit_cases B g off p hbit hg with h | h
        · rw [h]
          obtain ⟨e', rest', heq, he', hrest'⟩ :=
            ih.1 B (g ++ [p.1]) off (by simp)
          refine ⟨p.1 :: e', rest', ?_, ?_, ?_⟩
          · rw [heq, List.append_assoc]
            rfl
          · intro i hi
            rcases List.mem_cons.1 hi with rfl | hi
            · exact ⟨p, List.mem_cons_self _ _, rfl⟩
            · obtain ⟨q, hq, hqi⟩ := he' i hi
              exact ⟨q, List.mem_cons_of_mem _ hq, hqi⟩
          · intro blk hblk i hi
            obtain ⟨q, hq, hqi⟩ := hrest' blk hblk i hi
            exact ⟨q, List.mem_cons_of_mem _ hq, hqi⟩
        · rw [h]
          obtain ⟨e', rest', heq, he', hrest'⟩ :=
            ih.1 (B ++ [g]) [p.1] p.2.offset (by simp)
          refine ⟨[], ([p.1] ++ e') :: rest', ?_, ?_, ?_⟩
          · rw [heq, List.append_assoc, List.append_nil]
            rfl
          · intro i hi; cases hi
          · intro blk hblk i hi
            rcases List.mem_cons.1 hblk with rfl | hblk
            · rcases List.mem_append.1 hi with hi | hi
              · rcases List.mem_singleton.1 hi with rfl
                exact ⟨p, List.mem_cons_self _ _, rfl⟩
              · obtain ⟨q, hq, hqi⟩ := he' _ hi
                exact ⟨q, List.mem_cons_of_mem _ hq, hqi⟩
            · obtain ⟨q, hq, hqi⟩ := hrest' blk hblk i hi
              exact ⟨q, List.mem_cons_of_mem _ hq, hqi⟩
      · have hbit' : p.2.bit_size.isSome = false := by
          revert hbit
          rcases p.2.bit_size.isSome <;> simp
        rw [fbgStep_nonbit_close B g off p hbit' hg]
        obtain ⟨rest', heq, hrest'⟩ := ih.2 (B ++ [g]) none
        refine ⟨[], rest', ?_, ?_, ?_⟩
        · rw [heq, List.append_assoc, List.append_nil]
          rfl
        · intro i hi; cases hi
        · intro blk hblk i hi
          obtain ⟨q, hq, hqi⟩ := hrest' blk hblk i hi
          exact ⟨q, List.mem_cons_of_mem _ hq, hqi⟩
    · intro B off
      simp only [List.foldl_cons]
      by_cases hbit : p.2.bit_size.isSome = true
      · rw [fbgStep_bit_empty B off p hbit]
        obtain ⟨e', rest', heq, he', hrest'⟩ :=
          ih.1 B [p.1] p.2.offset (by simp)
        refine ⟨([p.1] ++ e') :: rest', heq, ?_⟩
        intro blk hblk i hi
        rcases List.mem_cons.1 hblk with rfl | hblk
        · rcases List.mem_append.1 hi with hi | hi
          · rcases List.mem_singleton.1 hi with rfl
            exact ⟨p, List.mem_cons_self _ _, rfl⟩
          · obtain ⟨q, hq, hqi⟩ := he' _ hi
            exact ⟨q, List.mem_cons_of_mem _ hq, hqi⟩
        · obtain ⟨q, hq, hqi⟩ := hrest' blk hblk i hi
          exact ⟨q, List.mem_cons_of_mem _ hq, hqi⟩
      · have hbit' : p.2.bit_size.isSome = false := by
          revert hbit
          rcases p.2.bit_size.isSome <;> simp
        rw [fbgStep_nonbit_skip B off p hbit']
        obtain ⟨rest', heq, hrest'⟩ := ih.2 B off
        refine ⟨rest', heq, ?_⟩
        intro blk hblk i hi
        obtain ⟨q, hq, hqi⟩ := hrest' blk hblk i hi
        exact ⟨q, List.mem_cons_of_mem _ hq, hqi⟩

/-- Every index in a `bitRanges` block sits below the end of the placed
member list. -/
theorem bitRanges_flatten_lt :
    ∀ (us : List SortableUnit) (n cur i : Nat),
      i ∈ (bitRanges n cur us).flatten →
      i < n + ((placeUnits cur us).1).length := by
  intro us
  induction us with
  | nil => intro n cur i h; cases h
  | cons u rest ih =>
    intro n cur i h
    have hlen : ((placeUnits cur (u :: rest)).1).length =
        u.members.length +
          ((placeUnits (satAdd (align_up cur u.alignment) u.total_size)
            rest).1).length := by
      rw [show (placeUnits cur (u :: rest)).1 =
        u.members.map (placeMember (align_up cur u.alignment)) ++
          (placeUnits (satAdd (align_up cur u.alignment) u.total_size)
            rest).1 from rfl]
      rw [List.length_append, List.length_map]
    rw [bitRanges_flatten_cons] at h
    rcases List.mem_append.1 h with h | h
    · by_cases hb : isBitUnit u = true
      · rw [if_pos hb] at h
        have := List.mem_range'_1.1 h
        omega
      · rw [if_neg hb] at h
        cases h
    · have := ih (n + u.members.length) _ i h
      omega

/-- `standaloneUnits` with `processed = bidx` (the second run converts
every bitfield index), condition collapsed. -/
theorem standaloneUnits_self (msl : List MemberLayout)
    (orig : List OptimizedMember) (b : List Nat) :
    standaloneUnits msl orig b b =
      msl.enum.filterMap fun p =>
        if b.contains p.1 = true then none
        else (orig.find? fun om => om.name == p.2.name).map
          fun om => (⟨[om], om.size, om.alignment⟩ : SortableUnit) := by
  unfold standaloneUnits
  congr 1
  funext p
  by_cases h : b.contains p.1 = true
  · rw [if_pos (Or.inl h), if_pos h]
  · rw [if_neg (fun hc => h (hc.elim id id)), if_neg h]

/-- The standalone units the second run builds carry exactly the keys of
the first run's non-bitfield units, in order. -/
theorem standaloneKeys_rebuild (ma : Nat) (pl : List OptimizedMember)
    (hnod : (pl.map (·.name)).Nodup) (bidx : List Nat) :
    ∀ (us : List SortableUnit) (cur n : Nat),
      (∀ u ∈ us, GoodUnit ma u) →
      (∀ j m, ((placeUnits cur us).1).get? j = some m →
        pl.get? (n + j) = some m) →
      (∀ i, n ≤ i → i < n + ((placeUnits cur us).1).length →
        (bidx.contains i = true ↔
        i ∈ (bitRanges n cur us).flatten)) →
      ((((placeUnits cur us).1.map rebMem).enumFrom n).filterMap fun p =>
        if bidx.contains p.1 = true then none
        else (pl.find? fun om => om.name == p.2.name).map
          fun om => (⟨[om], om.size, om.alignment⟩ : SortableUnit)).map
        unitKey =
      ((us.filter fun u => !isBitUnit u).map unitKey) := by
  intro us
  induction us with
  | nil => intro cur n _ _ _; rfl
  | cons u rest ih =>
    intro cur n hgood hpos hH
    obtain ⟨⟨m0, ms, hmem, hts⟩, halign, hprops, hbitcase⟩ :=
      hgood u (List.mem_cons_self _ _)
    have hgrest := fun v hv => hgood v (List.mem_cons_of_mem _ hv)
    have hlen : (u.members.map
        (placeMember (align_up cur u.alignment))).length =
        u.members.length := List.length_map _ _
    have hsplitfst : (placeUnits cur (u :: rest)).1 =
        u.members.map (placeMember (align_up cur u.alignment)) ++
          (placeUnits (satAdd (align_up cur u.alignment) u.total_size)
            rest).1 := rfl
    have hposB : ∀ j m, (u.members.map
        (placeMember (align_up cur u.alignment))).get? j = some m →
        pl.get? (n + j) = some m := by
      intro j m hj
      apply hpos j m
      rw [hsplitfst]
      have hjlt : j < (u.members.map
          (placeMember (align_up cur u.alignment))).length :=
        (List.get?_eq_some.1 hj).1
      rw [List.get?_append hjlt]
      exact hj
    have hposRest : ∀ j m, ((placeUnits
        (satAdd (align_up cur u.alignment) u.total_size) rest).1).get? j =
        some m → pl.get? (n + u.members.length + j) = some m := by
      intro j m hj
      have hx := hpos (u.members.length + j) m (by
        rw [hsplitfst]
        rw [List.get?_append_right (by rw [hlen]; omega)]
        rw [hlen, Nat.add_sub_cancel_left]
        exact hj)
      rwa [← Nat.add_assoc] at hx
    have hlenfull : ((placeUnits cur (u :: rest)).1).length =
        u.members.length +
          ((placeUnits (satAdd (align_up cur u.alignment) u.total_size)
            rest).1).length := by
      rw [hsplitfst, List.length_append, List.length_map]
    have hHrest : ∀ i, n + u.members.length ≤ i →
        i < n + u.members.length +
          ((placeUnits (satAdd (align_up cur u.alignment) u.total_size)
            rest).1).length →
        (bidx.contains i = true ↔
          i ∈ (bitRanges (n + u.members.length)
            (satAdd (align_up cur u.alignment) u.total_size)
            rest).flatten) := by
      intro i hi hilt
      have h0 := hH i (by omega) (by rw [hlenfull]; omega)
      rw [bitRanges_flatten_cons] at h0
      constructor
      · intro hc
        rcases List.mem_append.1 (h0.1 hc) with h | h
        · exfalso
          by_cases hb : isBitUnit u = true
          · rw [if_pos hb] at h
            obtain ⟨j, hj, rfl⟩ := List.mem_range'.1 h
            omega
          · rw [if_neg hb] at h
            cases h
        · exact h
      · intro hmm
        exact h0.2 (List.mem_append_right _ hmm)
    rw [hsplitfst, List.map_append, enumFrom_append_eq,
      List.filterMap_append, List.map_append, List.length_map, hlen]
    rcases hbitcase with hAll | ⟨b0, hmemb, hnone⟩
    · have hbitu : isBitUnit u = true := by
        unfold isBitUnit
        rw [List.all_eq_true]
        exact hAll
      have hblocknil : (((u.members.map
          (placeMember (align_up cur u.alignment))).map rebMem).enumFrom
            n).filterMap (fun p =>
          if bidx.contains p.1 = true then none
          else (pl.find? fun om => om.name == p.2.name).map
            fun om => (⟨[om], om.size, om.alignment⟩ : SortableUnit)) =
          [] := by
        apply filterMap_nil_of
        intro p hp
        have hb := mem_enumFrom_bounds _ n p hp
        rw [List.length_map, hlen] at hb
        have hinrange : p.1 ∈ List.range' n u.members.length :=
          List.mem_range'.2 ⟨p.1 - n, by omega, by omega⟩
        have hcont : bidx.contains p.1 = true := by
          apply (hH p.1 hb.1 (by rw [hlenfull]; omega)).2
          rw [bitRanges_flatten_cons]
          apply List.mem_append_left
          rw [if_pos hbitu]
          exact hinrange
        rw [if_pos hcont]
      rw [hblocknil]
      rw [List.map_nil, List.nil_append]
      rw [List.filter_cons, if_neg (by rw [hbitu]; simp)]
      exact ih (satAdd (align_up cur u.alignment) u.total_size)
        (n + u.members.length) hgrest hposRest hHrest
    · have hbitu : isBitUnit u = false := by
        unfold isBitUnit
        rw [hmemb]
        simp [hnone]
      have hb0 : b0 = m0 ∧ ms = [] := by
        rw [hmemb] at hmem
        injection hmem with h1 h2
        exact ⟨h1, h2.symm⟩
      have hmlen1 : u.members.length = ms.length + 1 := by
        rw [hmem]
        rfl
      have hcontn : bidx.contains n = false := by
        rcases hcn : bidx.contains n
        · rfl
        · exfalso
          have := (hH n (le_refl n) (by rw [hlenfull]; omega)).1 hcn
          rw [bitRanges_flatten_cons] at this
          rcases List.mem_append.1 this with h | h
          · rw [if_neg (by rw [hbitu]; simp)] at h
            cases h
          · have := bitRanges_flatten_ge _ _ _ _ h
            rw [hmemb] at this
            simp at this
      have hplmem : pl.get? n = some
          (placeMember (align_up cur u.alignment) b0) := by
        have := hposB 0 (placeMember (align_up cur u.alignment) b0) (by
          rw [hmemb]
          rfl)
        rwa [Nat.add_zero] at this
      have hfind : pl.find? (fun om => om.name ==
          (rebMem (placeMember (align_up cur u.alignment) b0)).name) =
          some (placeMember (align_up cur u.alignment) b0) :=
        find_name_unique hnod (List.get?_mem hplmem)
      rw [show ((u.members.map (placeMember (align_up cur u.alignment))).map
        rebMem) = [rebMem (placeMember (align_up cur u.alignment) b0)]
        from by rw [hmemb]; rfl]
      rw [show ([rebMem (placeMember (align_up cur u.alignment)
        b0)]).enumFrom n = [(n, rebMem (placeMember
          (align_up cur u.alignment) b0))] from rfl]
      rw [show ([(n, rebMem (placeMember (align_up cur u.alignment)
          b0))]).filterMap (fun p =>
          if bidx.contains p.1 = true then none
          else (pl.find? fun om => om.name == p.2.name).map
            fun om => (⟨[om], om.size, om.alignment⟩ : SortableUnit)) =
          [⟨[placeMember (align_up cur u.alignment) b0],
            (placeMember (align_up cur u.alignment) b0).size,
            (placeMember (align_up cur u.alignment) b0).alignment⟩]
        from by
          simp only [List.filterMap_cons, List.filterMap_nil]
          rw [hcontn]
          simp only [Bool.false_eq_true, if_false]
          rw [hfind]
          rfl]
      rw [List.filter_cons, if_pos (by rw [hbitu]; rfl)]
      rw [List.map_cons, List.map_cons]
      rw [ih (satAdd (align_up cur u.alignment) u.total_size)
        (n + u.members.length) hgrest hposRest hHrest]
      congr 1
      unfold unitKey
      obtain ⟨hb0', hms⟩ := hb0
      rw [show (placeMember (align_up cur u.alignment) b0).alignment =
        b0.alignment from rfl]
      rw [show (placeMember (align_up cur u.alignment) b0).size =
        b0.size from rfl]
      rw [halign, hmemb, hts, ← hb0']
      rfl

/-- The second run's unit keys are a permutation of the first run's
(bitfield groups re-form exactly, standalone members re-stand alone). -/
theorem rerun_keys_perm (ma : Nat) (us : List SortableUnit)
    (hgood : ∀ u ∈ us, GoodUnit ma u)
    (hnod : ((((placeUnits 0 us).1).map (·.name)).Nodup))
    (hfin : (placeUnits 0 us).2 < U64MAX)
    (L₂ : StructLayout)
    (hmem : L₂.members = ((placeUnits 0 us).1).map rebMem) :
    List.Perm (keysOf (pipelineUnits L₂ ma)) (keysOf us) := by
  have hplprops : ∀ m ∈ (placeUnits 0 us).1,
      m.size ≠ 0 ∧ m.alignment = infer_alignment m.size ma := by
    intro m hm
    obtain ⟨u, hu, m0, hm0, off, rfl⟩ := placeUnits_fst_mem 0 us m hm
    obtain ⟨_, _, hprops, _⟩ := hgood u hu
    have h0 := hprops m0 hm0
    exact ⟨h0.1, h0.2⟩
  have hbuild : buildOriginal ma (((placeUnits 0 us).1).map rebMem) =
      ((placeUnits 0 us).1, []) := buildOriginal_rebuild ma _ hplprops
  have hfbg : find_bitfield_groups (((placeUnits 0 us).1).map rebMem) =
      bitRanges 0 0 us := by
    rw [find_bitfield_groups_eq_closeSt]
    rw [show (((placeUnits 0 us).1).map rebMem).enum =
      (((placeUnits 0 us).1).map rebMem).enumFrom 0 from rfl]
    rw [fbg_rebuild ma us 0 0 ([], [], none) hgood
      (by unfold U64MAX; omega) hfin (fun h => absurd rfl h)]
    rfl
  have hconvAll : ∀ i ∈ (bitRanges 0 0 us).flatten,
      (convertGroupMember (((placeUnits 0 us).1).map rebMem)
        ((placeUnits 0 us).1) i).isSome = true := by
    intro i hi
    have hgrp : ∃ g ∈ find_bitfield_groups
        (((placeUnits 0 us).1).map rebMem), i ∈ g := by
      rw [hfbg]
      exact List.mem_flatten.1 hi
    obtain ⟨g, hg, hig⟩ := hgrp
    obtain ⟨mm, hget, _⟩ := find_bitfield_groups_bit _ g hg i hig
    rw [List.get?_map] at hget
    obtain ⟨m, hm, _⟩ := Option.map_eq_some'.1 hget
    rw [convertGroupMember_rebuild _ hnod hm]
    rfl
  have hpipe : pipelineUnits L₂ ma =
      (bitRanges 0 0 us).filterMap
        (mkGroupUnit (((placeUnits 0 us).1).map rebMem)
          ((placeUnits 0 us).1)) ++
      standaloneUnits (((placeUnits 0 us).1).map rebMem)
        ((placeUnits 0 us).1) (bitRanges 0 0 us).flatten
        (bitRanges 0 0 us).flatten := by
    unfold pipelineUnits
    rw [hmem, hbuild, hfbg]
    dsimp only
    rw [List.filter_eq_self.2 hconvAll]
  have hposTop : ∀ j m, ((placeUnits 0 us).1).get? j = some m →
      ((placeUnits 0 us).1).get? (0 + j) = some m := by
    intro j m h
    rwa [Nat.zero_add]
  have hH : ∀ i, 0 ≤ i → i < 0 + ((placeUnits 0 us).1).length →
      ((bitRanges 0 0 us).flatten.contains i = true ↔
      i ∈ (bitRanges 0 0 us).flatten) :=
    fun i _ _ => ⟨fun h => List.elem_iff.1 h, fun h => List.elem_iff.2 h⟩
  have hkeysG := groupKeys_rebuild ma ((placeUnits 0 us).1) hnod us 0 0
    hgood hposTop
  have hkeysS := standaloneKeys_rebuild ma ((placeUnits 0 us).1) hnod
    ((bitRanges 0 0 us).flatten) us 0 0 hgood hposTop hH
  rw [hpipe]
  unfold keysOf
  rw [List.map_append]
  rw [hkeysG]
  rw [standaloneUnits_self]
  rw [show (((placeUnits 0 us).1).map rebMem).enum =
    (((placeUnits 0 us).1).map rebMem).enumFrom 0 from rfl]
  rw [hkeysS]
  have hperm := (List.filter_append_perm (fun u => isBitUnit u) us).map
    unitKey
  rwa [List.map_append] at hperm

/-- Extracting a sub-multiset when the extra element sits inside the
first summand. -/
theorem subperm_assembly {α : Type} (K Pb Ps Rk Sb : List α) (kj : α)
    (hpermPre : List.Perm (Pb ++ Ps) K) :
    List.Subperm (K ++ [kj]) ((Pb ++ kj :: Rk) ++ (Ps ++ Sb)) := by
  have hsl : (Pb ++ Ps).Sublist (Pb ++ (Rk ++ (Ps ++ Sb))) :=
    List.Sublist.append (List.Sublist.refl _)
      ((List.sublist_append_left Ps Sb).trans
        (List.sublist_append_right Rk (Ps ++ Sb)))
  have hgoalperm : List.Perm ((Pb ++ kj :: Rk) ++ (Ps ++ Sb))
      (kj :: (Pb ++ (Rk ++ (Ps ++ Sb)))) := by
    have h1 : (Pb ++ kj :: Rk) ++ (Ps ++ Sb) =
        Pb ++ kj :: (Rk ++ (Ps ++ Sb)) := by
      rw [List.append_assoc, List.cons_append]
    rw [h1]
    exact List.perm_middle
  exact ((List.perm_append_singleton kj K).subperm.trans
    ((List.subperm_cons kj).2 ⟨Pb ++ Ps, hpermPre, hsl⟩)).trans
    hgoalperm.symm.subperm

/-- Extracting a sub-multiset when the extra element sits inside the
second summand. -/
theorem subperm_assembly2 {α : Type} (K Pb Ps Rk Sb : List α) (kj : α)
    (hpermPre : List.Perm (Pb ++ Ps) K) :
    List.Subperm (K ++ [kj]) ((Pb ++ Rk) ++ (Ps ++ kj :: Sb)) := by
  have hsl : (Pb ++ (Ps ++ [kj])).Sublist
      (Pb ++ (Rk ++ (Ps ++ kj :: Sb))) :=
    List.Sublist.append (List.Sublist.refl _)
      ((List.Sublist.append (List.Sublist.refl Ps)
        (List.cons_sublist_cons.2 (List.nil_sublist Sb))).trans
        (List.sublist_append_right Rk (Ps ++ kj :: Sb)))
  have hperm2 : List.Perm (Pb ++ (Ps ++ [kj])) (K ++ [kj]) := by
    rw [← List.append_assoc]
    exact hpermPre.append_right [kj]
  have hgoaleq : (Pb ++ Rk) ++ (Ps ++ kj :: Sb) =
      Pb ++ (Rk ++ (Ps ++ kj :: Sb)) := by
    rw [List.append_assoc]
  rw [hgoaleq]
  exact ⟨Pb ++ (Ps ++ [kj]), hperm2, hsl⟩

/-- Saturated rerun, all-bitfield saturating unit: the placed prefix
re-groups exactly and the members at or past the first clipped offset are
absorbed into one block led by the saturating unit's first member, whose
(alignment, size) key equals the saturating unit's. -/
theorem rerun_keys_subperm_bit (ma : Nat) (pre : List SortableUnit)
    (uj : SortableUnit) (post : List SortableUnit)
    (hgood : ∀ u ∈ pre ++ uj :: post, GoodUnit ma u)
    (hsorted : List.Pairwise unitLe (pre ++ uj :: post))
    (hnod : (((placeUnits 0 (pre ++ uj :: post)).1).map (·.name)).Nodup)
    (hfinpre : (placeUnits 0 pre).2 < U64MAX)
    (L₂ : StructLayout)
    (hmem : L₂.members =
      ((placeUnits 0 (pre ++ uj :: post)).1).map rebMem)
    (hAll : ∀ m ∈ uj.members, m.bit_size.isSome = true) :
    List.Subperm (keysOf pre ++ [unitKey uj])
      (keysOf (pipelineUnits L₂ ma)) := by
  have hgoodpre : ∀ u ∈ pre, GoodUnit ma u :=
    fun u hu => hgood u (List.mem_append_left _ hu)
  have hgooduj : GoodUnit ma uj :=
    hgood uj (List.mem_append_right _ (List.mem_cons_self _ _))
  have hgoodpost : ∀ u ∈ post, GoodUnit ma u :=
    fun u hu => hgood u (List.mem_append_right _ (List.mem_cons_of_mem _ hu))
  obtain ⟨⟨m0, ms, hmemj, hts⟩, halignj, hpropsj, _⟩ := hgooduj
  have hcple : (placeUnits 0 pre).2 ≤ U64MAX := le_of_lt hfinpre
  have hojge : (placeUnits 0 pre).2 ≤
      align_up ((placeUnits 0 pre).2) uj.alignment :=
    align_up_ge _ hcple
  have hpl : (placeUnits 0 (pre ++ uj :: post)).1 =
      (placeUnits 0 pre).1 ++
        (uj.members.map (placeMember
          (align_up ((placeUnits 0 pre).2) uj.alignment)) ++
         (placeUnits (satAdd (align_up ((placeUnits 0 pre).2) uj.alignment)
           uj.total_size) post).1) := by
    rw [placeUnits_fst_append]
    rfl
  have hplprops : ∀ m ∈ (placeUnits 0 (pre ++ uj :: post)).1,
      m.size ≠ 0 ∧ m.alignment = infer_alignment m.size ma := by
    intro m hm
    obtain ⟨u, hu, m1, hm1, off, rfl⟩ :=
      placeUnits_fst_mem 0 (pre ++ uj :: post) m hm
    obtain ⟨_, _, hprops, _⟩ := hgood u hu
    have h0 := hprops m1 hm1
    exact ⟨h0.1, h0.2⟩
  have hbuild : buildOriginal ma
      (((placeUnits 0 (pre ++ uj :: post)).1).map rebMem) =
      ((placeUnits 0 (pre ++ uj :: post)).1, []) :=
    buildOriginal_rebuild ma _ hplprops
  have hml : ((placeUnits 0 (pre ++ uj :: post)).1).map rebMem =
      ((placeUnits 0 pre).1).map rebMem ++
        ((uj.members.map (placeMember
          (align_up ((placeUnits 0 pre).2) uj.alignment))).map rebMem ++
         ((placeUnits (satAdd (align_up ((placeUnits 0 pre).2)
           uj.alignment) uj.total_size) post).1).map rebMem) := by
    rw [hpl, List.map_append, List.map_append]
  have hclose1 : closeSt (List.foldl fbgStep ([], [], none)
      ((((placeUnits 0 pre).1).map rebMem).enumFrom 0)) =
      bitRanges 0 0 pre := by
    rw [fbg_rebuild ma pre 0 0 ([], [], none) hgoodpre
      (by unfold U64MAX; omega) hfinpre (fun h => absurd rfl h)]
    rfl
  have hinv1 := fbgFold_inv
    ((((placeUnits 0 pre).1).map rebMem).enumFrom 0) ([], [], none)
    ((placeUnits 0 pre).2)
    (by
      intro p hp
      have hsnd := snd_mem_of_mem_enumFrom _ 0 p hp
      obtain ⟨m, hmP, hrm⟩ := List.mem_map.1 hsnd
      refine ⟨m.offset, ?_, ?_⟩
      · rw [← hrm]
        rfl
      · exact placeUnits_offsets_lt ma pre 0 hgoodpre
          (by unfold U64MAX; omega) hfinpre m hmP)
    (fun h => absurd rfl h)
  have hJprops : ∀ m ∈ uj.members.map (placeMember
      (align_up ((placeUnits 0 pre).2) uj.alignment)),
      m.bit_size.isSome = true ∧
        m.offset = align_up ((placeUnits 0 pre).2) uj.alignment := by
    intro m hm
    obtain ⟨m1, hm1, rfl⟩ := List.mem_map.1 hm
    exact ⟨hAll m1 hm1, rfl⟩
  have hJne : uj.members.map (placeMember
      (align_up ((placeUnits 0 pre).2) uj.alignment)) ≠ [] := by
    rw [hmemj]
    simp
  have hst2 := fbg_bitBlock
    (align_up ((placeUnits 0 pre).2) uj.alignment)
    (uj.members.map (placeMember
      (align_up ((placeUnits 0 pre).2) uj.alignment)))
    hJne hJprops (((placeUnits 0 pre).1).length)
    (List.foldl fbgStep ([], [], none)
      ((((placeUnits 0 pre).1).map rebMem).enumFrom 0))
    (by
      intro h
      obtain ⟨o₀, ho, hlt⟩ := hinv1 h
      exact ⟨o₀, ho, by omega⟩)
  rw [List.length_map] at hst2
  obtain ⟨e, rest, heqG, he, hrest⟩ :=
    (fbgFold_tail ((((placeUnits (satAdd (align_up
        ((placeUnits 0 pre).2) uj.alignment) uj.total_size)
        post).1).map rebMem).enumFrom
      (((placeUnits 0 pre).1).length + uj.members.length))).1
      (bitRanges 0 0 pre)
      (List.range' (((placeUnits 0 pre).1).length) uj.members.length)
      (some (align_up ((placeUnits 0 pre).2) uj.alignment))
      (by rw [hmemj]; simp [List.range'_succ])
  have hGfull : find_bitfield_groups
      (((placeUnits 0 (pre ++ uj :: post)).1).map rebMem) =
      bitRanges 0 0 pre ++
        (List.range' (((placeUnits 0 pre).1).length)
          uj.members.length ++ e) :: rest := by
    rw [find_bitfield_groups_eq_closeSt]
    rw [show (((placeUnits 0 (pre ++ uj :: post)).1).map rebMem).enum =
      (((placeUnits 0 (pre ++ uj :: post)).1).map rebMem).enumFrom 0
      from rfl]
    rw [hml, enumFrom_append_eq, enumFrom_append_eq]
    simp only [List.length_map, Nat.zero_add]
    rw [List.foldl_append, List.foldl_append]
    rw [hst2, hclose1]
    exact heqG
  have hlenPL : ((placeUnits 0 (pre ++ uj :: post)).1).length =
      ((placeUnits 0 pre).1).length + (uj.members.length +
        ((placeUnits (satAdd (align_up ((placeUnits 0 pre).2)
          uj.alignment) uj.total_size) post).1).length) := by
    rw [hpl, List.length_append, List.length_append, List.length_map]
  have hget : ∀ i, i < ((placeUnits 0 (pre ++ uj :: post)).1).length →
      ∃ m, ((placeUnits 0 (pre ++ uj :: post)).1).get? i = some m := by
    intro i hi
    rcases hg : ((placeUnits 0 (pre ++ uj :: post)).1).get? i with _ | m
    · rw [List.get?_eq_none] at hg
      omega
    · exact ⟨m, rfl⟩
  have hconvAll : ∀ i ∈ (find_bitfield_groups
      (((placeUnits 0 (pre ++ uj :: post)).1).map rebMem)).flatten,
      (convertGroupMember
        (((placeUnits 0 (pre ++ uj :: post)).1).map rebMem)
        ((placeUnits 0 (pre ++ uj :: post)).1) i).isSome = true := by
    intro i hi
    have hvalid : i < ((placeUnits 0 (pre ++ uj :: post)).1).length := by
      rw [hGfull, List.flatten_append, List.flatten_cons] at hi
      rcases List.mem_append.1 hi with h | h
      · have := bitRanges_flatten_lt pre 0 0 i h
        omega
      · rcases List.mem_append.1 h with h | h
        · rcases List.mem_append.1 h with h | h
          · have := List.mem_range'_1.1 h
            omega
          · obtain ⟨p, hp, hpi⟩ := he i h
            have hb := mem_enumFrom_bounds _ _ p hp
            rw [List.length_map] at hb
            omega
        · obtain ⟨blk, hblk, hib⟩ := List.mem_flatten.1 h
          obtain ⟨p, hp, hpi⟩ := hrest blk hblk i hib
          have hb := mem_enumFrom_bounds _ _ p hp
          rw [List.length_map] at hb
          omega
    obtain ⟨m, hm⟩ := hget i hvalid
    rw [convertGroupMember_rebuild _ hnod hm]
    rfl
  have hpipe : pipelineUnits L₂ ma =
      (find_bitfield_groups
        (((placeUnits 0 (pre ++ uj :: post)).1).map rebMem)).filterMap
        (mkGroupUnit
          (((placeUnits 0 (pre ++ uj :: post)).1).map rebMem)
          ((placeUnits 0 (pre ++ uj :: post)).1)) ++
      standaloneUnits
        (((placeUnits 0 (pre ++ uj :: post)).1).map rebMem)
        ((placeUnits 0 (pre ++ uj :: post)).1)
        (find_bitfield_groups
          (((placeUnits 0 (pre ++ uj :: post)).1).map rebMem)).flatten
        (find_bitfield_groups
          (((placeUnits 0 (pre ++ uj :: post)).1).map rebMem)).flatten := by
    unfold pipelineUnits
    rw [hmem, hbuild]
    dsimp only
    rw [List.filter_eq_self.2 hconvAll]
  have hposP : ∀ j m, ((placeUnits 0 pre).1).get? j = some m →
      ((placeUnits 0 (pre ++ uj :: post)).1).get? (0 + j) = some m := by
    intro j m hj
    rw [Nat.zero_add, hpl]
    rw [List.get?_append (List.get?_eq_some.1 hj).1]
    exact hj
  have hkeysG := groupKeys_rebuild ma
    ((placeUnits 0 (pre ++ uj :: post)).1) hnod pre 0 0 hgoodpre hposP
  have hJget : ∀ j m, (uj.members.map (placeMember
      (align_up ((placeUnits 0 pre).2) uj.alignment))).get? j = some m →
      ((placeUnits 0 (pre ++ uj :: post)).1).get?
        (((placeUnits 0 pre).1).length + j) = some m := by
    intro j m hj
    have hjlt : j < (uj.members.map (placeMember
        (align_up ((placeUnits 0 pre).2) uj.alignment))).length :=
      (List.get?_eq_some.1 hj).1
    rw [hpl]
    rw [List.get?_append_right (by omega)]
    rw [Nat.add_sub_cancel_left]
    rw [List.get?_append hjlt]
    exact hj
  have hgmJ : (List.range' (((placeUnits 0 pre).1).length)
      uj.members.length).filterMap
      (convertGroupMember
        (((placeUnits 0 (pre ++ uj :: post)).1).map rebMem)
        ((placeUnits 0 (pre ++ uj :: post)).1)) =
      uj.members.map (placeMember
        (align_up ((placeUnits 0 pre).2) uj.alignment)) := by
    rw [show uj.members.length = (uj.members.map (placeMember
      (align_up ((placeUnits 0 pre).2) uj.alignment))).length from
      (List.length_map _ _).symm]
    exact range'_filterMap_get _ _ _
      (fun j m hj => convertGroupMember_rebuild _ hnod (hJget j m hj))
  have hpost_le : ∀ u' ∈ post, u'.alignment ≤ uj.alignment := by
    have hsub : (uj :: post).Sublist (pre ++ uj :: post) :=
      List.sublist_append_right _ _
    have hpw : List.Pairwise unitLe (uj :: post) :=
      List.Pairwise.sublist hsub hsorted
    intro u' hu'
    have h1 := (List.pairwise_cons.1 hpw).1 u' hu'
    unfold unitLe at h1
    omega
  have heAlign : ∀ x ∈ e.filterMap (convertGroupMember
      (((placeUnits 0 (pre ++ uj :: post)).1).map rebMem)
      ((placeUnits 0 (pre ++ uj :: post)).1)),
      x.alignment ≤ uj.alignment := by
    intro x hx
    obtain ⟨i, hie, hconv⟩ := List.mem_filterMap.1 hx
    obtain ⟨p, hp, hpi⟩ := he i hie
    have hb := mem_enumFrom_bounds _ _ p hp
    rw [List.length_map] at hb
    have hvalid : i < ((placeUnits 0 (pre ++ uj :: post)).1).length := by
      omega
    obtain ⟨m, hm⟩ := hget i hvalid
    have hcm := convertGroupMember_rebuild
      ((placeUnits 0 (pre ++ uj :: post)).1) hnod hm
    have hxm : x = m := by
      rw [hconv] at hcm
      exact Option.some.inj hcm
    have hm2 := hm
    rw [hpl] at hm2
    rw [List.get?_append_right (by omega)] at hm2
    rw [List.get?_append_right (by rw [List.length_map]; omega)] at hm2
    rw [List.length_map] at hm2
    have hmQ : m ∈ (placeUnits (satAdd (align_up ((placeUnits 0 pre).2)
        uj.alignment) uj.total_size) post).1 := List.get?_mem hm2
    obtain ⟨u', hu', m1, hm1, off, hmm⟩ :=
      placeUnits_fst_mem _ post m hmQ
    obtain ⟨_, halign', hprops', _⟩ := hgoodpost u' hu'
    have hle1 : m1.alignment ≤ u'.alignment := by
      rw [halign']
      exact List.le_max?_getD_of_mem
        (List.mem_map_of_mem (·.alignment) hm1)
    rw [hxm, hmm]
    rw [show (placeMember off m1).alignment = m1.alignment from rfl]
    exact le_trans hle1 (hpost_le u' hu')
  have hmax_some : ((uj.members.map (·.alignment)).max?) =
      some uj.alignment := by
    rcases hmx : (uj.members.map (·.alignment)).max? with _ | M
    · rw [List.max?_eq_none_iff] at hmx
      rw [hmemj] at hmx
      simp at hmx
    · have hMeq : uj.alignment = M := by
        rw [halignj, hmx]
        rfl
      rw [hMeq]
      exact hmx
  have hmax2 : ((uj.members.map (placeMember
      (align_up ((placeUnits 0 pre).2) uj.alignment)) ++
      e.filterMap (convertGroupMember
        (((placeUnits 0 (pre ++ uj :: post)).1).map rebMem)
        ((placeUnits 0 (pre ++ uj :: post)).1))).map
      (·.alignment)).max? = some uj.alignment := by
    rw [List.map_append]
    rw [show ((uj.members.map (placeMember (align_up
      ((placeUnits 0 pre).2) uj.alignment))).map (·.alignment)) =
      uj.members.map (·.alignment) from by rw [List.map_map]; rfl]
    apply List.max?_eq_some_iff'.2
    constructor
    · exact List.mem_append_left _ (List.max?_eq_some_iff'.1 hmax_some).1
    · intro b hb
      rcases List.mem_append.1 hb with hb | hb
      · exact (List.max?_eq_some_iff'.1 hmax_some).2 b hb
      · obtain ⟨x, hxmem, rfl⟩ := List.mem_map.1 hb
        exact heAlign x hxmem
  have hJcons : uj.members.map (placeMember (align_up
      ((placeUnits 0 pre).2) uj.alignment)) =
      placeMember (align_up ((placeUnits 0 pre).2) uj.alignment) m0 ::
        ms.map (placeMember (align_up ((placeUnits 0 pre).2)
          uj.alignment)) := by
    rw [hmemj]
    rfl
  have hmax2' : ((placeMember (align_up ((placeUnits 0 pre).2)
      uj.alignment) m0 ::
      (ms.map (placeMember (align_up ((placeUnits 0 pre).2)
        uj.alignment)) ++
       e.filterMap (convertGroupMember
        (((placeUnits 0 (pre ++ uj :: post)).1).map rebMem)
        ((placeUnits 0 (pre ++ uj :: post)).1)))).map
      (·.alignment)).max? = some uj.alignment := by
    rw [show (placeMember (align_up ((placeUnits 0 pre).2)
      uj.alignment) m0 ::
      (ms.map (placeMember (align_up ((placeUnits 0 pre).2)
        uj.alignment)) ++
       e.filterMap (convertGroupMember
        (((placeUnits 0 (pre ++ uj :: post)).1).map rebMem)
        ((placeUnits 0 (pre ++ uj :: post)).1)))) =
      uj.members.map (placeMember (align_up ((placeUnits 0 pre).2)
        uj.alignment)) ++
      e.filterMap (convertGroupMember
        (((placeUnits 0 (pre ++ uj :: post)).1).map rebMem)
        ((placeUnits 0 (pre ++ uj :: post)).1)) from by
        rw [hJcons]
        rfl]
    exact hmax2
  have hmkT : mkGroupUnit
      (((placeUnits 0 (pre ++ uj :: post)).1).map rebMem)
      ((placeUnits 0 (pre ++ uj :: post)).1)
      (List.range' (((placeUnits 0 pre).1).length)
        uj.members.length ++ e) =
      some ⟨uj.members.map (placeMember
          (align_up ((placeUnits 0 pre).2) uj.alignment)) ++
        e.filterMap (convertGroupMember
          (((placeUnits 0 (pre ++ uj :: post)).1).map rebMem)
          ((placeUnits 0 (pre ++ uj :: post)).1)),
        uj.total_size, uj.alignment⟩ := by
    unfold mkGroupUnit
    rw [List.filterMap_append, hgmJ, hJcons]
    dsimp only [List.cons_append]
    refine congrArg some ?_
    rw [show (placeMember (align_up ((placeUnits 0 pre).2)
      uj.alignment) m0).size = uj.total_size from by rw [hts]; rfl]
    rw [show (((placeMember (align_up ((placeUnits 0 pre).2)
      uj.alignment) m0 ::
      (ms.map (placeMember (align_up ((placeUnits 0 pre).2)
        uj.alignment)) ++
       e.filterMap (convertGroupMember
        (((placeUnits 0 (pre ++ uj :: post)).1).map rebMem)
        ((placeUnits 0 (pre ++ uj :: post)).1)))).map
      (·.alignment)).max?).getD 1 = uj.alignment from by rw [hmax2']; rfl]
  have hGroupsKeys : ((find_bitfield_groups
      (((placeUnits 0 (pre ++ uj :: post)).1).map rebMem)).filterMap
      (mkGroupUnit
        (((placeUnits 0 (pre ++ uj :: post)).1).map rebMem)
        ((placeUnits 0 (pre ++ uj :: post)).1))).map unitKey =
      ((pre.filter fun u => isBitUnit u).map unitKey) ++
        unitKey uj :: ((rest.filterMap (mkGroupUnit
          (((placeUnits 0 (pre ++ uj :: post)).1).map rebMem)
          ((placeUnits 0 (pre ++ uj :: post)).1))).map unitKey) := by
    rw [hGfull, List.filterMap_append, List.map_append, hkeysG]
    simp only [List.filterMap_cons, hmkT, List.map_cons]
    rfl
  have hbidxiff : ∀ i, 0 ≤ i → i < 0 + ((placeUnits 0 pre).1).length →
      ((find_bitfield_groups
        (((placeUnits 0 (pre ++ uj :: post)).1).map rebMem)).flatten.contains
        i = true ↔ i ∈ (bitRanges 0 0 pre).flatten) := by
    intro i _ hilt
    rw [Nat.zero_add] at hilt
    constructor
    · intro hc
      have hmemf := List.elem_iff.1 hc
      rw [hGfull, List.flatten_append, List.flatten_cons] at hmemf
      rcases List.mem_append.1 hmemf with h | h
      · exact h
      · exfalso
        rcases List.mem_append.1 h with h | h
        · rcases List.mem_append.1 h with h | h
          · have := List.mem_range'_1.1 h
            omega
          · obtain ⟨p, hp, hpi⟩ := he i h
            have hb := mem_enumFrom_bounds _ _ p hp
            omega
        · obtain ⟨blk, hblk, hib⟩ := List.mem_flatten.1 h
          obtain ⟨p, hp, hpi⟩ := hrest blk hblk i hib
          have hb := mem_enumFrom_bounds _ _ p hp
          omega
    · intro hmemf
      apply List.elem_iff.2
      rw [hGfull, List.flatten_append]
      exact List.mem_append_left _ hmemf
  have hstandA := standaloneKeys_rebuild ma
    ((placeUnits 0 (pre ++ uj :: post)).1) hnod
    ((find_bitfield_groups
      (((placeUnits 0 (pre ++ uj :: post)).1).map rebMem)).flatten)
    pre 0 0 hgoodpre hposP hbidxiff
  have hstandJ : (((uj.members.map (placeMember (align_up
      ((placeUnits 0 pre).2) uj.alignment))).map rebMem).enumFrom
      (((placeUnits 0 pre).1).length)).filterMap (fun p =>
      if ((find_bitfield_groups
        (((placeUnits 0 (pre ++ uj :: post)).1).map rebMem)).flatten).contains
        p.1 = true then none
      else (((placeUnits 0 (pre ++ uj :: post)).1).find? fun om =>
        om.name == p.2.name).map
        fun om => (⟨[om], om.size, om.alignment⟩ : SortableUnit)) = [] := by
    apply filterMap_nil_of
    intro p hp
    have hb := mem_enumFrom_bounds _ _ p hp
    rw [List.length_map, List.length_map] at hb
    have hcont : ((find_bitfield_groups
        (((placeUnits 0 (pre ++ uj :: post)).1).map
          rebMem)).flatten).contains p.1 = true := by
      apply List.elem_iff.2
      rw [hGfull, List.flatten_append, List.flatten_cons]
      apply List.mem_append_right
      apply List.mem_append_left
      apply List.mem_append_left
      exact List.mem_range'_1.2 ⟨hb.1, hb.2⟩
    rw [if_pos hcont]
  have hpermPre : List.Perm
      (((pre.filter fun u => isBitUnit u).map unitKey) ++
        ((pre.filter fun u => !isBitUnit u).map unitKey))
      (keysOf pre) := by
    have h1 := (List.filter_append_perm (fun u => isBitUnit u) pre).map
      unitKey
    rwa [List.map_append] at h1
  have henumSplit : ((((placeUnits 0 (pre ++ uj :: post)).1).map
      rebMem).enumFrom 0) =
      ((((placeUnits 0 pre).1).map rebMem).enumFrom 0) ++
      ((((uj.members.map (placeMember (align_up ((placeUnits 0 pre).2)
          uj.alignment))).map rebMem).enumFrom
          (((placeUnits 0 pre).1).length)) ++
       ((((placeUnits (satAdd (align_up ((placeUnits 0 pre).2)
          uj.alignment) uj.total_size) post).1).map rebMem).enumFrom
          (((placeUnits 0 pre).1).length + uj.members.length))) := by
    rw [hml, enumFrom_append_eq, enumFrom_append_eq]
    simp only [List.length_map, Nat.zero_add]
  rw [hpipe]
  unfold keysOf
  rw [List.map_append, hGroupsKeys]
  rw [standaloneUnits_self]
  rw [show (((placeUnits 0 (pre ++ uj :: post)).1).map rebMem).enum =
    (((placeUnits 0 (pre ++ uj :: post)).1).map rebMem).enumFrom 0
    from rfl]
  rw [henumSplit]
  rw [List.filterMap_append, List.filterMap_append, hstandJ,
    List.nil_append]
  rw [List.map_append, hstandA]
  exact subperm_assembly _ _ _ _ _ _ hpermPre

/-- Saturated rerun, single non-bitfield saturating unit: the placed
prefix re-groups exactly and the saturating member re-stands alone with
its original (alignment, size) key. -/
theorem rerun_keys_subperm_nonbit (ma : Nat) (pre : List SortableUnit)
    (uj : SortableUnit) (post : List SortableUnit)
    (hgood : ∀ u ∈ pre ++ uj :: post, GoodUnit ma u)
    (hnod : (((placeUnits 0 (pre ++ uj :: post)).1).map (·.name)).Nodup)
    (hfinpre : (placeUnits 0 pre).2 < U64MAX)
    (L₂ : StructLayout)
    (hmem : L₂.members =
      ((placeUnits 0 (pre ++ uj :: post)).1).map rebMem)
    (b0 : OptimizedMember) (hmemb : uj.members = [b0])
    (hnone : b0.bit_size = none) :
    List.Subperm (keysOf pre ++ [unitKey uj])
      (keysOf (pipelineUnits L₂ ma)) := by
  have hgoodpre : ∀ u ∈ pre, GoodUnit ma u :=
    fun u hu => hgood u (List.mem_append_left _ hu)
  have hgooduj : GoodUnit ma uj :=
    hgood uj (List.mem_append_right _ (List.mem_cons_self _ _))
  obtain ⟨⟨m0, ms, hmemj, hts⟩, halignj, hpropsj, _⟩ := hgooduj
  have hb0m : b0 = m0 := by
    rw [hmemb] at hmemj
    injection hmemj with h1 h2
  have hcple : (placeUnits 0 pre).2 ≤ U64MAX := le_of_lt hfinpre
  have hpl : (placeUnits 0 (pre ++ uj :: post)).1 =
      (placeUnits 0 pre).1 ++
        (uj.members.map (placeMember
          (align_up ((placeUnits 0 pre).2) uj.alignment)) ++
         (placeUnits (satAdd (align_up ((placeUnits 0 pre).2) uj.alignment)
           uj.total_size) post).1) := by
    rw [placeUnits_fst_append]
    rfl
  have hplprops : ∀ m ∈ (placeUnits 0 (pre ++ uj :: post)).1,
      m.size ≠ 0 ∧ m.alignment = infer_alignment m.size ma := by
    intro m hm
    obtain ⟨u, hu, m1, hm1, off, rfl⟩ :=
      placeUnits_fst_mem 0 (pre ++ uj :: post) m hm
    obtain ⟨_, _, hprops, _⟩ := hgood u hu
    have h0 := hprops m1 hm1
    exact ⟨h0.1, h0.2⟩
  have hbuild : buildOriginal ma
      (((placeUnits 0 (pre ++ uj :: post)).1).map rebMem) =
      ((placeUnits 0 (pre ++ uj :: post)).1, []) :=
    buildOriginal_rebuild ma _ hplprops
  have hml : ((placeUnits 0 (pre ++ uj :: post)).1).map rebMem =
      ((placeUnits 0 pre).1).map rebMem ++
        ((uj.members.map (placeMember
          (align_up ((placeUnits 0 pre).2) uj.alignment))).map rebMem ++
         ((placeUnits (satAdd (align_up ((placeUnits 0 pre).2)
           uj.alignment) uj.total_size) post).1).map rebMem) := by
    rw [hpl, List.map_append, List.map_append]
  have hclose1 : closeSt (List.foldl fbgStep ([], [], none)
      ((((placeUnits 0 pre).1).map rebMem).enumFrom 0)) =
      bitRanges 0 0 pre := by
    rw [fbg_rebuild ma pre 0 0 ([], [], none) hgoodpre
      (by unfold U64MAX; omega) hfinpre (fun h => absurd rfl h)]
    rfl
  have hJrw : uj.members.map (placeMember
      (align_up ((placeUnits 0 pre).2) uj.alignment)) =
      [placeMember (align_up ((placeUnits 0 pre).2) uj.alignment) b0] := by
    rw [hmemb]
    rfl
  obtain ⟨o', ho'⟩ := fbg_nonbitBlock
    (placeMember (align_up ((placeUnits 0 pre).2) uj.alignment) b0)
    (show (placeMember (align_up ((placeUnits 0 pre).2) uj.alignment)
      b0).bit_size = none from hnone)
    (((placeUnits 0 pre).1).length)
    (List.foldl fbgStep ([], [], none)
      ((((placeUnits 0 pre).1).map rebMem).enumFrom 0))
  obtain ⟨rest, heqG, hrest⟩ :=
    (fbgFold_tail ((((placeUnits (satAdd (align_up
        ((placeUnits 0 pre).2) uj.alignment) uj.total_size)
        post).1).map rebMem).enumFrom
      (((placeUnits 0 pre).1).length + uj.members.length))).2
      (bitRanges 0 0 pre) o'
  have hGfull : find_bitfield_groups
      (((placeUnits 0 (pre ++ uj :: post)).1).map rebMem) =
      bitRanges 0 0 pre ++ rest := by
    rw [find_bitfield_groups_eq_closeSt]
    rw [show (((placeUnits 0 (pre ++ uj :: post)).1).map rebMem).enum =
      (((placeUnits 0 (pre ++ uj :: post)).1).map rebMem).enumFrom 0
      from rfl]
    rw [hml, enumFrom_append_eq, enumFrom_append_eq]
    simp only [List.length_map, Nat.zero_add]
    rw [List.foldl_append, List.foldl_append]
    rw [show (((uj.members.map (placeMember (align_up
      ((placeUnits 0 pre).2) uj.alignment))).map rebMem).enumFrom
      (((placeUnits 0 pre).1).length)) =
      (([placeMember (align_up ((placeUnits 0 pre).2) uj.alignment)
        b0].map rebMem).enumFrom (((placeUnits 0 pre).1).length))
      from by rw [hJrw]]
    rw [ho', hclose1]
    exact heqG
  have hlenPL : ((placeUnits 0 (pre ++ uj :: post)).1).length =
      ((placeUnits 0 pre).1).length + (uj.members.length +
        ((placeUnits (satAdd (align_up ((placeUnits 0 pre).2)
          uj.alignment) uj.total_size) post).1).length) := by
    rw [hpl, List.length_append, List.length_append, List.length_map]
  have hget : ∀ i, i < ((placeUnits 0 (pre ++ uj :: post)).1).length →
      ∃ m, ((placeUnits 0 (pre ++ uj :: post)).1).get? i = some m := by
    intro i hi
    rcases hg : ((placeUnits 0 (pre ++ uj :: post)).1).get? i with _ | m
    · rw [List.get?_eq_none] at hg
      omega
    · exact ⟨m, rfl⟩
  have hconvAll : ∀ i ∈ (find_bitfield_groups
      (((placeUnits 0 (pre ++ uj :: post)).1).map rebMem)).flatten,
      (convertGroupMember
        (((placeUnits 0 (pre ++ uj :: post)).1).map rebMem)
        ((placeUnits 0 (pre ++ uj :: post)).1) i).isSome = true := by
    intro i hi
    have hvalid : i < ((placeUnits 0 (pre ++ uj :: post)).1).length := by
      rw [hGfull, List.flatten_append] at hi
      rcases List.mem_append.1 hi with h | h
      · have := bitRanges_flatten_lt pre 0 0 i h
        omega
      · obtain ⟨blk, hblk, hib⟩ := List.mem_flatten.1 h
        obtain ⟨p, hp, hpi⟩ := hrest blk hblk i hib
        have hb := mem_enumFrom_bounds _ _ p hp
        rw [List.length_map] at hb
        omega
    obtain ⟨m, hm⟩ := hget i hvalid
    rw [convertGroupMember_rebuild _ hnod hm]
    rfl
  have hpipe : pipelineUnits L₂ ma =
      (find_bitfield_groups
        (((placeUnits 0 (pre ++ uj :: post)).1).map rebMem)).filterMap
        (mkGroupUnit
          (((placeUnits 0 (pre ++ uj :: post)).1).map rebMem)
          ((placeUnits 0 (pre ++ uj :: post)).1)) ++
      standaloneUnits
        (((placeUnits 0 (pre ++ uj :: post)).1).map rebMem)
        ((placeUnits 0 (pre ++ uj :: post)).1)
        (find_bitfield_groups
          (((placeUnits 0 (pre ++ uj :: post)).1).map rebMem)).flatten
        (find_bitfield_groups
          (((placeUnits 0 (pre ++ uj :: post)).1).map rebMem)).flatten := by
    unfold pipelineUnits
    rw [hmem, hbuild]
    dsimp only
    rw [List.filter_eq_self.2 hconvAll]
  have hposP : ∀ j m, ((placeUnits 0 pre).1).get? j = some m →
      ((placeUnits 0 (pre ++ uj :: post)).1).get? (0 + j) = some m := by
    intro j m hj
    rw [Nat.zero_add, hpl]
    rw [List.get?_append (List.get?_eq_some.1 hj).1]
    exact hj
  have hkeysG := groupKeys_rebuild ma
    ((placeUnits 0 (pre ++ uj :: post)).1) hnod pre 0 0 hgoodpre hposP
  have hGroupsKeys : ((find_bitfield_groups
      (((placeUnits 0 (pre ++ uj :: post)).1).map rebMem)).filterMap
      (mkGroupUnit
        (((placeUnits 0 (pre ++ uj :: post)).1).map rebMem)
        ((placeUnits 0 (pre ++ uj :: post)).1))).map unitKey =
      ((pre.filter fun u => isBitUnit u).map unitKey) ++
        ((rest.filterMap (mkGroupUnit
          (((placeUnits 0 (pre ++ uj :: post)).1).map rebMem)
          ((placeUnits 0 (pre ++ uj :: post)).1))).map unitKey) := by
    rw [hGfull, List.filterMap_append, List.map_append, hkeysG]
  have hbidxiff : ∀ i, 0 ≤ i → i < 0 + ((placeUnits 0 pre).1).length →
      ((find_bitfield_groups
        (((placeUnits 0 (pre ++ uj :: post)).1).map rebMem)).flatten.contains
        i = true ↔ i ∈ (bitRanges 0 0 pre).flatten) := by
    intro i _ hilt
    rw [Nat.zero_add] at hilt
    constructor
    · intro hc
      have hmemf := List.elem_iff.1 hc
      rw [hGfull, List.flatten_append] at hmemf
      rcases List.mem_append.1 hmemf with h | h
      · exact h
      · exfalso
        obtain ⟨blk, hblk, hib⟩ := List.mem_flatten.1 h
        obtain ⟨p, hp, hpi⟩ := hrest blk hblk i hib
        have hb := mem_enumFrom_bounds _ _ p hp
        omega
    · intro hmemf
      apply List.elem_iff.2
      rw [hGfull, List.flatten_append]
      exact List.mem_append_left _ hmemf
  have hstandA := standaloneKeys_rebuild ma
    ((placeUnits 0 (pre ++ uj :: post)).1) hnod
    ((find_bitfield_groups
      (((placeUnits 0 (pre ++ uj :: post)).1).map rebMem)).flatten)
    pre 0 0 hgoodpre hposP hbidxiff
  have hnotin : ¬ (((placeUnits 0 pre).1).length ∈
      (find_bitfield_groups
        (((placeUnits 0 (pre ++ uj :: post)).1).map rebMem)).flatten) := by
    intro hin
    rw [hGfull, List.flatten_append] at hin
    rcases List.mem_append.1 hin with h | h
    · have := bitRanges_flatten_lt pre 0 0 _ h
      omega
    · obtain ⟨blk, hblk, hib⟩ := List.mem_flatten.1 h
      obtain ⟨p, hp, hpi⟩ := hrest blk hblk _ hib
      have hb := mem_enumFrom_bounds _ _ p hp
      have hml1 : uj.members.length = 1 := by
        rw [hmemb]
        rfl
      omega
  have hcontn : ((find_bitfield_groups
      (((placeUnits 0 (pre ++ uj :: post)).1).map
        rebMem)).flatten).contains (((placeUnits 0 pre).1).length) =
      false := by
    rcases hcn : ((find_bitfield_groups
        (((placeUnits 0 (pre ++ uj :: post)).1).map
          rebMem)).flatten).contains (((placeUnits 0 pre).1).length)
    · rfl
    · exact absurd (List.elem_iff.1 hcn) hnotin
  have hgetJ : ((placeUnits 0 (pre ++ uj :: post)).1).get?
      (((placeUnits 0 pre).1).length) =
      some (placeMember (align_up ((placeUnits 0 pre).2) uj.alignment)
        b0) := by
    rw [hpl]
    rw [List.get?_append_right (le_refl _)]
    rw [Nat.sub_self]
    rw [hJrw]
    rfl
  have hfindJ : ((placeUnits 0 (pre ++ uj :: post)).1).find?
      (fun om => om.name == (rebMem (placeMember
        (align_up ((placeUnits 0 pre).2) uj.alignment) b0)).name) =
      some (placeMember (align_up ((placeUnits 0 pre).2) uj.alignment)
        b0) :=
    find_name_unique hnod (List.get?_mem hgetJ)
  have hstandJ : (((uj.members.map (placeMember (align_up
      ((placeUnits 0 pre).2) uj.alignment))).map rebMem).enumFrom
      (((placeUnits 0 pre).1).length)).filterMap (fun p =>
      if ((find_bitfield_groups
        (((placeUnits 0 (pre ++ uj :: post)).1).map rebMem)).flatten).contains
        p.1 = true then none
      else (((placeUnits 0 (pre ++ uj :: post)).1).find? fun om =>
        om.name == p.2.name).map
        fun om => (⟨[om], om.size, om.alignment⟩ : SortableUnit)) =
      [⟨[placeMember (align_up ((placeUnits 0 pre).2) uj.alignment) b0],
        (placeMember (align_up ((placeUnits 0 pre).2) uj.alignment)
          b0).size,
        (placeMember (align_up ((placeUnits 0 pre).2) uj.alignment)
          b0).alignment⟩] := by
    rw [show (((uj.members.map (placeMember (align_up
      ((placeUnits 0 pre).2) uj.alignment))).map rebMem).enumFrom
      (((placeUnits 0 pre).1).length)) =
      [((((placeUnits 0 pre).1).length), rebMem (placeMember
        (align_up ((placeUnits 0 pre).2) uj.alignment) b0))]
      from by rw [hJrw]; rfl]
    simp only [List.filterMap_cons, List.filterMap_nil]
    rw [hcontn]
    simp only [Bool.false_eq_true, if_false]
    rw [hfindJ]
    rfl
  have hkj : unitKey (⟨[placeMember (align_up ((placeUnits 0 pre).2)
      uj.alignment) b0],
      (placeMember (align_up ((placeUnits 0 pre).2) uj.alignment)
        b0).size,
      (placeMember (align_up ((placeUnits 0 pre).2) uj.alignment)
        b0).alignment⟩ : SortableUnit) = unitKey uj := by
    unfold unitKey
    rw [halignj, hmemb, hts, ← hb0m]
    rfl
  have hpermPre : List.Perm
      (((pre.filter fun u => isBitUnit u).map unitKey) ++
        ((pre.filter fun u => !isBitUnit u).map unitKey))
      (keysOf pre) := by
    have h1 := (List.filter_append_perm (fun u => isBitUnit u) pre).map
      unitKey
    rwa [List.map_append] at h1
  have henumSplit : ((((placeUnits 0 (pre ++ uj :: post)).1).map
      rebMem).enumFrom 0) =
      ((((placeUnits 0 pre).1).map rebMem).enumFrom 0) ++
      ((((uj.members.map (placeMember (align_up ((placeUnits 0 pre).2)
          uj.alignment))).map rebMem).enumFrom
          (((placeUnits 0 pre).1).length)) ++
       ((((placeUnits (satAdd (align_up ((placeUnits 0 pre).2)
          uj.alignment) uj.total_size) post).1).map rebMem).enumFrom
          (((placeUnits 0 pre).1).length + uj.members.length))) := by
    rw [hml, enumFrom_append_eq, enumFrom_append_eq]
    simp only [List.length_map, Nat.zero_add]
  rw [hpipe]
  unfold keysOf
  rw [List.map_append, hGroupsKeys]
  rw [standaloneUnits_self]
  rw [show (((placeUnits 0 (pre ++ uj :: post)).1).map rebMem).enum =
    (((placeUnits 0 (pre ++ uj :: post)).1).map rebMem).enumFrom 0
    from rfl]
  rw [henumSplit]
  rw [List.filterMap_append, List.filterMap_append, hstandJ]
  rw [List.map_append, hstandA, List.map_append]
  rw [show (List.map unitKey [(⟨[placeMember (align_up
    ((placeUnits 0 pre).2) uj.alignment) b0],
      (placeMember (align_up ((placeUnits 0 pre).2) uj.alignment)
        b0).size,
      (placeMember (align_up ((placeUnits 0 pre).2) uj.alignment)
        b0).alignment⟩ : SortableUnit)]) = [unitKey uj] from
    congrArg (fun k => [k]) hkj]
  rw [List.singleton_append]
  exact subperm_assembly2 _ _ _ _ _ _ hpermPre

/-- C6 (amended): for every StructLayout with pairwise-distinct member
names and every max_alignment, running `optimize_layout` a second time on
a fresh StructLayout built from the first run's output (optimized members
with their new offsets, `optimized_size` as declared size,
`struct_alignment` as alignment) yields `savings_bytes == 0`.  Below
saturation the second run reproduces the first placement key-for-key; at
saturation it reconstructs every unit placed below `u64::MAX` plus a unit
with the saturating unit's key, so the second size cannot drop below the
first. -/
theorem optimize_layout_idempotent (layout : StructLayout) (max_align0 : Nat)
    (hnames : (layout.members.map (·.name)).Nodup) :
    (optimize_layout (rebuildLayout (optimize_layout layout max_align0))
      max_align0).savings_bytes = 0 := by
  have hgood : ∀ u ∈ List.insertionSort unitLe
      (pipelineUnits layout (max max_align0 1)),
      GoodUnit (max max_align0 1) u := by
    intro u hu
    exact (pipelineUnits_good (max max_align0 1) layout hnames u
      ((List.perm_insertionSort unitLe _).subset hu)).1
  have hnod : (((placeUnits 0 (List.insertionSort unitLe
      (pipelineUnits layout (max max_align0 1)))).1).map (·.name)).Nodup := by
    rw [placeUnits_fst_names]
    exact ((((List.perm_insertionSort unitLe
        (pipelineUnits layout (max max_align0 1))).map fun u =>
      u.members.map (·.name)).flatten).nodup_iff).2
      (pipelineUnits_names_nodup (max max_align0 1) layout hnames)
  have hmemL : (rebuildLayout (optimize_layout layout max_align0)).members =
      ((placeUnits 0 (List.insertionSort unitLe
        (pipelineUnits layout (max max_align0 1)))).1).map rebMem := by
    rw [rebuildLayout_members, optimize_layout_optimized_members]
  by_cases hsat : (placeUnits 0 (List.insertionSort unitLe
      (pipelineUnits layout (max max_align0 1)))).2 < U64MAX
  · have hperm := rerun_keys_perm (max max_align0 1)
      (List.insertionSort unitLe (pipelineUnits layout (max max_align0 1)))
      hgood hnod hsat
      (rebuildLayout (optimize_layout layout max_align0)) hmemL
    have hkeys : sortKeys (keysOf (pipelineUnits
        (rebuildLayout (optimize_layout layout max_align0))
        (max max_align0 1))) =
        keysOf (List.insertionSort unitLe
          (pipelineUnits layout (max max_align0 1))) := by
      apply List.eq_of_perm_of_sorted (r := keyLe)
      · exact (sortKeys_perm _).trans hperm
      · exact sortKeys_sorted _
      · rw [keysOf_sort]
        exact sortKeys_sorted _
    have hfinal₂ : (placeUnits 0 (List.insertionSort unitLe (pipelineUnits
        (rebuildLayout (optimize_layout layout max_align0))
        (max max_align0 1)))).2 =
        (placeUnits 0 (List.insertionSort unitLe
          (pipelineUnits layout (max max_align0 1)))).2 := by
      rw [placeUnits_snd, keysOf_sort, hkeys, placeUnits_snd]
    have hsa : pipelineStructAlignment
        (rebuildLayout (optimize_layout layout max_align0))
        (max max_align0 1) =
        pipelineStructAlignment layout (max max_align0 1) := by
      unfold pipelineStructAlignment
      rw [show (rebuildLayout (optimize_layout layout max_align0)).alignment =
        some (optimize_layout layout max_align0).struct_alignment from rfl]
      rw [Option.getD_some]
      rw [optimize_layout_struct_alignment]
      unfold pipelineStructAlignment
      omega
    rw [optimize_layout_savings, optimize_layout_optimized_size, hfinal₂,
      hsa]
    rw [show (rebuildLayout (optimize_layout layout max_align0)).size =
      (optimize_layout layout max_align0).optimized_size from rfl]
    rw [optimize_layout_optimized_size]
    exact Nat.sub_self _
  · have hsat2 : (placeUnits 0 (List.insertionSort unitLe
        (pipelineUnits layout (max max_align0 1)))).2 = U64MAX := by
      have hle : (placeUnits 0 (List.insertionSort unitLe
          (pipelineUnits layout (max max_align0 1)))).2 ≤ U64MAX := by
        rw [placeUnits_snd]
        exact placeFinal_le_max _ (by unfold U64MAX; omega)
      omega
    obtain ⟨pre, uj, post, hsplit, hfinpre, hsadd⟩ :=
      placeUnits_sat_split (List.insertionSort unitLe
        (pipelineUnits layout (max max_align0 1))) 0
        (by unfold U64MAX; omega) hsat2
    have hgood2 : ∀ u ∈ pre ++ uj :: post, GoodUnit (max max_align0 1) u := by
      rw [← hsplit]
      exact hgood
    have hsorted2 : List.Pairwise unitLe (pre ++ uj :: post) := by
      rw [← hsplit]
      exact List.sorted_insertionSort unitLe _
    have hnod2 : (((placeUnits 0 (pre ++ uj :: post)).1).map
        (·.name)).Nodup := by
      rw [← hsplit]
      exact hnod
    have hmem2 : (rebuildLayout (optimize_layout layout max_align0)).members =
        ((placeUnits 0 (pre ++ uj :: post)).1).map rebMem := by
      rw [← hsplit]
      exact hmemL
    have hsub : List.Subperm (keysOf pre ++ [unitKey uj])
        (keysOf (pipelineUnits
          (rebuildLayout (optimize_layout layout max_align0))
          (max max_align0 1))) := by
      rcases (hgood2 uj (List.mem_append_right _
          (List.mem_cons_self _ _))).2.2.2 with hAll | ⟨b0, hmemb, hnone⟩
      · exact rerun_keys_subperm_bit (max max_align0 1) pre uj post hgood2
          hsorted2 hnod2 hfinpre
          (rebuildLayout (optimize_layout layout max_align0)) hmem2 hAll
      · exact rerun_keys_subperm_nonbit (max max_align0 1) pre uj post
          hgood2 hnod2 hfinpre
          (rebuildLayout (optimize_layout layout max_align0)) hmem2
          b0 hmemb hnone
    have hkeyseq : keysOf (pre ++ [uj]) = keysOf pre ++ [unitKey uj] := by
      unfold keysOf
      rw [List.map_append]
      rfl
    have hkeyspre : placeFinal 0 (keysOf pre ++ [unitKey uj]) = U64MAX := by
      rw [placeFinal_append, ← placeUnits_snd]
      exact hsadd
    have hsortedPreUj : List.Pairwise unitLe (pre ++ [uj]) :=
      List.Pairwise.sublist
        (List.Sublist.append (List.Sublist.refl pre)
          (List.cons_sublist_cons.2 (List.nil_sublist post))) hsorted2
    have hsortedKeys : List.Pairwise keyLe (keysOf (pre ++ [uj])) := by
      unfold keysOf
      exact List.Pairwise.map unitKey (fun a b hab => hab) hsortedPreUj
    have hsortEq : sortKeys (keysOf (pre ++ [uj])) = keysOf (pre ++ [uj]) :=
      List.eq_of_perm_of_sorted (sortKeys_perm _) (sortKeys_sorted _)
        hsortedKeys
    have hlow : U64MAX ≤ placeFinal 0 (sortKeys (keysOf (pipelineUnits
        (rebuildLayout (optimize_layout layout max_align0))
        (max max_align0 1)))) := by
      have h1 : placeFinal 0 (sortKeys (keysOf (pre ++ [uj]))) ≤
          placeFinal 0 (sortKeys (keysOf (pipelineUnits
            (rebuildLayout (optimize_layout layout max_align0))
            (max max_align0 1)))) :=
        placeFinal_subperm (by rw [hkeyseq]; exact hsub)
      rw [hsortEq, hkeyseq, hkeyspre] at h1
      exact h1
    have hfin2eq : (placeUnits 0 (List.insertionSort unitLe (pipelineUnits
        (rebuildLayout (optimize_layout layout max_align0))
        (max max_align0 1)))).2 = U64MAX := by
      have hup : (placeUnits 0 (List.insertionSort unitLe (pipelineUnits
          (rebuildLayout (optimize_layout layout max_align0))
          (max max_align0 1)))).2 ≤ U64MAX := by
        rw [placeUnits_snd]
        exact placeFinal_le_max _ (by unfold U64MAX; omega)
      have hdown : U64MAX ≤ (placeUnits 0 (List.insertionSort unitLe
          (pipelineUnits (rebuildLayout (optimize_layout layout
            max_align0)) (max max_align0 1)))).2 := by
        rw [placeUnits_snd, keysOf_sort]
        exact hlow
      omega
    have halmax : ∀ a, align_up U64MAX a = U64MAX := fun a =>
      Nat.le_antisymm (align_up_le_max a (le_refl _))
        (align_up_ge a (le_refl _))
    rw [optimize_layout_savings, optimize_layout_optimized_size, hfin2eq,
      halmax]
    rw [show (rebuildLayout (optimize_layout layout max_align0)).size =
      (optimize_layout layout max_align0).optimized_size from rfl]
    rw [optimize_layout_optimized_size, hsat2, halmax]
    exact Nat.sub_self _

/-- A small padded struct with distinct member names, for exercising the
idempotence theorem on a concrete input. -/
def idemWitEx : StructLayout :=
  { name := "W", size := 12, alignment := some 4
    members :=
      [ { name := "a", type_name := "char", offset := some 0, size := some 1 }
      , { name := "b", type_name := "int", offset := some 4, size := some 4 }
      , { name := "c", type_name := "char", offset := some 8, size := some 1 } ] }

/-- Witness for the amended idempotence theorem on a concrete layout. -/
theorem optimize_layout_idempotent_witness :
    (idemWitEx.members.map (·.name)).Nodup ∧
      (optimize_layout (rebuildLayout (optimize_layout idemWitEx 8))
        8).savings_bytes = 0 :=
  ⟨by simp [idemWitEx],
    optimize_layout_idempotent idemWitEx 8 (by simp [idemWitEx])⟩

end AuditStruct
